import Mathlib

/-! Tenant-scoped step scheduler (pkg/scheduling/v2/scheduler.go).

A shallow embedding of the in-memory scheduler: slot inventory, replenish,
batched assignment, ack and nack.

Conventions of the embedding.

* Slots are shared by pointer between the action table and the unacked
  registry.  The embedding keeps every slot in an arena (`Scheduler.heap`);
  a slot pointer is an index into the arena and allocation appends.
* Go maps are association lists with unique keys (`mapGet`, `mapSet`,
  `mapDelete`); a range loop over a map visits the entries in list order.
* Instants are integers counted from the Go zero time, so instant 0 is the
  zero time.  One call reads one value of the clock (`now`).
* A function value `func()` is a closure handle; the nil function is `none`.
  Firing a closure, and every call made to the rate limiter or to a slot ack
  or nack, is recorded in `Scheduler.trace`.
* Go `int` is 64 bits wide on the supported platforms; the counters here
  (`assignedCount`, slot counts) move by one per event and are kept as
  unbounded integers.
* A run-time panic (slice bounds out of range, integer division by zero) is
  the result `none`.
* Goroutines of one sub-batch are run one after another, in an order chosen
  by the `picks` argument; partitions of one `tryAssign` call are run one
  after another in order of first appearance.
-/

namespace Hatchet

/-! ## Go maps as association lists -/

/-- Map lookup `m[k]` with the comma-ok result. -/
def mapGet {κ α : Type} [DecidableEq κ] : List (κ × α) → κ → Option α
  | [], _ => none
  | (k', v) :: m, k => if k' = k then some v else mapGet m k

/-- Map store `m[k] = v`: overwrite the entry in place, or add a new entry. -/
def mapSet {κ α : Type} [DecidableEq κ] : List (κ × α) → κ → α → List (κ × α)
  | [], k, v => [(k, v)]
  | (k', v') :: m, k, v => if k' = k then (k, v) :: m else (k', v') :: mapSet m k v

/-- Map removal `delete(m, k)`. -/
def mapDelete {κ α : Type} [DecidableEq κ] (m : List (κ × α)) (k : κ) : List (κ × α) :=
  m.filter (fun e => decide (e.1 ≠ k))

/-- Lookup of a slice-valued map entry; a missing key reads as the nil slice. -/
def mapGetList {κ α : Type} [DecidableEq κ] (m : List (κ × List α)) (k : κ) : List α :=
  (mapGet m k).getD []

/-! ## Data model -/

/-- Closure handles for the two closures of a rate-limit reservation; the
reservation is named by its position in the trace. -/
inductive closure where
  | rlAck (reservation : Nat)
  | rlNack (reservation : Nat)
deriving DecidableEq, Repr

/-- Calls that leave the scheduler, in the order they are made. -/
inductive event where
  | rlUse (stepRunId : String) (rls : List (String × Int)) (succeeded : Bool)
  | fired (c : closure)
  | slotAck (p : Nat)
  | slotNack (p : Nat)
deriving DecidableEq, Repr

/-- Value of a worker label or of a desired label. -/
inductive labelValue where
  | str (s : String)
  | int (i : Int)
deriving DecidableEq, Repr

/-- Worker snapshot entry given to `setWorkers` (`ListActiveWorkersResult`):
the fields the scheduler reads. -/
structure worker where
  ID : String
  Labels : List (String × labelValue)
deriving DecidableEq, Repr

/-- Modelled from the spec: the slot type (section 4.2), which is not among the
sources.  State `{expiry, usedOnce, workerId, workerLabels, actions,
rateLimitAcks, rateLimitNacks}`; the active flag of the spec is the value of
`slot.active`. -/
structure slot where
  expiry : Int
  usedOnce : Bool
  workerId : String
  workerLabels : List (String × labelValue)
  actions : List String
  rateLimitAcks : List (Option closure)
  rateLimitNacks : List (Option closure)
deriving DecidableEq, Repr

/-- Modelled from the spec: the action entry (section 4.3), which is not among
the sources: the shuffled slot pointers and the two replenish hints. -/
structure action where
  slots : List Nat
  lastReplenishedSlotCount : Int
  lastReplenishedWorkerCount : Int
deriving DecidableEq, Repr

/-- Sticky strategy of a queue item. -/
inductive StickyStrategy where
  | SOFT
  | HARD
deriving DecidableEq, Repr

/-- Queue item (`dbsqlc.QueueItem`): the fields the scheduler reads.
`Sticky = none` is a null sticky strategy (`Sticky.Valid = false`);
`ScheduleTimeoutAt = 0` is the zero time. -/
structure QueueItem where
  ID : Int
  StepRunId : String
  StepId : String
  ActionId : String
  ScheduleTimeoutAt : Int
  Sticky : Option StickyStrategy
  DesiredWorkerId : Option String
deriving DecidableEq, Repr

/-- Comparator of a desired label. -/
inductive labelComparator where
  | EQUAL
  | NOT_EQUAL
  | GREATER_THAN
deriving DecidableEq, Repr

/-- Desired label of a step (`dbsqlc.GetDesiredLabelsRow`). -/
structure GetDesiredLabelsRow where
  key : String
  value : labelValue
  required : Bool
  weight : Int
  comparator : labelComparator
deriving DecidableEq, Repr

/-- Row of the worker-action query. `ActionId = none` is a null action id. -/
structure ListActionsForWorkersRow where
  WorkerId : String
  ActionId : Option String
deriving DecidableEq, Repr

/-- Row of the available-slots query. -/
structure ListAvailableSlotsForWorkersRow where
  ID : String
  AvailableSlots : Int
deriving DecidableEq, Repr

/-- The two repository queries (`schedulerRepo`); `Except.error` is a non-nil
error. -/
structure schedulerRepo where
  ListActionsForWorkers : List String → Except String (List ListActionsForWorkersRow)
  ListAvailableSlotsForWorkers : List String → Except String (List ListAvailableSlotsForWorkersRow)

/-- Modelled from the spec: the rate limiter (section 4.1), which is not among
the sources.  The scheduler only consumes reserve, ack and nack, so the limiter
is any deterministic function of the calls made so far: `admits trace
stepRunId rls` is the `succeeded` flag of `use`. -/
structure rateLimiter where
  admits : List event → String → List (String × Int) → Bool

/-- The scheduler state (`Scheduler`), with the slot arena and the trace. -/
structure Scheduler where
  heap : List slot
  actions : List (String × action)
  workers : List (String × worker)
  assignedCount : Int
  unackedSlots : List (Int × Nat)
  trace : List event
deriving DecidableEq, Repr

/-- A scheduler with empty tables (`newScheduler`). -/
def newScheduler : Scheduler :=
  { heap := [], actions := [], workers := [], assignedCount := 0, unackedSlots := [], trace := [] }

/-! ## Slot operations -/

/-- Modelled from the spec: `active()` is `!usedOnce && now < expiry`
(section 4.2; the slot methods are not among the sources). -/
def slot.active (now : Int) (s : slot) : Bool :=
  !s.usedOnce && decide (now < s.expiry)

/-- Modelled from the spec: `expired()` is `now >= expiry` (section 4.2). -/
def slot.expired (now : Int) (s : slot) : Bool :=
  decide (now ≥ s.expiry)

/-- Modelled from the spec: `extendExpiry()` bumps the expiry by the slot TTL
(section 4.2). -/
def slot.extendExpiry (ttl : Int) (s : slot) : slot :=
  { s with expiry := s.expiry + ttl }

/-- Modelled from the spec: `use(acks, nacks)` sets `usedOnce` iff it was
false and then stores the closures; otherwise it returns false without
modification (section 4.2). -/
def slot.use (s : slot) (acks nacks : List (Option closure)) : Bool × slot :=
  if s.usedOnce then (false, s)
  else (true, { s with usedOnce := true, rateLimitAcks := acks, rateLimitNacks := nacks })

/-- Modelled from the spec: `newSlot(worker, actions)`, a fresh slot tagged
with the worker id, its labels and its action set, unused, expiring one TTL
from now (sections 4.2 and 4.5). -/
def newSlot (now ttl : Int) (workerId : String) (labels : List (String × labelValue))
    (actions : List String) : slot :=
  { expiry := now + ttl, usedOnce := false, workerId := workerId, workerLabels := labels,
    actions := actions, rateLimitAcks := [], rateLimitNacks := [] }

/-- Events of firing every non-nil closure of a stored list. -/
def fireAll (cs : List (Option closure)) : List event :=
  cs.filterMap (fun c => c.map event.fired)

/-- Modelled from the spec: `slot.ack()` fires the stored rate-limit acks
(section 4.2).  The events of the call on the slot at pointer `p`. -/
def slotAckEvents (heap : List slot) (p : Nat) : List event :=
  event.slotAck p :: (match heap[p]? with
    | some sl => fireAll sl.rateLimitAcks
    | none => [])

/-- Modelled from the spec: `slot.nack()` fires the stored rate-limit nacks and
leaves `usedOnce` set (sections 4.2 and 9). -/
def slotNackEvents (heap : List slot) (p : Nat) : List event :=
  event.slotNack p :: (match heap[p]? with
    | some sl => fireAll sl.rateLimitNacks
    | none => [])

/-- Whether the slot behind a pointer is active. -/
def slotActive (now : Int) (heap : List slot) (p : Nat) : Bool :=
  match heap[p]? with
  | some sl => sl.active now
  | none => false

/-- Whether the slot behind a pointer is expired. -/
def slotExpired (now : Int) (heap : List slot) (p : Nat) : Bool :=
  match heap[p]? with
  | some sl => sl.expired now
  | none => false

/-- Modelled from the spec: `action.activeCount()` is the number of active
slots of the entry (section 4.3). -/
def action.activeCount (now : Int) (heap : List slot) (a : action) : Int :=
  ((a.slots.filter (fun p => slotActive now heap p)).length : Int)

/-! ## ack, nack, setWorkers -/

/-- `Scheduler.ack`: for each id still in the registry, ack the slot and
delete the entry. -/
def Scheduler.ack (s : Scheduler) : List Int → Scheduler
  | [] => s
  | id :: ids =>
    match mapGet s.unackedSlots id with
    | some p =>
      Scheduler.ack { s with trace := s.trace ++ slotAckEvents s.heap p,
                             unackedSlots := mapDelete s.unackedSlots id } ids
    | none => Scheduler.ack s ids

/-- `Scheduler.nack`: for each id still in the registry, nack the slot and
delete the entry. -/
def Scheduler.nack (s : Scheduler) : List Int → Scheduler
  | [] => s
  | id :: ids =>
    match mapGet s.unackedSlots id with
    | some p =>
      Scheduler.nack { s with trace := s.trace ++ slotNackEvents s.heap p,
                              unackedSlots := mapDelete s.unackedSlots id } ids
    | none => Scheduler.nack s ids

/-- `Scheduler.setWorkers`: build a new map keyed by worker id and replace
the stored one. -/
def Scheduler.setWorkers (s : Scheduler) (workers : List worker) : Scheduler :=
  { s with workers := workers.foldl (fun m w => mapSet m w.ID w) [] }

/-! ## Slot ranking -/

/-- Worker id of the slot behind a pointer (`slot.getWorkerId`). -/
def getWorkerId (heap : List slot) (p : Nat) : Option String :=
  (heap[p]?).map (fun sl => sl.workerId)

/-- Modelled from the spec: whether the comparator of a desired label is
satisfied by the worker labels (section 4.7); a worker without the key has no
satisfying value. -/
def labelSatisfied (workerLabels : List (String × labelValue)) (l : GetDesiredLabelsRow) : Bool :=
  match mapGet workerLabels l.key with
  | none => false
  | some v =>
    match l.comparator with
    | labelComparator.EQUAL => decide (v = l.value)
    | labelComparator.NOT_EQUAL => decide (v ≠ l.value)
    | labelComparator.GREATER_THAN =>
      match v, l.value with
      | labelValue.int a, labelValue.int b => decide (a > b)
      | labelValue.str a, labelValue.str b => decide (a > b)
      | _, _ => false

/-- Modelled from the spec: the label score of a slot (section 4.7): `none`
when a required label is not satisfied, else the sum of the weights of the
satisfied labels. -/
def labelScore (workerLabels : List (String × labelValue)) :
    List GetDesiredLabelsRow → Option Int
  | [] => some 0
  | l :: ls =>
    if labelSatisfied workerLabels l then (labelScore workerLabels ls).map (fun t => l.weight + t)
    else if l.required then none
    else labelScore workerLabels ls

/-- Label score of the slot behind a pointer. -/
def slotScore (heap : List slot) (labels : List GetDesiredLabelsRow) (p : Nat) : Option Int :=
  match heap[p]? with
  | some sl => labelScore sl.workerLabels labels
  | none => none

/-- Modelled from the spec: the sticky step of the ranking (section 4.7).
HARD with a desired worker filters to that worker, SOFT with a desired worker
moves its slots to the front, otherwise the order is kept. -/
def stickyRank (heap : List slot) (qi : QueueItem) (slots : List Nat) : List Nat :=
  match qi.Sticky, qi.DesiredWorkerId with
  | some StickyStrategy.HARD, some w =>
    slots.filter (fun p => decide (getWorkerId heap p = some w))
  | some StickyStrategy.SOFT, some w =>
    slots.filter (fun p => decide (getWorkerId heap p = some w))
      ++ slots.filter (fun p => !decide (getWorkerId heap p = some w))
  | _, _ => slots

/-- Modelled from the spec: the label step of the ranking (section 4.7): drop
the slots that miss a required label, then stable-sort by descending score. -/
def labelRank (heap : List slot) (labels : List GetDesiredLabelsRow) (slots : List Nat) : List Nat :=
  if labels.length > 0 then
    ((slots.filter (fun p => (slotScore heap labels p).isSome)).insertionSort
      (fun a b => (slotScore heap labels a).getD 0 ≥ (slotScore heap labels b).getD 0))
  else slots

/-- Modelled from the spec: `getRankedSlots` (section 4.7; the function is not
among the sources): the sticky step, then the label step. -/
def getRankedSlots (heap : List slot) (qi : QueueItem) (labels : List GetDesiredLabelsRow)
    (slots : List Nat) : List Nat :=
  labelRank heap labels (stickyRank heap qi slots)

/-! ## Assignment -/

/-- Result of `rateLimiter.use`. -/
structure rateLimitResult where
  succeeded : Bool
  ack : Option closure
  nack : Option closure
deriving DecidableEq, Repr

/-- A failed reservation together with its queue item. -/
structure scheduleRateLimitResult where
  rateLimitResult : rateLimitResult
  qi : QueueItem
deriving DecidableEq, Repr

/-- Result for one queue item (`assignSingleResult`); `qi = none` is the nil
pointer. -/
structure assignSingleResult where
  qi : Option QueueItem
  workerId : String
  ackId : Int
  noSlots : Bool
  succeeded : Bool
  rateLimitResult : Option scheduleRateLimitResult
deriving DecidableEq, Repr

/-- The zero value of `assignSingleResult` with the queue item set. -/
def assignSingleResult.zero (qi : Option QueueItem) : assignSingleResult :=
  { qi := qi, workerId := "", ackId := 0, noSlots := false, succeeded := false,
    rateLimitResult := none }

/-- Modelled from the spec: `rateLimiter.use` (section 4.1): the limiter decides,
the call is recorded, and the result carries the two closures of the
reservation. -/
def rateLimiter.use (rl : rateLimiter) (trace : List event) (stepRunId : String)
    (rls : List (String × Int)) : rateLimitResult × List event :=
  let ok := rl.admits trace stepRunId rls
  ({ succeeded := ok, ack := some (closure.rlAck trace.length),
     nack := some (closure.rlNack trace.length) },
   trace ++ [event.rlUse stepRunId rls ok])

/-- `findSlot`: the first candidate that is active and whose `use` succeeds;
returns the pointer (nil is `none`) and the arena after the call. -/
def findSlot (now : Int) (heap : List slot) (rateLimitAck rateLimitNack : Option closure) :
    List Nat → Option Nat × List slot
  | [] => (none, heap)
  | p :: candidateSlots =>
    match heap[p]? with
    | none => findSlot now heap rateLimitAck rateLimitNack candidateSlots
    | some sl =>
      if !sl.active now then findSlot now heap rateLimitAck rateLimitNack candidateSlots
      else
        match sl.use [rateLimitAck] [rateLimitNack] with
        | (false, _) => findSlot now heap rateLimitAck rateLimitNack candidateSlots
        | (true, sl') => (some p, heap.set p sl')

/-- `Scheduler.tryAssignSingleton`.  The slice expressions
`candidateSlots[ringOffset:]` and `candidateSlots[:ringOffset]` panic when
`ringOffset` exceeds the length of the (possibly re-ranked) list. -/
def Scheduler.tryAssignSingleton (s : Scheduler) (now : Int) (qi : QueueItem)
    (candidateSlots : List Nat) (ringOffset : Nat) (labels : List GetDesiredLabelsRow)
    (rateLimitAck rateLimitNack : Option closure) : Option (assignSingleResult × Scheduler) :=
  let candidateSlots :=
    if qi.Sticky.isSome || decide (labels.length > 0) then
      getRankedSlots s.heap qi labels candidateSlots
    else candidateSlots
  if ringOffset > candidateSlots.length then none
  else
    let first := findSlot now s.heap rateLimitAck rateLimitNack (candidateSlots.drop ringOffset)
    let found :=
      match first.1 with
      | some p => (some p, first.2)
      | none => findSlot now first.2 rateLimitAck rateLimitNack (candidateSlots.take ringOffset)
    match found.1 with
    | none =>
      some ({ assignSingleResult.zero none with noSlots := true }, { s with heap := found.2 })
    | some p =>
      let ackId := s.assignedCount + 1
      some ({ assignSingleResult.zero none with
                ackId := ackId, workerId := (getWorkerId found.2 p).getD "", succeeded := true },
            { s with heap := found.2, assignedCount := ackId,
                     unackedSlots := mapSet s.unackedSlots ackId p })

/-- First loop of `tryAssignBatch`: the rate-limit check of each queue item,
in input order.  Returns per item the initial result and the two closures
(`rlAcks[i]`, `rlNacks[i]`), and the trace after the calls. -/
def checkRateLimits (rl : rateLimiter) (stepRunIdsToRateLimits : List (String × List (String × Int))) :
    List event → List QueueItem →
      List (assignSingleResult × Option closure × Option closure) × List event
  | trace, [] => ([], trace)
  | trace, qi :: qis =>
    let rls := mapGetList stepRunIdsToRateLimits qi.StepRunId
    if rls.length > 0 then
      let rlResult := rl.use trace qi.StepRunId rls
      let rest := checkRateLimits rl stepRunIdsToRateLimits rlResult.2 qis
      if !rlResult.1.succeeded then
        (({ assignSingleResult.zero (some qi) with
              rateLimitResult := some { rateLimitResult := rlResult.1, qi := qi } },
          none, none) :: rest.1, rest.2)
      else
        ((assignSingleResult.zero (some qi), rlResult.1.ack, rlResult.1.nack) :: rest.1, rest.2)
    else
      let rest := checkRateLimits rl stepRunIdsToRateLimits trace qis
      ((assignSingleResult.zero (some qi), none, none) :: rest.1, rest.2)

/-- One spawned goroutine of `tryAssignBatch`: the index of its queue item, the
item, its ring offset and its two closures. -/
structure assignTask where
  i : Nat
  qi : QueueItem
  childRingOffset : Nat
  rlAck : Option closure
  rlNack : Option closure
deriving DecidableEq, Repr

/-- Spawn loop of `tryAssignBatch`: one task per item that is not rate
limited, with `childRingOffset = newRingOffset % len(candidateSlots)`; the
offset grows by one per task. -/
def spawnTasks (len : Nat) :
    Nat → Nat → List QueueItem → List (assignSingleResult × Option closure × Option closure) →
      List assignTask × Nat
  | _, newRingOffset, [], _ => ([], newRingOffset)
  | _, newRingOffset, _, [] => ([], newRingOffset)
  | i, newRingOffset, qi :: qis, r :: res =>
    if r.1.rateLimitResult.isSome then spawnTasks len (i + 1) newRingOffset qis res
    else
      let rest := spawnTasks len (i + 1) (newRingOffset + 1) qis res
      ({ i := i, qi := qi, childRingOffset := newRingOffset % len, rlAck := r.2.1, rlNack := r.2.2 }
        :: rest.1, rest.2)

/-- Order in which the goroutines of a sub-batch run: at each step the next
pick selects one of the tasks still waiting.  The first argument bounds the
number of steps; `tasks.length` runs every task. -/
def interleave {α : Type} : Nat → List Nat → List α → List α
  | 0, _, _ => []
  | _ + 1, _, [] => []
  | n + 1, picks, t :: ts =>
    let k := picks.headD 0 % (t :: ts).length
    (t :: ts).getD k t :: interleave n picks.tail ((t :: ts).eraseIdx k)

/-- The goroutines of a sub-batch, run one after another: each calls
`tryAssignSingleton` and stores the result, with its queue item, at its index.
A panic in any of them ends the process. -/
def runTasks (now : Int) (candidateSlots : List Nat)
    (stepIdsToLabels : List (String × List GetDesiredLabelsRow)) :
    Scheduler → List assignSingleResult → List assignTask →
      Option (List assignSingleResult × Scheduler)
  | s, res, [] => some (res, s)
  | s, res, t :: ts =>
    match s.tryAssignSingleton now t.qi candidateSlots t.childRingOffset
        (mapGetList stepIdsToLabels t.qi.StepId) t.rlAck t.rlNack with
    | none => none
    | some (singleRes, s') =>
      runTasks now candidateSlots stepIdsToLabels s'
        (res.set t.i { singleRes with qi := some t.qi }) ts

/-- `Scheduler.tryAssignBatch`: returns the results, the new ring offset and
the scheduler after the call; `none` is a panic. -/
def Scheduler.tryAssignBatch (s : Scheduler) (rl : rateLimiter) (picks : List Nat) (now : Int)
    (actionId : String) (qis : List QueueItem) (ringOffset : Nat)
    (stepIdsToLabels : List (String × List GetDesiredLabelsRow))
    (stepRunIdsToRateLimits : List (String × List (String × Int))) :
    Option (List assignSingleResult × Nat × Scheduler) :=
  let checked := checkRateLimits rl stepRunIdsToRateLimits s.trace qis
  let s1 := { s with trace := checked.2 }
  let res := checked.1.map (fun r => r.1)
  match mapGet s1.actions actionId with
  | none => some (res.map (fun r => { r with noSlots := true }), ringOffset, s1)
  | some a =>
    let candidateSlots := a.slots
    let spawned := spawnTasks candidateSlots.length 0 ringOffset qis checked.1
    if candidateSlots.length = 0 ∧ spawned.1 ≠ [] then none
    else
      match runTasks now candidateSlots stepIdsToLabels s1 res
          (interleave spawned.1.length picks spawned.1) with
      | none => none
      | some (res', s2) => some (res', spawned.2, s2)

/-- `isTimedOut`: the deadline is set and lies before the current time. -/
def isTimedOut (now : Int) (qi : QueueItem) : Bool :=
  !decide (qi.ScheduleTimeoutAt = 0) && decide (qi.ScheduleTimeoutAt < now)

/-- An assigned queue item (`AssignedQueueItem`). -/
structure AssignedQueueItem where
  AckId : Int
  WorkerId : String
  QueueItem : Option QueueItem
deriving DecidableEq, Repr

/-- One message on the result channel (`assignResults`). -/
structure assignResults where
  assigned : List AssignedQueueItem
  unassigned : List (Option QueueItem)
  schedulingTimedOut : List QueueItem
  rateLimited : List scheduleRateLimitResult
deriving DecidableEq, Repr

/-- Grouping loop of `tryAssign`: queue items by action id, in input order
within each group. -/
def groupByAction : List (String × List QueueItem) → List QueueItem → List (String × List QueueItem)
  | m, [] => m
  | m, qi :: qis => groupByAction (mapSet m qi.ActionId (mapGetList m qi.ActionId ++ [qi])) qis

/-- Modelled from the spec: `queueutils.BatchLinear` (not among the sources)
cuts the working batch into consecutive sub-batches of the given size
(section 4.6, step 3).  The first argument bounds the number of sub-batches. -/
def BatchLinear {α : Type} (batchSize : Nat) : Nat → List α → List (List α)
  | 0, _ => []
  | _ + 1, [] => []
  | n + 1, x :: xs => (x :: xs).take batchSize :: BatchLinear batchSize n ((x :: xs).drop batchSize)

/-- Result loop of the batch callback in `tryAssign`: sort the results of one
sub-batch into the buckets. -/
def collectResults :
    List AssignedQueueItem → List (Option QueueItem) → List scheduleRateLimitResult →
      List assignSingleResult →
      List AssignedQueueItem × List (Option QueueItem) × List scheduleRateLimitResult
  | batchAssigned, unassigned, rateLimited, [] => (batchAssigned, unassigned, rateLimited)
  | batchAssigned, unassigned, rateLimited, singleRes :: results =>
    if !singleRes.succeeded then
      match singleRes.rateLimitResult with
      | some r => collectResults batchAssigned unassigned (rateLimited ++ [r]) results
      | none =>
        if singleRes.noSlots then
          collectResults batchAssigned (unassigned ++ [singleRes.qi]) rateLimited results
        else collectResults batchAssigned unassigned rateLimited results
    else
      collectResults
        (batchAssigned ++ [{ WorkerId := singleRes.workerId, QueueItem := singleRes.qi,
                             AckId := singleRes.ackId }])
        unassigned rateLimited results

/-- State of one partition goroutine of `tryAssign` between sub-batches. -/
structure partitionState where
  s : Scheduler
  ringOffset : Nat
  unassigned : List (Option QueueItem)
  rateLimited : List scheduleRateLimitResult
  sent : List assignResults

/-- The sub-batches of one partition, in order: call `tryAssignBatch`, sort the
results and send the assigned items of the sub-batch. -/
def runBatches (rl : rateLimiter) (picks : String → Nat → List Nat) (now : Int) (actionId : String)
    (stepIdsToLabels : List (String × List GetDesiredLabelsRow))
    (stepRunIdsToRateLimits : List (String × List (String × Int))) :
    Nat → partitionState → List (List QueueItem) → Option partitionState
  | _, st, [] => some st
  | b, st, batchQis :: rest =>
    match st.s.tryAssignBatch rl (picks actionId b) now actionId batchQis st.ringOffset
        stepIdsToLabels stepRunIdsToRateLimits with
    | none => none
    | some (results, newRingOffset, s') =>
      let c := collectResults [] st.unassigned st.rateLimited results
      runBatches rl picks now actionId stepIdsToLabels stepRunIdsToRateLimits (b + 1)
        { s := s', ringOffset := newRingOffset, unassigned := c.2.1, rateLimited := c.2.2,
          sent := st.sent ++ [{ assigned := c.1, unassigned := [], schedulingTimedOut := [],
                                rateLimited := [] }] }
        rest

/-- One partition goroutine of `tryAssign`: filter the timed-out items, run the
sub-batches of 50, then send the three trailing buckets.  Returns the messages
sent and the scheduler after the partition. -/
def runPartition (rl : rateLimiter) (picks : String → Nat → List Nat) (now : Int)
    (stepIdsToLabels : List (String × List GetDesiredLabelsRow))
    (stepRunIdsToRateLimits : List (String × List (String × Int)))
    (s : Scheduler) (actionId : String) (qis : List QueueItem) :
    Option (List assignResults × Scheduler) :=
  let schedulingTimedOut := qis.filter (fun qi => isTimedOut now qi)
  let batched := qis.filter (fun qi => !isTimedOut now qi)
  match runBatches rl picks now actionId stepIdsToLabels stepRunIdsToRateLimits 0
      { s := s, ringOffset := 0, unassigned := [], rateLimited := [], sent := [] }
      (BatchLinear 50 batched.length batched) with
  | none => none
  | some st =>
    some (st.sent ++ [{ assigned := [], unassigned := st.unassigned,
                        schedulingTimedOut := schedulingTimedOut, rateLimited := st.rateLimited }],
          st.s)

/-- The partitions of one `tryAssign` call, one after another. -/
def runPartitions (rl : rateLimiter) (picks : String → Nat → List Nat) (now : Int)
    (stepIdsToLabels : List (String × List GetDesiredLabelsRow))
    (stepRunIdsToRateLimits : List (String × List (String × Int))) :
    Scheduler → List (String × List QueueItem) → Option (List assignResults × Scheduler)
  | s, [] => some ([], s)
  | s, (actionId, qis) :: rest =>
    match runPartition rl picks now stepIdsToLabels stepRunIdsToRateLimits s actionId qis with
    | none => none
    | some (msgs, s') =>
      match runPartitions rl picks now stepIdsToLabels stepRunIdsToRateLimits s' rest with
      | none => none
      | some (msgs', s'') => some (msgs ++ msgs', s'')

/-- `Scheduler.tryAssign`: the messages sent on the result channel until it is
closed, and the scheduler after the call; `none` is a panic. -/
def Scheduler.tryAssign (s : Scheduler) (rl : rateLimiter) (picks : String → Nat → List Nat)
    (now : Int) (qis : List QueueItem)
    (stepIdsToLabels : List (String × List GetDesiredLabelsRow))
    (stepRunIdsToRateLimits : List (String × List (String × Int))) :
    Option (List assignResults × Scheduler) :=
  runPartitions rl picks now stepIdsToLabels stepRunIdsToRateLimits s (groupByAction [] qis)

/-! ## Replenish -/

/-- Loop of `replenish` over the worker-action rows: builds
`actionsToWorkerIds` and `workerIdsToActions`; rows with a null action id are
skipped. -/
def buildActionMaps :
    List (String × List String) → List (String × List String) → List ListActionsForWorkersRow →
      List (String × List String) × List (String × List String)
  | actionsToWorkerIds, workerIdsToActions, [] => (actionsToWorkerIds, workerIdsToActions)
  | actionsToWorkerIds, workerIdsToActions, workerActionTuple :: rows =>
    match workerActionTuple.ActionId with
    | none => buildActionMaps actionsToWorkerIds workerIdsToActions rows
    | some actionId =>
      let workerId := workerActionTuple.WorkerId
      buildActionMaps
        (mapSet actionsToWorkerIds actionId (mapGetList actionsToWorkerIds actionId ++ [workerId]))
        (mapSet workerIdsToActions workerId (mapGetList workerIdsToActions workerId ++ [actionId]))
        rows

/-- FUNCTION 1 of `replenish`, for one action: whether it is replenished. -/
def shouldReplenish (now : Int) (s : Scheduler) (mustReplenish : Bool) (actionId : String)
    (workers : List String) : Bool :=
  if mustReplenish then true
  else
    match mapGet s.actions actionId with
    | none => true
    | some storedAction =>
      let activeCount := storedAction.activeCount now s.heap
      if activeCount = 0 then true
      else if activeCount ≤ Int.tdiv storedAction.lastReplenishedSlotCount 2 then true
      else if (workers.length : Int) > storedAction.lastReplenishedWorkerCount then true
      else false

/-- FUNCTION 1 of `replenish`: the map `actionsToReplenish`. -/
def actionsToReplenish (now : Int) (s : Scheduler) (mustReplenish : Bool)
    (actionsToWorkerIds : List (String × List String)) : List (String × Bool) :=
  actionsToWorkerIds.foldl
    (fun m e => mapSet m e.1 (shouldReplenish now s mustReplenish e.1 e.2)) []

/-- FUNCTION 2 of `replenish`: the ids of the workers of the actions that are
replenished, each once. -/
def uniqueWorkerIds (actionsToWorkerIds : List (String × List String))
    (toReplenish : List (String × Bool)) : List String :=
  (toReplenish.foldl
    (fun (u : List (String × Bool)) e =>
      if !e.2 then u
      else (mapGetList actionsToWorkerIds e.1).foldl (fun u workerId => mapSet u workerId true) u)
    []).map (fun e => e.1)

/-- FUNCTION 3 of `replenish`: the unacked slots grouped by worker id. -/
def workersToUnackedSlots (heap : List slot) :
    List (String × List Nat) → List (Int × Nat) → List (String × List Nat)
  | m, [] => m
  | m, (_, p) :: rest =>
    match getWorkerId heap p with
    | none => workersToUnackedSlots heap m rest
    | some workerId => workersToUnackedSlots heap (mapSet m workerId (mapGetList m workerId ++ [p])) rest

/-- Loop `for i := 0; i < n; i++ { slots = append(slots, newSlot(...)) }`, with
the number of iterations left as first argument: allocates the fresh slots. -/
def createSlots (fresh : slot) : Nat → List slot → List Nat → List slot × List Nat
  | 0, heap, slots => (heap, slots)
  | n + 1, heap, slots => createSlots fresh n (heap ++ [fresh]) (slots ++ [heap.length])

/-- Loop calling `extendExpiry` on each unacked slot of the worker. -/
def extendAll (ttl : Int) : List slot → List Nat → List slot
  | heap, [] => heap
  | heap, p :: ps =>
    match heap[p]? with
    | some sl => extendAll ttl (heap.set p (sl.extendExpiry ttl)) ps
    | none => extendAll ttl heap ps

/-- Loop variables of FUNCTION 4 of `replenish`. -/
structure replenishState where
  heap : List slot
  actionsToNewSlots : List (String × List Nat)
  actionsToTotalSlots : List (String × Int)
deriving DecidableEq, Repr

/-- Slot group of one worker row: the fresh slots, created by a loop that runs
`int(worker.AvailableSlots) - len(unackedSlots)` times (not at all when that is
negative), followed by the unacked slots of the worker. Returns the arena after
the allocation and the group. -/
def workerSlots (now ttl : Int) (workers : List (String × worker))
    (workerIdsToActions : List (String × List String)) (unacked : List (String × List Nat))
    (heap : List slot) (row : ListAvailableSlotsForWorkersRow) : List slot × List Nat :=
  let workerId := row.ID
  let actions := mapGetList workerIdsToActions workerId
  let unackedSlots := mapGetList unacked workerId
  let labels := ((mapGet workers workerId).map (fun w => w.Labels)).getD []
  let created := createSlots (newSlot now ttl workerId labels actions)
    (row.AvailableSlots - (unackedSlots.length : Int)).toNat heap []
  (created.1, created.2 ++ unackedSlots)

/-- Body of the loop over the available-slots rows (FUNCTION 4): create the
fresh slots, extend the expiry of the unacked slots of the worker, and fold
the group into every action of the worker. -/
def replenishWorker (now ttl : Int) (workers : List (String × worker))
    (workerIdsToActions : List (String × List String)) (unacked : List (String × List Nat))
    (st : replenishState) (row : ListAvailableSlotsForWorkersRow) : replenishState :=
  let actions := mapGetList workerIdsToActions row.ID
  let group := workerSlots now ttl workers workerIdsToActions unacked st.heap row
  let slots := group.2
  actions.foldl
    (fun st actionId =>
      { st with
        actionsToNewSlots :=
          mapSet st.actionsToNewSlots actionId (mapGetList st.actionsToNewSlots actionId ++ slots),
        actionsToTotalSlots :=
          mapSet st.actionsToTotalSlots actionId
            ((mapGet st.actionsToTotalSlots actionId).getD 0 + (slots.length : Int)) })
    { st with heap := extendAll ttl group.1 (mapGetList unacked row.ID) }

/-- First pass of `replenish`: shuffle and write the new slots of each action. -/
def writeActions (shuffle : String → List Nat → List Nat)
    (actionsToWorkerIds : List (String × List String)) (actionsToTotalSlots : List (String × Int)) :
    List (String × action) → List (String × List Nat) → List (String × action)
  | actions, [] => actions
  | actions, (actionId, newSlots) :: rest =>
    let newSlots := shuffle actionId newSlots
    let workerCount := ((mapGetList actionsToWorkerIds actionId).length : Int)
    match mapGet actions actionId with
    | none =>
      writeActions shuffle actionsToWorkerIds actionsToTotalSlots
        (mapSet actions actionId
          { slots := newSlots, lastReplenishedSlotCount := (newSlots.length : Int),
            lastReplenishedWorkerCount := workerCount })
        rest
    | some _ =>
      writeActions shuffle actionsToWorkerIds actionsToTotalSlots
        (mapSet actions actionId
          { slots := newSlots,
            lastReplenishedSlotCount := (mapGet actionsToTotalSlots actionId).getD 0,
            lastReplenishedWorkerCount := workerCount })
        rest

/-- Second pass of `replenish`: drop the expired slots of every action. -/
def sweepExpired (now : Int) (heap : List slot) (actions : List (String × action)) :
    List (String × action) :=
  actions.map (fun e => (e.1, { e.2 with slots := e.2.slots.filter (fun p => !slotExpired now heap p) }))

/-- Third pass of `replenish`: remove the actions that have no slots. -/
def removeEmpty (actions : List (String × action)) : List (String × action) :=
  actions.filter (fun e => !decide (e.2.slots.length = 0))

/-- `Scheduler.replenish`.  Returns the error (`none` is nil) and the scheduler
after the call.  `shuffle actionId` is the permutation drawn for the action.
Calls are run one at a time, so the replenish lock is always free and the
best-effort skip is never taken. -/
def Scheduler.replenish (s : Scheduler) (repo : schedulerRepo)
    (shuffle : String → List Nat → List Nat) (now ttl : Int) (mustReplenish : Bool) :
    Option String × Scheduler :=
  let workers := s.workers
  let workerIds := workers.map (fun e => e.1)
  match repo.ListActionsForWorkers workerIds with
  | Except.error err => (some err, s)
  | Except.ok workersToActiveActions =>
    let maps := buildActionMaps [] [] workersToActiveActions
    let actionsToWorkerIds := maps.1
    let workerIdsToActions := maps.2
    let toReplenish := actionsToReplenish now s mustReplenish actionsToWorkerIds
    let workerUUIDs := uniqueWorkerIds actionsToWorkerIds toReplenish
    match repo.ListAvailableSlotsForWorkers workerUUIDs with
    | Except.error err => (some err, s)
    | Except.ok availableSlots =>
      let unacked := workersToUnackedSlots s.heap [] s.unackedSlots
      let st := availableSlots.foldl (replenishWorker now ttl workers workerIdsToActions unacked)
        { heap := s.heap, actionsToNewSlots := [], actionsToTotalSlots := [] }
      let written := writeActions shuffle actionsToWorkerIds st.actionsToTotalSlots s.actions
        st.actionsToNewSlots
      (none, { s with heap := st.heap, actions := removeEmpty (sweepExpired now st.heap written) })

/-! ## Concrete scenarios -/

/-- A fresh slot of worker W1 for action A, created at instant 100 with TTL 15. -/
def slotW1 : slot := newSlot 100 15 "W1" [] ["A"]

/-- Scheduler with action A holding two fresh slots of worker W1. -/
def schedTwoSlots : Scheduler :=
  { heap := [slotW1, slotW1],
    actions := [("A", { slots := [0, 1], lastReplenishedSlotCount := 2,
                        lastReplenishedWorkerCount := 1 })],
    workers := [("W1", { ID := "W1", Labels := [] })], assignedCount := 0, unackedSlots := [],
    trace := [] }

/-- Queue item for action A without deadline, sticky mode or desired worker. -/
def plainItem (id : Int) (stepRunId : String) : QueueItem :=
  { ID := id, StepRunId := stepRunId, StepId := "step", ActionId := "A", ScheduleTimeoutAt := 0,
    Sticky := none, DesiredWorkerId := none }

/-- Queue item for action A with sticky HARD and desired worker W2. -/
def hardItem : QueueItem :=
  { ID := 5, StepRunId := "e", StepId := "step", ActionId := "A", ScheduleTimeoutAt := 0,
    Sticky := some StickyStrategy.HARD, DesiredWorkerId := some "W2" }

/-- Rate limiter that admits every reservation. -/
def rlAdmitAll : rateLimiter := { admits := fun _ _ _ => true }

/-- Scheduler after one assignment on `schedTwoSlots`: slot 0 is used and
registered under ack id 1. -/
def schedOneUnacked : Scheduler :=
  { schedTwoSlots with
    heap := [{ slotW1 with usedOnce := true, rateLimitAcks := [none], rateLimitNacks := [none] },
             slotW1],
    assignedCount := 1, unackedSlots := [(1, 0)] }

/-- Scheduler whose action A has a single slot, already used. -/
def schedAllUsed : Scheduler :=
  { heap := [{ slotW1 with usedOnce := true }],
    actions := [("A", { slots := [0], lastReplenishedSlotCount := 1,
                        lastReplenishedWorkerCount := 1 })],
    workers := [("W1", { ID := "W1", Labels := [] })], assignedCount := 1, unackedSlots := [(1, 0)],
    trace := [] }

/-- The arena after the slot behind `p` has been claimed with the two closures
(`slot.use` on that slot). -/
def claimSlot (rateLimitAck rateLimitNack : Option closure) (heap : List slot) (p : Nat) :
    List slot :=
  match heap[p]? with
  | some sl => heap.set p (sl.use [rateLimitAck] [rateLimitNack]).2
  | none => heap

/-- The candidate list that `tryAssignSingleton` probes: re-ranked when the
item has a sticky strategy or desired labels. -/
def rankedFor (heap : List slot) (qi : QueueItem) (labels : List GetDesiredLabelsRow)
    (candidateSlots : List Nat) : List Nat :=
  if qi.Sticky.isSome || decide (labels.length > 0) then
    getRankedSlots heap qi labels candidateSlots
  else candidateSlots

/-- The order of the two probes of `tryAssignSingleton`: from the ring offset
to the end, then from the start to the ring offset. -/
def ringOrder (candidateSlots : List Nat) (ringOffset : Nat) : List Nat :=
  candidateSlots.drop ringOffset ++ candidateSlots.take ringOffset

/-- Result of the first successful assignment on `schedTwoSlots`. -/
def firstAssigned : assignSingleResult :=
  { assignSingleResult.zero none with ackId := 1, workerId := "W1", succeeded := true }

/-- States the scheduler can be in: a new scheduler, followed by any sequence
of `setWorkers`, `ack`, `nack`, `replenish` (failing or not, with any
repository answers, any clock value and any permutation as shuffle) and
`tryAssign` calls that return. -/
inductive Reachable : Scheduler → Prop
  | init : Reachable newScheduler
  | setWorkers (s : Scheduler) (workers : List worker) :
      Reachable s → Reachable (s.setWorkers workers)
  | ack (s : Scheduler) (ids : List Int) : Reachable s → Reachable (s.ack ids)
  | nack (s : Scheduler) (ids : List Int) : Reachable s → Reachable (s.nack ids)
  | replenish (s : Scheduler) (repo : schedulerRepo) (shuffle : String → List Nat → List Nat)
      (now ttl : Int) (mustReplenish : Bool) :
      (∀ a l, (shuffle a l).Perm l) → Reachable s →
      Reachable (s.replenish repo shuffle now ttl mustReplenish).2
  | tryAssign (s s' : Scheduler) (rl : rateLimiter) (picks : String → Nat → List Nat) (now : Int)
      (qis : List QueueItem) (stepIdsToLabels : List (String × List GetDesiredLabelsRow))
      (stepRunIdsToRateLimits : List (String × List (String × Int))) (out : List assignResults) :
      Reachable s →
      s.tryAssign rl picks now qis stepIdsToLabels stepRunIdsToRateLimits = some (out, s') →
      Reachable s'

/-- Every slot referenced by the unacked registry is in the arena and has
been used. -/
def unackedUsed (s : Scheduler) : Prop :=
  ∀ e ∈ s.unackedSlots, ∃ sl, s.heap[e.2]? = some sl ∧ sl.usedOnce = true

/-- Every slot of the first arena is still in the second one, with the same
reservation flag and the same worker. -/
def heapExt (h h' : List slot) : Prop :=
  ∀ (p : Nat) (sl : slot), h[p]? = some sl →
    ∃ sl' : slot, h'[p]? = some sl' ∧ sl'.usedOnce = sl.usedOnce ∧ sl'.workerId = sl.workerId

/-- Repository of the basic scenario: W1 and W2 perform action A, W1 has two
available slots and W2 one. -/
def repoBasic : schedulerRepo :=
  { ListActionsForWorkers := fun _ =>
      Except.ok [{ WorkerId := "W1", ActionId := some "A" }, { WorkerId := "W2", ActionId := some "A" }],
    ListAvailableSlotsForWorkers := fun workerIds =>
      Except.ok (workerIds.map (fun w => { ID := w, AvailableSlots := if w = "W1" then 2 else 1 })) }

/-- Scheduler of the basic scenario after `setWorkers` and one replenish at
instant 100 with TTL 15 and the identity shuffle. -/
def schedBasic : Scheduler :=
  ((newScheduler.setWorkers [{ ID := "W1", Labels := [] }, { ID := "W2", Labels := [] }]).replenish
    repoBasic (fun _ l => l) 100 15 true).2

/-- One `tryAssign` call on the basic scenario, for a single plain item. -/
def basicRun : Option (List assignResults × Scheduler) :=
  schedBasic.tryAssign rlAdmitAll (fun _ _ => []) 101 [plainItem 1 "a"] [] []

/-- Messages of `basicRun`. -/
def basicOut : List assignResults := (basicRun.map (fun r => r.1)).getD []

/-- Scheduler after `basicRun`. -/
def schedBasicAssigned : Scheduler := (basicRun.map (fun r => r.2)).getD schedBasic

/-- Unacked slots of a worker: the slots of the registry entries whose slot
belongs to the worker, in registry order. -/
def unackedOf (s : Scheduler) (workerId : String) : List Nat :=
  (s.unackedSlots.filter (fun e => decide (getWorkerId s.heap e.2 = some workerId))).map
    (fun e => e.2)

/-- The distinct slots of a slot list that are active: the active slots an
action holds. -/
def activeSlots (now : Int) (heap : List slot) (slots : List Nat) : List Nat :=
  slots.dedup.filter (fun p => slotActive now heap p)

/-- The result `tryAssignBatch` stores for an item that found no slot. -/
def noSlotsResult (qi : QueueItem) : assignSingleResult :=
  { assignSingleResult.zero (some qi) with noSlots := true }

/-- The result `tryAssignBatch` stores for an item that was assigned. -/
def assignedResult (qi : QueueItem) (ackId : Int) (workerId : String) : assignSingleResult :=
  { assignSingleResult.zero (some qi) with ackId := ackId, workerId := workerId, succeeded := true }

/-- Action entry of the basic scenario. -/
def actionBasic : action :=
  { slots := [0, 1, 2], lastReplenishedSlotCount := 3, lastReplenishedWorkerCount := 2 }

/-- Four plain queue items for action A. -/
def fourItems : List QueueItem :=
  [plainItem 1 "a", plainItem 2 "b", plainItem 3 "c", plainItem 4 "d"]

/-- Number of fresh slots a worker row yields: `max(0, availableSlots - unacked)`. -/
def freshFor (s : Scheduler) (row : ListAvailableSlotsForWorkersRow) : Nat :=
  (row.AvailableSlots - ((unackedOf s row.ID).length : Int)).toNat

/-- Number of times an action is listed for the worker of a row. -/
def listings (workerIdsToActions : List (String × List String)) (actionId : String)
    (row : ListAvailableSlotsForWorkersRow) : Nat :=
  (mapGetList workerIdsToActions row.ID).count actionId

/-- The capacity bound as the spec states it, for the table after a replenish:
for each action entry, active slots plus unacked slots of the workers listed
for the action do not exceed the available slots returned for those workers. -/
def withinCapacity (now : Int) (s : Scheduler) (actionsToWorkerIds : List (String × List String))
    (rows : List ListAvailableSlotsForWorkersRow) : Prop :=
  ∀ e ∈ s.actions,
    e.2.activeCount now s.heap +
        ((s.unackedSlots.filter (fun u =>
          match getWorkerId s.heap u.2 with
          | some w => decide (w ∈ mapGetList actionsToWorkerIds e.1)
          | none => false)).length : Int)
      ≤ ((rows.filter (fun r => decide (r.ID ∈ mapGetList actionsToWorkerIds e.1))).map
          (fun r => r.AvailableSlots)).sum

/-- Worker-action rows of the basic scenario. -/
def basicActionRows : List ListActionsForWorkersRow :=
  [{ WorkerId := "W1", ActionId := some "A" }, { WorkerId := "W2", ActionId := some "A" }]

/-- Available-slots rows of a drained tenant: no worker has a free slot. -/
def drainedRows : List ListAvailableSlotsForWorkersRow :=
  [{ ID := "W1", AvailableSlots := 0 }, { ID := "W2", AvailableSlots := 0 }]

/-- Repository of the drained tenant. -/
def repoDrained : schedulerRepo :=
  { ListActionsForWorkers := fun _ => Except.ok basicActionRows,
    ListAvailableSlotsForWorkers := fun _ => Except.ok drainedRows }

/-- Available-slots rows of the basic scenario. -/
def basicRows : List ListAvailableSlotsForWorkersRow :=
  [{ ID := "W1", AvailableSlots := 2 }, { ID := "W2", AvailableSlots := 1 }]

/-- The basic scenario after one assignment and a second replenish at instant
102: W1 has two available slots, one of them unacked. -/
def schedBasicReplenished : Scheduler :=
  (schedBasicAssigned.replenish repoBasic (fun _ l => l) 102 15 true).2

/-- Entry of action A after the second replenish. -/
def actionAfter : action := (mapGet schedBasicReplenished.actions "A").getD actionBasic

/-- The queue items one message reports, over its four buckets. -/
def messageItems (m : assignResults) : List (Option QueueItem) :=
  m.assigned.map (fun a => a.QueueItem) ++ m.rateLimited.map (fun r => some r.qi)
    ++ m.schedulingTimedOut.map some ++ m.unassigned

/-- The queue items a sequence of messages reports. -/
def reportedItems (out : List assignResults) : List (Option QueueItem) :=
  out.flatMap messageItems

/-- A result of `tryAssignBatch` that reports the queue item in exactly one
bucket: rate limited, or else assigned or without slot. -/
def resultFor (qi : QueueItem) (r : assignSingleResult) : Prop :=
  (∃ rl, r.rateLimitResult = some rl ∧ rl.qi = qi ∧ r.succeeded = false) ∨
  (r.rateLimitResult = none ∧ r.qi = some qi ∧ (r.succeeded = true ∨ r.noSlots = true))

/-- The result `tryAssignBatch` holds for a queue item after the rate-limit
check: not yet assigned, with or without a failed reservation. -/
def initFor (qi : QueueItem) (r : assignSingleResult) : Prop :=
  r.qi = some qi ∧ r.succeeded = false ∧ r.noSlots = false ∧
    (r.rateLimitResult = none ∨ ∃ rl, r.rateLimitResult = some rl ∧ rl.qi = qi)

/-- Worker snapshot in which the id W1 occurs twice, with different labels. -/
def snapshotTwice : List worker :=
  [{ ID := "W1", Labels := [] }, { ID := "W2", Labels := [] },
   { ID := "W1", Labels := [("gpu", labelValue.int 1)] }]

/-- Repository whose worker-action query fails. -/
def repoActionsFail : schedulerRepo :=
  { ListActionsForWorkers := fun _ => Except.error "actions query failed",
    ListAvailableSlotsForWorkers := fun _ => Except.ok basicRows }

/-- Repository whose available-slots query fails. -/
def repoSlotsFail : schedulerRepo :=
  { ListActionsForWorkers := fun _ => Except.ok basicActionRows,
    ListAvailableSlotsForWorkers := fun _ => Except.error "slots query failed" }

/-- One operation on the scheduler that returns: `setWorkers`, `ack`, `nack`,
`replenish` (failing or not, with any permutation as shuffle) or `tryAssign`.
`Relation.ReflTransGen Step s t` says that `t` is reached from `s` by a
sequence of operations. -/
inductive Step : Scheduler → Scheduler → Prop
  | setWorkers (s : Scheduler) (workers : List worker) : Step s (s.setWorkers workers)
  | ack (s : Scheduler) (ids : List Int) : Step s (s.ack ids)
  | nack (s : Scheduler) (ids : List Int) : Step s (s.nack ids)
  | replenish (s : Scheduler) (repo : schedulerRepo) (shuffle : String → List Nat → List Nat)
      (now ttl : Int) (mustReplenish : Bool) :
      (∀ a l, (shuffle a l).Perm l) → Step s (s.replenish repo shuffle now ttl mustReplenish).2
  | tryAssign (s s' : Scheduler) (rl : rateLimiter) (picks : String → Nat → List Nat) (now : Int)
      (qis : List QueueItem) (stepIdsToLabels : List (String × List GetDesiredLabelsRow))
      (stepRunIdsToRateLimits : List (String × List (String × Int))) (out : List assignResults) :
      s.tryAssign rl picks now qis stepIdsToLabels stepRunIdsToRateLimits = some (out, s') →
      Step s s'

/-- A later `tryAssign` call on the basic scenario, after the first assignment
has been nacked: three more plain items at instant 103. -/
def nackRun : Option (List assignResults × Scheduler) :=
  (schedBasicAssigned.nack [1]).tryAssign rlAdmitAll (fun _ _ => []) 103
    [plainItem 2 "b", plainItem 3 "c", plainItem 4 "d"] [] []

/-- Messages of `nackRun`. -/
def nackOut : List assignResults := (nackRun.map (fun r => r.1)).getD []

/-- Scheduler after `nackRun`. -/
def schedAfterNack : Scheduler := (nackRun.map (fun r => r.2)).getD schedBasicAssigned

/-- Loop variables of FUNCTION 4 of `replenish` after the loop over the
available-slots rows, for the given answers of the two queries. -/
def replenishRows (s : Scheduler) (now ttl : Int) (rowsA : List ListActionsForWorkersRow)
    (rows : List ListAvailableSlotsForWorkersRow) : replenishState :=
  rows.foldl
    (replenishWorker now ttl s.workers (buildActionMaps [] [] rowsA).2
      (workersToUnackedSlots s.heap [] s.unackedSlots))
    { heap := s.heap, actionsToNewSlots := [], actionsToTotalSlots := [] }

/-- The action table of `replenish` after the first pass (shuffle and write),
before the expired slots are swept. -/
def writtenActions (s : Scheduler) (shuffle : String → List Nat → List Nat) (now ttl : Int)
    (rowsA : List ListActionsForWorkersRow) (rows : List ListAvailableSlotsForWorkersRow) :
    List (String × action) :=
  writeActions shuffle (buildActionMaps [] [] rowsA).1
    (replenishRows s now ttl rowsA rows).actionsToTotalSlots s.actions
    (replenishRows s now ttl rowsA rows).actionsToNewSlots

/-- What the sweep pass does to one action entry: same key and counters, the
slot list filtered to the slots that are not expired, order kept. -/
def sweptEntry (now : Int) (heap : List slot) (e e' : String × action) : Prop :=
  e'.1 = e.1 ∧ e'.2.lastReplenishedSlotCount = e.2.lastReplenishedSlotCount ∧
  e'.2.lastReplenishedWorkerCount = e.2.lastReplenishedWorkerCount ∧
  e'.2.slots.Sublist e.2.slots ∧
  (∀ p : Nat, e'.2.slots.count p = if slotExpired now heap p then 0 else e.2.slots.count p) ∧
  (∀ p ∈ e.2.slots, p ∉ e'.2.slots → ∃ sl, heap[p]? = some sl ∧ sl.expired now = true) ∧
  (∀ p ∈ e.2.slots, ∀ sl : slot, heap[p]? = some sl → now < sl.expiry → p ∈ e'.2.slots)

/-- Repository of an idle tenant: no worker performs any action. -/
def repoIdle : schedulerRepo :=
  { ListActionsForWorkers := fun _ => Except.ok [],
    ListAvailableSlotsForWorkers := fun _ => Except.ok [] }

/-- The assigned queue item the result loop of `tryAssign` builds from a
successful result. -/
def toAssigned (r : assignSingleResult) : AssignedQueueItem :=
  { WorkerId := r.workerId, QueueItem := r.qi, AckId := r.ackId }

/-- A message sent for one sub-batch: only the assigned bucket is filled, with
items of that sub-batch in sub-batch order. -/
def batchMessage (batch : List QueueItem) (m : assignResults) : Prop :=
  m.unassigned = [] ∧ m.schedulingTimedOut = [] ∧ m.rateLimited = [] ∧
    (m.assigned.map (fun a => a.QueueItem)).Sublist (batch.map some)

/-- The sub-batches of a partition: the items that are not timed out, cut into
runs of 50. -/
def subBatches (now : Int) (qis : List QueueItem) : List (List QueueItem) :=
  BatchLinear 50 (qis.filter (fun qi => !isTimedOut now qi)).length
    (qis.filter (fun qi => !isTimedOut now qi))

/-- Queue item for action A whose deadline, instant 50, has passed at instant 101. -/
def lateItem : QueueItem := { plainItem 9 "z" with ScheduleTimeoutAt := 50 }

/-- Five items for action A, the second of them past its deadline. -/
def mixedItems : List QueueItem :=
  [plainItem 1 "a", lateItem, plainItem 2 "b", plainItem 3 "c", plainItem 4 "d"]

/-- The partition of action A on the basic scenario (three slots) for
`mixedItems` at instant 101. -/
def mixedPartition : Option (List assignResults × Scheduler) :=
  runPartition rlAdmitAll (fun _ _ => []) 101 [] [] schedBasic "A" mixedItems

/-- Messages of `mixedPartition`. -/
def mixedOut : List assignResults := (mixedPartition.map (fun r => r.1)).getD []

/-- Scheduler after `mixedPartition`. -/
def mixedSched : Scheduler := (mixedPartition.map (fun r => r.2)).getD schedBasic

/-- A message without its timed-out bucket. -/
def clearTimedOut (m : assignResults) : assignResults :=
  { m with schedulingTimedOut := [] }

/-- The queue items a message reports in the assigned, rate-limited and
unassigned buckets. -/
def otherItems (m : assignResults) : List (Option QueueItem) :=
  m.assigned.map (fun a => a.QueueItem) ++ m.rateLimited.map (fun r => some r.qi) ++ m.unassigned

/-- The partitions of a call without their timed-out items. -/
def stripTimedOut (now : Int) (parts : List (String × List QueueItem)) :
    List (String × List QueueItem) :=
  parts.map (fun e => (e.1, e.2.filter (fun qi => !isTimedOut now qi)))

/-- Step-run ids of the failed reservations (calls of `rateLimiter.use` that
returned `succeeded = false`) recorded in a stretch of the trace, in order. -/
def failedUses (tr : List event) : List String :=
  tr.filterMap (fun e =>
    match e with
    | event.rlUse stepRunId _ false => some stepRunId
    | _ => none)

/-- What a result says about a failed reservation of its queue item: the
reservation is attached, it is the one of this item, it did not succeed, and
the item is not assigned. -/
def rateLimitedFor (qi : QueueItem) (r : assignSingleResult) : Prop :=
  ∀ x, r.rateLimitResult = some x →
    x.qi = qi ∧ x.rateLimitResult.succeeded = false ∧ r.succeeded = false

/-- Rate limiter that refuses every reservation of step run b. -/
def rlDenyB : rateLimiter := { admits := fun _ stepRunId _ => decide (stepRunId ≠ "b") }

/-- Rate limits of the step runs a and b: one unit of key k each. -/
def limitsAB : List (String × List (String × Int)) := [("a", [("k", 1)]), ("b", [("k", 1)])]

/-- Three plain items for action A; a and b are rate limited, c is not. -/
def limitedItems : List QueueItem := [plainItem 1 "a", plainItem 2 "b", plainItem 3 "c"]

/-- The batch call for `limitedItems` on the basic scenario at instant 101. -/
def limitedBatch : Option (List assignSingleResult × Nat × Scheduler) :=
  schedBasic.tryAssignBatch rlDenyB [] 101 "A" limitedItems 0 [] limitsAB

/-- Results of `limitedBatch`. -/
def limitedResults : List assignSingleResult := (limitedBatch.map (fun r => r.1)).getD []

/-- Scheduler after `limitedBatch`. -/
def limitedSched : Scheduler := (limitedBatch.map (fun r => r.2.2)).getD schedBasic

/-- The `tryAssign` call for `limitedItems` on the basic scenario at instant 101. -/
def limitedRun : Option (List assignResults × Scheduler) :=
  schedBasic.tryAssign rlDenyB (fun _ _ => []) 101 limitedItems [] limitsAB

/-- Messages of `limitedRun`. -/
def limitedOut : List assignResults := (limitedRun.map (fun r => r.1)).getD []

/-- The value a Go `int` (64 bits, two's complement) holds after an arithmetic
result: the result wrapped into the range from `-2^63` to `2^63 - 1`. -/
def wrapInt (x : Int) : Int :=
  (x + 9223372036854775808) % 18446744073709551616 - 9223372036854775808

/-- `toCancel := max(0, runningCount+queuedCount-maxRuns)`. -/
def toCancel (runningCount queuedCount maxRuns : Int) : Int :=
  max 0 (wrapInt (wrapInt (runningCount + queuedCount) - maxRuns))

/-- `toQueue := min(maxRuns-(runningCount-toCancel), queuedCount)`. -/
def toQueue (runningCount queuedCount maxRuns : Int) : Int :=
  min (wrapInt (maxRuns - wrapInt (runningCount - toCancel runningCount queuedCount maxRuns)))
    queuedCount

/-- Loop `for i := 0; i < toCancel && i < runningCount; i++`: the running rows
that are cancelled.  The arguments are the bound, the index `i` and the rows
from index `i` on. -/
def cancelLoop {α : Type} (bound : Int) : Nat → List α → List α
  | _, [] => []
  | i, row :: rows => if (i : Int) < bound then row :: cancelLoop bound (i + 1) rows else []

/-- Loop `for i := 0; i < toQueue; i++ { row := queuedWorkflowRuns.Rows[i] ... }`:
the queued rows the loop visits, each of which is started unless its run is
paused; `none` is the index-out-of-range panic. -/
def queueLoop {α : Type} (bound : Int) : Nat → List α → Option (List α)
  | i, [] => if (i : Int) < bound then none else some []
  | i, row :: rows =>
    if (i : Int) < bound then (queueLoop bound (i + 1) rows).map (fun started => row :: started)
    else some []

/-- `queueByCancelInProgress`, for the two listings and `maxRuns`: the running
rows the cancel loop visits and the queued rows the start loop visits; `none`
is a panic.  The lock is taken to be acquired and the calls made per row
(cancel, get, queue) to succeed; a visited queued row is started unless its
run is paused, which the model does not record. -/
def queueByCancelInProgress {α : Type} (runningRows queuedRows : List α) (maxRuns : Int) :
    Option (List α × List α) :=
  let runningCount : Int := runningRows.length
  let queuedCount : Int := queuedRows.length
  let cancelled := cancelLoop (toCancel runningCount queuedCount maxRuns) 0 runningRows
  match queueLoop (toQueue runningCount queuedCount maxRuns) 0 queuedRows with
  | none => none
  | some started => some (cancelled, started)

/-- The workers the worker-action answer lists for an action, in row order. -/
def workersFor (rowsA : List ListActionsForWorkersRow) (x : String) : List String :=
  (rowsA.filter (fun row => decide (row.ActionId = some x))).map (fun row => row.WorkerId)

/-- Repository of a single worker W1 that performs action A and has one
available slot. -/
def repoOne : schedulerRepo :=
  { ListActionsForWorkers := fun _ => Except.ok [{ WorkerId := "W1", ActionId := some "A" }],
    ListAvailableSlotsForWorkers := fun workerIds =>
      Except.ok (workerIds.map (fun w => { ID := w, AvailableSlots := 1 })) }

/-- Scheduler with the single worker W1 after one replenish at instant 100:
action A holds one fresh slot. -/
def schedOneSlot : Scheduler :=
  ((newScheduler.setWorkers [{ ID := "W1", Labels := [] }]).replenish repoOne (fun _ l => l)
    100 15 true).2

/-- Repository in which W1 and W2 perform action B only; every worker asked
for has one available slot. -/
def repoShareFirst : schedulerRepo :=
  { ListActionsForWorkers := fun _ =>
      Except.ok [{ WorkerId := "W1", ActionId := some "B" }, { WorkerId := "W2", ActionId := some "B" }],
    ListAvailableSlotsForWorkers := fun workerIds =>
      Except.ok (workerIds.map (fun w => { ID := w, AvailableSlots := 1 })) }

/-- Worker-action rows in which W1 has started to perform action A as well. -/
def sharedActionRows : List ListActionsForWorkersRow :=
  [{ WorkerId := "W1", ActionId := some "B" }, { WorkerId := "W2", ActionId := some "B" },
   { WorkerId := "W1", ActionId := some "A" }]

/-- Repository answering `sharedActionRows`; every worker asked for has one
available slot. -/
def repoShareSecond : schedulerRepo :=
  { ListActionsForWorkers := fun _ => Except.ok sharedActionRows,
    ListAvailableSlotsForWorkers := fun workerIds =>
      Except.ok (workerIds.map (fun w => { ID := w, AvailableSlots := 1 })) }

/-- Scheduler with workers W1 and W2 after one replenish at instant 100: action
B holds one fresh slot of each worker. -/
def schedShared : Scheduler :=
  ((newScheduler.setWorkers [{ ID := "W1", Labels := [] }, { ID := "W2", Labels := [] }]).replenish
    repoShareFirst (fun _ l => l) 100 15 true).2

/-- The best-effort replenish at instant 101 after W1 has taken up action A. -/
def sharedReplenish : Option String × Scheduler :=
  schedShared.replenish repoShareSecond (fun _ l => l) 101 15 false

/-- The indexes of the candidate list that the two probes of
`tryAssignSingleton` read, in order: `ringOffset, ..., n-1`, then
`0, ..., ringOffset-1`. -/
def probeIndices (n ringOffset : Nat) : List Nat :=
  List.range' ringOffset (n - ringOffset) ++ List.range ringOffset

/-- A required desired label: the worker must have `gpu = 1`. -/
def gpuLabel : GetDesiredLabelsRow :=
  { key := "gpu", value := labelValue.int 1, required := true, weight := 1,
    comparator := labelComparator.EQUAL }

/-- Desired labels of the step of the plain items: the required label `gpu`. -/
def labelsGpu : List (String × List GetDesiredLabelsRow) := [("step", [gpuLabel])]

/-- Queue item for action A with sticky HARD and desired worker W2. -/
def hardItemW2 (id : Int) (stepRunId : String) : QueueItem :=
  { plainItem id stepRunId with Sticky := some StickyStrategy.HARD, DesiredWorkerId := some "W2" }

/-- The distinct ids of a list, each at its first occurrence. -/
def firstOccurrences : List Int → List Int
  | [] => []
  | i :: ids => i :: (firstOccurrences ids).filter (fun j => decide (j ≠ i))

/-- Events of `ack` for one id: the `slot.ack()` call on the registered slot, or
nothing when the id is not in the registry. -/
def ackEvents (s : Scheduler) (i : Int) : List event :=
  match mapGet s.unackedSlots i with
  | some p => slotAckEvents s.heap p
  | none => []

/-- Events of `nack` for one id: the `slot.nack()` call on the registered slot,
or nothing when the id is not in the registry. -/
def nackEvents (s : Scheduler) (i : Int) : List event :=
  match mapGet s.unackedSlots i with
  | some p => slotNackEvents s.heap p
  | none => []

/-! ## Lemmas on maps -/

theorem mapGet_mapDelete_self {κ α : Type} [DecidableEq κ] (m : List (κ × α)) (k : κ) :
    mapGet (mapDelete m k) k = none := by
  induction m with
  | nil => rfl
  | cons e m ih =>
    obtain ⟨k', v⟩ := e
    by_cases h : k' = k
    · simpa [mapDelete, h] using ih
    · simpa [mapDelete, h, mapGet] using ih

theorem mapGet_mapDelete_of_none {κ α : Type} [DecidableEq κ] (m : List (κ × α)) (k k' : κ)
    (h : mapGet m k = none) : mapGet (mapDelete m k') k = none := by
  induction m with
  | nil => rfl
  | cons e m ih =>
    obtain ⟨k₀, v⟩ := e
    by_cases h0 : k₀ = k
    · simp [mapGet, h0] at h
    · have hm : mapGet m k = none := by simpa [mapGet, h0] using h
      by_cases h1 : k₀ = k'
      · simpa [mapDelete, h1] using ih hm
      · simpa [mapDelete, h1, mapGet, h0] using ih hm

theorem mapGet_mapSet_self {κ α : Type} [DecidableEq κ] (m : List (κ × α)) (k : κ) (v : α) :
    mapGet (mapSet m k v) k = some v := by
  induction m with
  | nil => simp [mapSet, mapGet]
  | cons e m ih =>
    obtain ⟨k', v'⟩ := e
    by_cases h : k' = k
    · simp [mapSet, mapGet, h]
    · simpa [mapSet, mapGet, h] using ih

theorem mapGet_mapSet_of_ne {κ α : Type} [DecidableEq κ] (m : List (κ × α)) (k k' : κ) (v : α)
    (h : k ≠ k') : mapGet (mapSet m k v) k' = mapGet m k' := by
  induction m with
  | nil => simp [mapSet, mapGet, h]
  | cons e m ih =>
    obtain ⟨k₀, v₀⟩ := e
    by_cases h0 : k₀ = k
    · subst h0
      simp [mapSet, mapGet, h]
    · by_cases h1 : k₀ = k'
      · subst h1
        simp [mapSet, mapGet, h0]
      · simpa [mapSet, mapGet, h0, h1] using ih

theorem mem_mapSet {κ α : Type} [DecidableEq κ] (m : List (κ × α)) (k : κ) (v : α) (e : κ × α)
    (h : e ∈ mapSet m k v) : e = (k, v) ∨ e ∈ m := by
  induction m with
  | nil => simpa [mapSet] using h
  | cons e₀ m ih =>
    obtain ⟨k₀, v₀⟩ := e₀
    by_cases h0 : k₀ = k
    · simp only [mapSet, h0, if_true, List.mem_cons] at h
      rcases h with h | h
      · exact Or.inl h
      · exact Or.inr (List.mem_cons_of_mem _ h)
    · simp only [mapSet, h0, if_false, List.mem_cons] at h
      rcases h with h | h
      · exact Or.inr (h ▸ List.mem_cons_self _ _)
      · rcases ih h with h | h
        · exact Or.inl h
        · exact Or.inr (List.mem_cons_of_mem _ h)

theorem mem_mapDelete {κ α : Type} [DecidableEq κ] (m : List (κ × α)) (k : κ) (e : κ × α)
    (h : e ∈ mapDelete m k) : e ∈ m := by
  unfold mapDelete at h
  exact (List.mem_filter.mp h).1

/-! ## ack and nack -/

theorem ack_unacked_none (ids : List Int) (id : Int) :
    ∀ s : Scheduler, mapGet s.unackedSlots id = none →
      mapGet (s.ack ids).unackedSlots id = none := by
  induction ids with
  | nil => intro s h; simpa [Scheduler.ack] using h
  | cons i ids ih =>
    intro s h
    unfold Scheduler.ack
    cases hg : mapGet s.unackedSlots i with
    | none => simpa using ih s h
    | some p => exact ih _ (mapGet_mapDelete_of_none _ _ _ h)

theorem nack_unacked_none (ids : List Int) (id : Int) :
    ∀ s : Scheduler, mapGet s.unackedSlots id = none →
      mapGet (s.nack ids).unackedSlots id = none := by
  induction ids with
  | nil => intro s h; simpa [Scheduler.nack] using h
  | cons i ids ih =>
    intro s h
    unfold Scheduler.nack
    cases hg : mapGet s.unackedSlots i with
    | none => simpa using ih s h
    | some p => exact ih _ (mapGet_mapDelete_of_none _ _ _ h)

theorem ack_mem_unacked_none (ids : List Int) (id : Int) (hmem : id ∈ ids) :
    ∀ s : Scheduler, mapGet (s.ack ids).unackedSlots id = none := by
  induction ids with
  | nil => cases hmem
  | cons i ids ih =>
    intro s
    unfold Scheduler.ack
    by_cases hi : id = i
    · subst hi
      cases hg : mapGet s.unackedSlots id with
      | none => exact ack_unacked_none ids id s hg
      | some p => exact ack_unacked_none ids id _ (mapGet_mapDelete_self _ _)
    · have hmem' : id ∈ ids := by
        rcases List.mem_cons.mp hmem with h | h
        · exact absurd h hi
        · exact h
      cases hg : mapGet s.unackedSlots i with
      | none => exact ih hmem' s
      | some p => exact ih hmem' _

theorem nack_mem_unacked_none (ids : List Int) (id : Int) (hmem : id ∈ ids) :
    ∀ s : Scheduler, mapGet (s.nack ids).unackedSlots id = none := by
  induction ids with
  | nil => cases hmem
  | cons i ids ih =>
    intro s
    unfold Scheduler.nack
    by_cases hi : id = i
    · subst hi
      cases hg : mapGet s.unackedSlots id with
      | none => exact nack_unacked_none ids id s hg
      | some p => exact nack_unacked_none ids id _ (mapGet_mapDelete_self _ _)
    · have hmem' : id ∈ ids := by
        rcases List.mem_cons.mp hmem with h | h
        · exact absurd h hi
        · exact h
      cases hg : mapGet s.unackedSlots i with
      | none => exact ih hmem' s
      | some p => exact ih hmem' _

theorem ack_singleton_absent (s : Scheduler) (id : Int) (h : mapGet s.unackedSlots id = none) :
    s.ack [id] = s := by
  simp [Scheduler.ack, h]

/-- C5: once `ack` or `nack` has been applied to a list of ids containing `id`,
a following `ack` of `id` is a no-op: the whole scheduler state (unacked
registry, action table, ack counter, arena) is unchanged and the trace gains
no slot ack, slot nack or closure event. -/
theorem ack_after_ack_or_nack_is_noop (s : Scheduler) (ids : List Int) (id : Int)
    (hmem : id ∈ ids) :
    (s.ack ids).ack [id] = s.ack ids ∧ (s.nack ids).ack [id] = s.nack ids :=
  ⟨ack_singleton_absent _ _ (ack_mem_unacked_none ids id hmem s),
   ack_singleton_absent _ _ (nack_mem_unacked_none ids id hmem s)⟩

/-- Witness for C5 on a registry holding ack id 1. -/
theorem ack_after_ack_or_nack_is_noop_witness :
    (1 : Int) ∈ [(1 : Int)] ∧
      ((schedOneUnacked.ack [1]).ack [1] = schedOneUnacked.ack [1] ∧
        (schedOneUnacked.nack [1]).ack [1] = schedOneUnacked.nack [1]) :=
  ⟨by decide, ack_after_ack_or_nack_is_noop schedOneUnacked [1] 1 (by decide)⟩

/-! ## Evaluations of the assignment path -/

/-- C1: a `tryAssign` call on two slots of worker W1 with a plain item followed
by a sticky HARD item for the absent worker W2 panics (the second goroutine
slices the empty ranked list at ring offset 1), so no bucket is emitted for
either of the two input items. -/
theorem tryAssign_panics_on_sticky_hard_miss :
    schedTwoSlots.tryAssign rlAdmitAll (fun _ _ => []) 101 [plainItem 1 "a", hardItem] [] []
      = none := by
  decide

/-- C2: with a reservation that succeeded (the limiter admits everything) and
no slot to claim, `tryAssignBatch` returns the item with `noSlots = true`
while the trace holds the reservation only; the nack closure `rlNack 0` is not
fired and no slot stores it.  First when the action is absent from the action
table, then when its only slot is already used. -/
theorem tryAssignBatch_noSlots_drops_reservation :
    (newScheduler.tryAssignBatch rlAdmitAll [] 101 "A" [plainItem 1 "a"] 0 []
        [("a", [("k", 1)])]).map
      (fun r => (r.1.map (fun x => (x.noSlots, x.succeeded)), r.2.2.trace, r.2.2.heap))
      = some ([(true, false)], [event.rlUse "a" [("k", 1)] true], [])
    ∧ (schedAllUsed.tryAssignBatch rlAdmitAll [] 101 "A" [plainItem 1 "a"] 0 []
        [("a", [("k", 1)])]).map
      (fun r => (r.1.map (fun x => (x.noSlots, x.succeeded)), r.2.2.trace, r.2.2.heap))
      = some ([(true, false)], [event.rlUse "a" [("k", 1)] true], schedAllUsed.heap) := by
  decide

/-- C4: for a sticky HARD item whose desired worker W2 owns none of the two
candidate slots, `tryAssignSingleton` returns `noSlots` at ring offset 0 but
panics at ring offset 1, an offset `tryAssignBatch` passes for the second item
of a batch (here it panics as well). -/
theorem tryAssignSingleton_sticky_hard_miss_panics :
    (schedTwoSlots.tryAssignSingleton 101 hardItem [0, 1] 0 [] none none).map
        (fun r => (r.1.noSlots, r.1.succeeded)) = some (true, false)
    ∧ schedTwoSlots.tryAssignSingleton 101 hardItem [0, 1] 1 [] none none = none
    ∧ schedTwoSlots.tryAssignBatch rlAdmitAll [] 101 "A" [plainItem 1 "a", hardItem] 0 [] []
        = none := by
  decide

/-! ## findSlot and tryAssignSingleton -/

theorem slotActive_eq_true_iff (now : Int) (heap : List slot) (p : Nat) :
    slotActive now heap p = true ↔ ∃ sl, heap[p]? = some sl ∧ sl.active now = true := by
  unfold slotActive
  cases h : heap[p]? with
  | none => simp
  | some sl => simp

theorem slot_use_of_active (now : Int) (sl : slot) (a n : List (Option closure))
    (h : sl.active now = true) :
    sl.use a n = (true, { sl with usedOnce := true, rateLimitAcks := a, rateLimitNacks := n }) := by
  have hu : sl.usedOnce = false := by
    unfold slot.active at h
    cases hh : sl.usedOnce with
    | false => rfl
    | true => simp [hh] at h
  simp [slot.use, hu]

theorem findSlot_eq (now : Int) (heap : List slot) (a n : Option closure) (l : List Nat) :
    findSlot now heap a n l =
      match l.find? (fun p => slotActive now heap p) with
      | none => (none, heap)
      | some p => (some p, claimSlot a n heap p) := by
  induction l with
  | nil => simp [findSlot]
  | cons p l ih =>
    unfold findSlot
    cases hp : heap[p]? with
    | none =>
      have : slotActive now heap p = false := by simp [slotActive, hp]
      simp [List.find?, this, ih]
    | some sl =>
      by_cases hact : sl.active now = true
      · have : slotActive now heap p = true := by simp [slotActive, hp, hact]
        simp [List.find?, this, hact, slot_use_of_active now sl _ _ hact, claimSlot, hp]
      · have hact' : sl.active now = false := by simpa using hact
        have : slotActive now heap p = false := by simp [slotActive, hp, hact']
        simp [List.find?, this, hact', ih]

theorem tryAssignSingleton_eq (s : Scheduler) (now : Int) (qi : QueueItem)
    (candidateSlots : List Nat) (ringOffset : Nat) (labels : List GetDesiredLabelsRow)
    (a n : Option closure) :
    s.tryAssignSingleton now qi candidateSlots ringOffset labels a n =
      if ringOffset > (rankedFor s.heap qi labels candidateSlots).length then none
      else
        match (ringOrder (rankedFor s.heap qi labels candidateSlots) ringOffset).find?
            (fun p => slotActive now s.heap p) with
        | none => some ({ assignSingleResult.zero none with noSlots := true }, s)
        | some p =>
          some ({ assignSingleResult.zero none with
                    ackId := s.assignedCount + 1,
                    workerId := (getWorkerId (claimSlot a n s.heap p) p).getD "",
                    succeeded := true },
                { s with heap := claimSlot a n s.heap p, assignedCount := s.assignedCount + 1,
                         unackedSlots := mapSet s.unackedSlots (s.assignedCount + 1) p }) := by
  unfold Scheduler.tryAssignSingleton rankedFor
  generalize (if (qi.Sticky.isSome || decide (labels.length > 0)) = true then
    getRankedSlots s.heap qi labels candidateSlots else candidateSlots) = cand
  simp only [findSlot_eq, ringOrder, List.find?_append]
  by_cases hoff : ringOffset > cand.length
  · simp [hoff]
  · simp only [hoff, if_false]
    cases h1 : (cand.drop ringOffset).find? (fun p => slotActive now s.heap p) with
    | some p => simp
    | none =>
      cases h2 : (cand.take ringOffset).find? (fun p => slotActive now s.heap p) with
      | some p => simp
      | none => simp

theorem mem_stickyRank (heap : List slot) (qi : QueueItem) (slots : List Nat) (p : Nat)
    (h : p ∈ stickyRank heap qi slots) : p ∈ slots := by
  unfold stickyRank at h
  split at h
  · exact (List.mem_filter.mp h).1
  · rcases List.mem_append.mp h with h | h
    · exact (List.mem_filter.mp h).1
    · exact (List.mem_filter.mp h).1
  · exact h

theorem mem_labelRank (heap : List slot) (labels : List GetDesiredLabelsRow) (slots : List Nat)
    (p : Nat) (h : p ∈ labelRank heap labels slots) : p ∈ slots := by
  unfold labelRank at h
  split at h
  · exact (List.mem_filter.mp ((List.perm_insertionSort _ _).mem_iff.mp h)).1
  · exact h

theorem mem_rankedFor (heap : List slot) (qi : QueueItem) (labels : List GetDesiredLabelsRow)
    (slots : List Nat) (p : Nat) (h : p ∈ rankedFor heap qi labels slots) : p ∈ slots := by
  unfold rankedFor at h
  split at h
  · exact mem_stickyRank _ _ _ _ (mem_labelRank _ _ _ _ h)
  · exact h

theorem mem_ringOrder (l : List Nat) (off p : Nat) (h : p ∈ ringOrder l off) : p ∈ l := by
  unfold ringOrder at h
  rcases List.mem_append.mp h with h | h
  · exact List.mem_of_mem_drop h
  · exact List.mem_of_mem_take h

theorem claimSlot_eq_set (a n : Option closure) (heap : List slot) (p : Nat) (sl : slot) (now : Int)
    (hp : heap[p]? = some sl) (hact : sl.active now = true) :
    claimSlot a n heap p =
      heap.set p { sl with usedOnce := true, rateLimitAcks := [a], rateLimitNacks := [n] } := by
  simp [claimSlot, hp, slot_use_of_active now sl _ _ hact]

theorem tryAssignSingleton_cases (s s' : Scheduler) (now : Int) (qi : QueueItem)
    (candidateSlots : List Nat) (ringOffset : Nat) (labels : List GetDesiredLabelsRow)
    (a n : Option closure) (res : assignSingleResult)
    (h : s.tryAssignSingleton now qi candidateSlots ringOffset labels a n = some (res, s')) :
    (res = { assignSingleResult.zero none with noSlots := true } ∧ s' = s ∧
      ∀ p ∈ ringOrder (rankedFor s.heap qi labels candidateSlots) ringOffset,
        slotActive now s.heap p = false) ∨
    (∃ p sl, p ∈ ringOrder (rankedFor s.heap qi labels candidateSlots) ringOffset ∧
      s.heap[p]? = some sl ∧ sl.active now = true ∧
      res = { assignSingleResult.zero none with
                ackId := s.assignedCount + 1, workerId := sl.workerId, succeeded := true } ∧
      s' = { s with
             heap := s.heap.set p
               { sl with usedOnce := true, rateLimitAcks := [a], rateLimitNacks := [n] },
             assignedCount := s.assignedCount + 1,
             unackedSlots := mapSet s.unackedSlots (s.assignedCount + 1) p }) := by
  rw [tryAssignSingleton_eq] at h
  split at h
  · cases h
  · split at h
    · rename_i hfind
      simp only [Option.some.injEq, Prod.mk.injEq] at h
      refine Or.inl ⟨h.1.symm, h.2.symm, ?_⟩
      intro p hp
      have := List.find?_eq_none.mp hfind p hp
      simpa using this
    · rename_i p hfind
      simp only [Option.some.injEq, Prod.mk.injEq] at h
      obtain ⟨hres, hs'⟩ := h
      have hact : slotActive now s.heap p = true := by
        simpa using List.find?_some hfind
      obtain ⟨sl, hsl, hsla⟩ := (slotActive_eq_true_iff _ _ _).mp hact
      have hclaim := claimSlot_eq_set a n s.heap p sl now hsl hsla
      have hlt : p < s.heap.length := (List.getElem?_eq_some_iff.mp hsl).1
      refine Or.inr ⟨p, sl, List.mem_of_find?_eq_some hfind, hsl, hsla, ?_, ?_⟩
      · rw [← hres, hclaim]
        simp [getWorkerId, List.getElem?_set, hlt]
      · rw [← hs', hclaim]

/-- C6: a call of `tryAssignSingleton` that does not succeed leaves the
scheduler as it was; a successful call increments `assignedCount` by exactly
one and returns the new value as `ackId`, claims a candidate slot that was
active, maps that `ackId` to the claimed slot in the unacked registry and
returns the worker id of that slot.  The counter of a new scheduler is 0, so
the first ack id is 1, and every successful call made from a state whose
counter is at least the counter after this call returns a larger ack id. -/
theorem tryAssignSingleton_ackId (s s' : Scheduler) (now : Int) (qi : QueueItem)
    (candidateSlots : List Nat) (ringOffset : Nat) (labels : List GetDesiredLabelsRow)
    (a n : Option closure) (res : assignSingleResult)
    (h : s.tryAssignSingleton now qi candidateSlots ringOffset labels a n = some (res, s')) :
    newScheduler.assignedCount = 0 ∧
    (res.succeeded = false → s' = s) ∧
    (res.succeeded = true →
      s'.assignedCount = s.assignedCount + 1 ∧ res.ackId = s'.assignedCount ∧
      (∃ p sl, p ∈ candidateSlots ∧ s.heap[p]? = some sl ∧ sl.active now = true ∧
        s'.heap = s.heap.set p
          { sl with usedOnce := true, rateLimitAcks := [a], rateLimitNacks := [n] } ∧
        s'.unackedSlots = mapSet s.unackedSlots res.ackId p ∧
        mapGet s'.unackedSlots res.ackId = some p ∧
        res.workerId = sl.workerId) ∧
      (∀ (t t' : Scheduler) (now' : Int) (qi' : QueueItem) (cand' : List Nat) (off' : Nat)
          (labels' : List GetDesiredLabelsRow) (a' n' : Option closure) (res' : assignSingleResult),
        s'.assignedCount ≤ t.assignedCount →
        t.tryAssignSingleton now' qi' cand' off' labels' a' n' = some (res', t') →
        res'.succeeded = true → res.ackId < res'.ackId)) := by
  refine ⟨rfl, ?_, ?_⟩
  · intro hs
    rcases tryAssignSingleton_cases _ _ _ _ _ _ _ _ _ _ h with ⟨_, h2, _⟩ | ⟨p, sl, _, _, _, hres, _⟩
    · exact h2
    · rw [hres] at hs; simp at hs
  · intro hs
    rcases tryAssignSingleton_cases _ _ _ _ _ _ _ _ _ _ h with ⟨hres, _, _⟩ |
      ⟨p, sl, hmem, hsl, hsla, hres, hs'⟩
    · rw [hres] at hs; simp [assignSingleResult.zero] at hs
    · subst hres hs'
      refine ⟨rfl, rfl, ⟨p, sl, mem_rankedFor _ _ _ _ _ (mem_ringOrder _ _ _ hmem), hsl, hsla, rfl,
        rfl, mapGet_mapSet_self _ _ _, rfl⟩, ?_⟩
      intro t t' now' qi' cand' off' labels' a' n' res' hle h' hs2
      rcases tryAssignSingleton_cases _ _ _ _ _ _ _ _ _ _ h' with ⟨hres', _, _⟩ |
        ⟨p', sl', _, _, _, hres', _⟩
      · rw [hres'] at hs2; simp [assignSingleResult.zero] at hs2
      · rw [hres']
        simp only at hle ⊢
        omega

/-- Witness for C6: the first assignment on two fresh slots gets ack id 1. -/
theorem tryAssignSingleton_ackId_witness :
    schedTwoSlots.tryAssignSingleton 101 (plainItem 1 "a") [0, 1] 0 [] none none
        = some (firstAssigned, schedOneUnacked) ∧
      (schedOneUnacked.assignedCount = schedTwoSlots.assignedCount + 1 ∧
        firstAssigned.ackId = schedOneUnacked.assignedCount) :=
  ⟨by decide,
   let t := (tryAssignSingleton_ackId schedTwoSlots schedOneUnacked 101 (plainItem 1 "a") [0, 1] 0 []
      none none firstAssigned (by decide)).2.2 (by decide)
   ⟨t.1, t.2.1⟩⟩

/-! ## Induction over the assignment path -/

theorem runTasks_induction (P : Scheduler → Prop) (now : Int) (candidateSlots : List Nat)
    (stepIdsToLabels : List (String × List GetDesiredLabelsRow))
    (hsingle : ∀ (s s' : Scheduler) (qi : QueueItem) (off : Nat) (labels : List GetDesiredLabelsRow)
      (a n : Option closure) (res : assignSingleResult),
      P s → s.tryAssignSingleton now qi candidateSlots off labels a n = some (res, s') → P s') :
    ∀ (tasks : List assignTask) (s s' : Scheduler) (res res' : List assignSingleResult),
      P s → runTasks now candidateSlots stepIdsToLabels s res tasks = some (res', s') → P s' := by
  intro tasks
  induction tasks with
  | nil =>
    intro s s' res res' hP h
    simp only [runTasks, Option.some.injEq, Prod.mk.injEq] at h
    exact h.2 ▸ hP
  | cons t ts ih =>
    intro s s' res res' hP h
    unfold runTasks at h
    split at h
    · cases h
    · rename_i singleRes s1 hsing
      exact ih _ _ _ _ (hsingle _ _ _ _ _ _ _ _ hP hsing) h

theorem tryAssignSingleton_actions (s s' : Scheduler) (now : Int) (qi : QueueItem)
    (candidateSlots : List Nat) (off : Nat) (labels : List GetDesiredLabelsRow)
    (a n : Option closure) (res : assignSingleResult)
    (h : s.tryAssignSingleton now qi candidateSlots off labels a n = some (res, s')) :
    s'.actions = s.actions := by
  rw [tryAssignSingleton_eq] at h
  split at h
  · cases h
  · split at h
    · simp only [Option.some.injEq, Prod.mk.injEq] at h
      rw [← h.2]
    · simp only [Option.some.injEq, Prod.mk.injEq] at h
      rw [← h.2]

/-- Induction principle for `tryAssignBatch`: a property of the scheduler that
survives a change of the trace and every `tryAssignSingleton` call made on
the slot list of an action of the table survives the batch. -/
theorem tryAssignBatch_induction (P : Scheduler → Prop)
    (htrace : ∀ (s : Scheduler) (tr : List event), P s → P { s with trace := tr })
    (hsingle : ∀ (s s' : Scheduler) (now : Int) (actionId : String) (act : action) (qi : QueueItem)
      (off : Nat) (labels : List GetDesiredLabelsRow) (a n : Option closure)
      (res : assignSingleResult),
      P s → mapGet s.actions actionId = some act →
      s.tryAssignSingleton now qi act.slots off labels a n = some (res, s') → P s')
    (s s' : Scheduler) (rl : rateLimiter) (picks : List Nat) (now : Int) (actionId : String)
    (qis : List QueueItem) (ringOffset : Nat)
    (stepIdsToLabels : List (String × List GetDesiredLabelsRow))
    (stepRunIdsToRateLimits : List (String × List (String × Int)))
    (res : List assignSingleResult) (off' : Nat) (hP : P s)
    (h : s.tryAssignBatch rl picks now actionId qis ringOffset stepIdsToLabels
      stepRunIdsToRateLimits = some (res, off', s')) : P s' := by
  unfold Scheduler.tryAssignBatch at h
  simp only at h
  split at h
  · simp only [Option.some.injEq, Prod.mk.injEq] at h
    rw [← h.2.2]
    exact htrace _ _ hP
  · rename_i act hact
    split at h
    · cases h
    · split at h
      · cases h
      · rename_i res1 s2 hrun
        simp only [Option.some.injEq, Prod.mk.injEq] at h
        rw [← h.2.2]
        have key := fun hp => runTasks_induction
          (fun t => P t ∧ mapGet t.actions actionId = some act) now act.slots stepIdsToLabels
          (by
            intro t t' qi off labels a n r hPt hsing
            refine ⟨hsingle _ _ _ _ _ _ _ _ _ _ _ hPt.1 hPt.2 hsing, ?_⟩
            rw [tryAssignSingleton_actions _ _ _ _ _ _ _ _ _ _ hsing]
            exact hPt.2)
          _ _ _ _ _ hp hrun
        exact (key ⟨htrace _ _ hP, hact⟩).1

theorem runBatches_induction (P : Scheduler → Prop)
    (hbatch : ∀ (s s' : Scheduler) (rl : rateLimiter) (picks : List Nat) (now : Int)
      (actionId : String) (qis : List QueueItem) (ringOffset : Nat)
      (stepIdsToLabels : List (String × List GetDesiredLabelsRow))
      (stepRunIdsToRateLimits : List (String × List (String × Int)))
      (res : List assignSingleResult) (off' : Nat), P s →
      s.tryAssignBatch rl picks now actionId qis ringOffset stepIdsToLabels
        stepRunIdsToRateLimits = some (res, off', s') → P s')
    (rl : rateLimiter) (picks : String → Nat → List Nat) (now : Int) (actionId : String)
    (stepIdsToLabels : List (String × List GetDesiredLabelsRow))
    (stepRunIdsToRateLimits : List (String × List (String × Int))) :
    ∀ (batches : List (List QueueItem)) (b : Nat) (st st' : partitionState), P st.s →
      runBatches rl picks now actionId stepIdsToLabels stepRunIdsToRateLimits b st batches
        = some st' → P st'.s := by
  intro batches
  induction batches with
  | nil =>
    intro b st st' hP h
    simp only [runBatches, Option.some.injEq] at h
    exact h ▸ hP
  | cons q rest ih =>
    intro b st st' hP h
    unfold runBatches at h
    split at h
    · cases h
    · rename_i results newRingOffset s1 hb
      exact ih _ _ _ (hbatch _ _ _ _ _ _ _ _ _ _ _ _ hP hb) h

/-- Induction principle for `tryAssign`. -/
theorem tryAssign_induction (P : Scheduler → Prop)
    (htrace : ∀ (s : Scheduler) (tr : List event), P s → P { s with trace := tr })
    (hsingle : ∀ (s s' : Scheduler) (now : Int) (actionId : String) (act : action) (qi : QueueItem)
      (off : Nat) (labels : List GetDesiredLabelsRow) (a n : Option closure)
      (res : assignSingleResult),
      P s → mapGet s.actions actionId = some act →
      s.tryAssignSingleton now qi act.slots off labels a n = some (res, s') → P s')
    (s s' : Scheduler) (rl : rateLimiter) (picks : String → Nat → List Nat) (now : Int)
    (qis : List QueueItem) (stepIdsToLabels : List (String × List GetDesiredLabelsRow))
    (stepRunIdsToRateLimits : List (String × List (String × Int))) (out : List assignResults)
    (hP : P s)
    (h : s.tryAssign rl picks now qis stepIdsToLabels stepRunIdsToRateLimits = some (out, s')) :
    P s' := by
  unfold Scheduler.tryAssign at h
  generalize groupByAction [] qis = parts at h
  induction parts generalizing s out with
  | nil =>
    simp only [runPartitions, Option.some.injEq, Prod.mk.injEq] at h
    exact h.2 ▸ hP
  | cons part rest ih =>
    obtain ⟨actionId, pqis⟩ := part
    unfold runPartitions at h
    split at h
    · cases h
    · rename_i msgs s1 hpart
      split at h
      · cases h
      · rename_i msgs' s2 hrest
        simp only [Option.some.injEq, Prod.mk.injEq] at h
        have hs2 := h.2
        subst hs2
        refine ih s1 msgs' ?_ hrest
        unfold runPartition at hpart
        simp only at hpart
        split at hpart
        · cases hpart
        · rename_i st hst
          simp only [Option.some.injEq, Prod.mk.injEq] at hpart
          rw [← hpart.2]
          exact runBatches_induction P
            (fun a b c d e f g h i j k l hPa hb =>
              tryAssignBatch_induction P htrace hsingle a b c d e f g h i j k l hPa hb)
            rl picks now actionId stepIdsToLabels stepRunIdsToRateLimits _ _ _ _ hP hst

/-! ## Frame lemmas -/

theorem ack_actions (ids : List Int) : ∀ s : Scheduler, (s.ack ids).actions = s.actions := by
  induction ids with
  | nil => intro s; rfl
  | cons i ids ih =>
    intro s
    unfold Scheduler.ack
    cases mapGet s.unackedSlots i with
    | none => exact ih s
    | some p => simpa using ih _

theorem nack_actions (ids : List Int) : ∀ s : Scheduler, (s.nack ids).actions = s.actions := by
  induction ids with
  | nil => intro s; rfl
  | cons i ids ih =>
    intro s
    unfold Scheduler.nack
    cases mapGet s.unackedSlots i with
    | none => exact ih s
    | some p => simpa using ih _

theorem tryAssign_actions (s s' : Scheduler) (rl : rateLimiter) (picks : String → Nat → List Nat)
    (now : Int) (qis : List QueueItem) (stepIdsToLabels : List (String × List GetDesiredLabelsRow))
    (stepRunIdsToRateLimits : List (String × List (String × Int))) (out : List assignResults)
    (h : s.tryAssign rl picks now qis stepIdsToLabels stepRunIdsToRateLimits = some (out, s')) :
    s'.actions = s.actions :=
  tryAssign_induction (fun t => t.actions = s.actions)
    (fun _ _ ht => ht)
    (fun t t' _ _ _ _ _ _ _ _ _ ht _ hsing =>
      (tryAssignSingleton_actions t t' _ _ _ _ _ _ _ _ hsing).trans ht)
    s s' rl picks now qis stepIdsToLabels stepRunIdsToRateLimits out rfl h

theorem mem_removeEmpty (actions : List (String × action)) (e : String × action)
    (h : e ∈ removeEmpty actions) : 1 ≤ e.2.slots.length := by
  unfold removeEmpty at h
  have := (List.mem_filter.mp h).2
  simp only [Bool.not_eq_true', decide_eq_false_iff_not] at this
  omega

theorem replenish_cases (s : Scheduler) (repo : schedulerRepo)
    (shuffle : String → List Nat → List Nat) (now ttl : Int) (mustReplenish : Bool) :
    ((s.replenish repo shuffle now ttl mustReplenish).1 ≠ none ∧
        (s.replenish repo shuffle now ttl mustReplenish).2 = s) ∨
      ((s.replenish repo shuffle now ttl mustReplenish).1 = none ∧
        ∃ acts, (s.replenish repo shuffle now ttl mustReplenish).2.actions = removeEmpty acts) := by
  unfold Scheduler.replenish
  simp only
  split
  · exact Or.inl ⟨by simp, rfl⟩
  · split
    · exact Or.inl ⟨by simp, rfl⟩
    · exact Or.inr ⟨rfl, _, rfl⟩

/-- C9: in every state reachable from a new scheduler by `replenish`
(succeeding or failing), `tryAssign`, `ack`, `nack` and `setWorkers`, every
entry of the action table has at least one slot; and after a replenish that
returns nil, from any state, no action entry has an empty slot list. -/
theorem reachable_action_entries_nonempty :
    (∀ s : Scheduler, Reachable s → ∀ e ∈ s.actions, 1 ≤ e.2.slots.length) ∧
    (∀ (s : Scheduler) (repo : schedulerRepo) (shuffle : String → List Nat → List Nat)
        (now ttl : Int) (mustReplenish : Bool),
      (s.replenish repo shuffle now ttl mustReplenish).1 = none →
      ∀ e ∈ (s.replenish repo shuffle now ttl mustReplenish).2.actions, e.2.slots ≠ []) := by
  constructor
  · intro s hs
    induction hs with
    | init => intro e he; cases he
    | setWorkers s workers _ ih => exact ih
    | ack s ids _ ih => rw [ack_actions]; exact ih
    | nack s ids _ ih => rw [nack_actions]; exact ih
    | replenish s repo shuffle now ttl must _ _ ih =>
      rcases replenish_cases s repo shuffle now ttl must with ⟨_, h⟩ | ⟨_, acts, h⟩
      · rw [h]; exact ih
      · rw [h]; exact fun e he => mem_removeEmpty _ e he
    | tryAssign s s' rl picks now qis l r out _ h ih =>
      rw [tryAssign_actions s s' rl picks now qis l r out h]; exact ih
  · intro s repo shuffle now ttl must hnil e he hempty
    rcases replenish_cases s repo shuffle now ttl must with ⟨h, _⟩ | ⟨_, acts, h⟩
    · exact h hnil
    · rw [h] at he
      have := mem_removeEmpty _ e he
      rw [hempty] at this
      simp at this

/-- Witness for C9: the state of the basic scenario is reachable and its
action table has the single entry A with three slots. -/
theorem reachable_action_entries_nonempty_witness :
    Reachable schedBasic ∧ schedBasic.actions.map (fun e => (e.1, e.2.slots)) = [("A", [0, 1, 2])] ∧
      ∀ e ∈ schedBasic.actions, 1 ≤ e.2.slots.length :=
  have hr : Reachable schedBasic :=
    Reachable.replenish _ repoBasic (fun _ l => l) 100 15 true (fun _ l => List.Perm.refl l)
      (Reachable.setWorkers _ _ Reachable.init)
  ⟨hr, by decide, reachable_action_entries_nonempty.1 schedBasic hr⟩

/-! ## The arena under replenish -/

theorem heapExt_refl (h : List slot) : heapExt h h :=
  fun _ sl hp => ⟨sl, hp, rfl, rfl⟩

theorem heapExt_trans {h₁ h₂ h₃ : List slot} (h12 : heapExt h₁ h₂) (h23 : heapExt h₂ h₃) :
    heapExt h₁ h₃ := by
  intro p sl hp
  obtain ⟨sl₂, hp₂, hu₂, hw₂⟩ := h12 p sl hp
  obtain ⟨sl₃, hp₃, hu₃, hw₃⟩ := h23 p sl₂ hp₂
  exact ⟨sl₃, hp₃, hu₃.trans hu₂, hw₃.trans hw₂⟩

theorem heapExt_append (h l : List slot) : heapExt h (h ++ l) := by
  intro p sl hp
  have hlt : p < h.length := (List.getElem?_eq_some_iff.mp hp).1
  exact ⟨sl, by rw [List.getElem?_append_left hlt]; exact hp, rfl, rfl⟩

theorem heapExt_set (h : List slot) (p : Nat) (sl sl' : slot) (hp : h[p]? = some sl)
    (hu : sl'.usedOnce = sl.usedOnce) (hw : sl'.workerId = sl.workerId) :
    heapExt h (h.set p sl') := by
  intro q slq hq
  have hlt : p < h.length := (List.getElem?_eq_some_iff.mp hp).1
  by_cases hqp : p = q
  · subst hqp
    refine ⟨sl', by simp [List.getElem?_set, hlt], ?_, ?_⟩
    · rw [hp] at hq; cases hq; exact hu
    · rw [hp] at hq; cases hq; exact hw
  · exact ⟨slq, by simp [List.getElem?_set, hqp, hq], rfl, rfl⟩

theorem createSlots_eq (fresh : slot) (n : Nat) :
    ∀ (heap : List slot) (slots : List Nat),
      createSlots fresh n heap slots =
        (heap ++ List.replicate n fresh, slots ++ List.range' heap.length n) := by
  induction n with
  | zero => intro heap slots; simp [createSlots]
  | succ n ih =>
    intro heap slots
    simp [createSlots, ih, List.replicate_succ, List.range'_succ]

theorem extendAll_heapExt (ttl : Int) (ps : List Nat) :
    ∀ heap : List slot, heapExt heap (extendAll ttl heap ps) := by
  induction ps with
  | nil => intro heap; exact heapExt_refl heap
  | cons p ps ih =>
    intro heap
    unfold extendAll
    cases hp : heap[p]? with
    | none => exact ih heap
    | some sl =>
      exact heapExt_trans (heapExt_set heap p sl (sl.extendExpiry ttl) hp rfl rfl) (ih _)

theorem foldActions_heap (slots : List Nat) (actions : List String) :
    ∀ st : replenishState,
      (actions.foldl
        (fun st actionId =>
          { st with
            actionsToNewSlots :=
              mapSet st.actionsToNewSlots actionId
                (mapGetList st.actionsToNewSlots actionId ++ slots),
            actionsToTotalSlots :=
              mapSet st.actionsToTotalSlots actionId
                ((mapGet st.actionsToTotalSlots actionId).getD 0 + (slots.length : Int)) })
        st).heap = st.heap := by
  induction actions with
  | nil => intro st; rfl
  | cons a actions ih => intro st; simp only [List.foldl_cons]; rw [ih]

theorem replenishWorker_heap (now ttl : Int) (workers : List (String × worker))
    (w2a : List (String × List String)) (unacked : List (String × List Nat))
    (st : replenishState) (row : ListAvailableSlotsForWorkersRow) :
    (replenishWorker now ttl workers w2a unacked st row).heap =
      extendAll ttl (workerSlots now ttl workers w2a unacked st.heap row).1
        (mapGetList unacked row.ID) := by
  unfold replenishWorker
  simp only
  rw [foldActions_heap]

theorem workerSlots_heapExt (now ttl : Int) (workers : List (String × worker))
    (w2a : List (String × List String)) (unacked : List (String × List Nat))
    (heap : List slot) (row : ListAvailableSlotsForWorkersRow) :
    heapExt heap (workerSlots now ttl workers w2a unacked heap row).1 := by
  unfold workerSlots
  simp only [createSlots_eq]
  exact heapExt_append _ _

theorem replenishRows_heapExt (now ttl : Int) (workers : List (String × worker))
    (w2a : List (String × List String)) (unacked : List (String × List Nat))
    (rows : List ListAvailableSlotsForWorkersRow) :
    ∀ st : replenishState,
      heapExt st.heap (rows.foldl (replenishWorker now ttl workers w2a unacked) st).heap := by
  induction rows with
  | nil => intro st; exact heapExt_refl _
  | cons row rows ih =>
    intro st
    simp only [List.foldl_cons]
    refine heapExt_trans ?_ (ih _)
    rw [replenishWorker_heap]
    exact heapExt_trans (workerSlots_heapExt _ _ _ _ _ _ _) (extendAll_heapExt _ _ _)

theorem replenish_heapExt (s : Scheduler) (repo : schedulerRepo)
    (shuffle : String → List Nat → List Nat) (now ttl : Int) (mustReplenish : Bool) :
    heapExt s.heap (s.replenish repo shuffle now ttl mustReplenish).2.heap := by
  unfold Scheduler.replenish
  simp only
  split
  · exact heapExt_refl _
  · split
    · exact heapExt_refl _
    · rename_i availableSlots _
      exact replenishRows_heapExt now ttl _ _ _ availableSlots
        { heap := s.heap, actionsToNewSlots := [], actionsToTotalSlots := [] }

theorem replenish_unackedSlots (s : Scheduler) (repo : schedulerRepo)
    (shuffle : String → List Nat → List Nat) (now ttl : Int) (mustReplenish : Bool) :
    (s.replenish repo shuffle now ttl mustReplenish).2.unackedSlots = s.unackedSlots := by
  unfold Scheduler.replenish
  simp only
  split
  · rfl
  · split <;> rfl

/-! ## The unacked registry references used slots -/

theorem ack_heap (ids : List Int) : ∀ s : Scheduler, (s.ack ids).heap = s.heap := by
  induction ids with
  | nil => intro s; rfl
  | cons i ids ih =>
    intro s
    unfold Scheduler.ack
    cases mapGet s.unackedSlots i with
    | none => exact ih s
    | some p => simpa using ih _

theorem nack_heap (ids : List Int) : ∀ s : Scheduler, (s.nack ids).heap = s.heap := by
  induction ids with
  | nil => intro s; rfl
  | cons i ids ih =>
    intro s
    unfold Scheduler.nack
    cases mapGet s.unackedSlots i with
    | none => exact ih s
    | some p => simpa using ih _

theorem ack_unacked_subset (ids : List Int) :
    ∀ (s : Scheduler) (e : Int × Nat), e ∈ (s.ack ids).unackedSlots → e ∈ s.unackedSlots := by
  induction ids with
  | nil => intro s e he; exact he
  | cons i ids ih =>
    intro s e he
    unfold Scheduler.ack at he
    cases hg : mapGet s.unackedSlots i with
    | none => rw [hg] at he; exact ih s e he
    | some p => rw [hg] at he; exact mem_mapDelete _ _ _ (ih _ e he)

theorem nack_unacked_subset (ids : List Int) :
    ∀ (s : Scheduler) (e : Int × Nat), e ∈ (s.nack ids).unackedSlots → e ∈ s.unackedSlots := by
  induction ids with
  | nil => intro s e he; exact he
  | cons i ids ih =>
    intro s e he
    unfold Scheduler.nack at he
    cases hg : mapGet s.unackedSlots i with
    | none => rw [hg] at he; exact ih s e he
    | some p => rw [hg] at he; exact mem_mapDelete _ _ _ (ih _ e he)

theorem unackedUsed_ack (s : Scheduler) (ids : List Int) (h : unackedUsed s) :
    unackedUsed (s.ack ids) := by
  intro e he
  rw [ack_heap]
  exact h e (ack_unacked_subset ids s e he)

theorem unackedUsed_nack (s : Scheduler) (ids : List Int) (h : unackedUsed s) :
    unackedUsed (s.nack ids) := by
  intro e he
  rw [nack_heap]
  exact h e (nack_unacked_subset ids s e he)

theorem unackedUsed_replenish (s : Scheduler) (repo : schedulerRepo)
    (shuffle : String → List Nat → List Nat) (now ttl : Int) (mustReplenish : Bool)
    (h : unackedUsed s) : unackedUsed (s.replenish repo shuffle now ttl mustReplenish).2 := by
  intro e he
  rw [replenish_unackedSlots] at he
  obtain ⟨sl, hsl, hu⟩ := h e he
  obtain ⟨sl', hsl', hu', _⟩ := replenish_heapExt s repo shuffle now ttl mustReplenish e.2 sl hsl
  exact ⟨sl', hsl', hu'.trans hu⟩

theorem unackedUsed_tryAssignSingleton (s s' : Scheduler) (now : Int) (qi : QueueItem)
    (candidateSlots : List Nat) (ringOffset : Nat) (labels : List GetDesiredLabelsRow)
    (a n : Option closure) (res : assignSingleResult) (h : unackedUsed s)
    (hcall : s.tryAssignSingleton now qi candidateSlots ringOffset labels a n = some (res, s')) :
    unackedUsed s' := by
  rcases tryAssignSingleton_cases _ _ _ _ _ _ _ _ _ _ hcall with ⟨_, h2, _⟩ |
    ⟨p, sl, _, hsl, _, _, hs'⟩
  · rw [h2]; exact h
  · have hlt : p < s.heap.length := (List.getElem?_eq_some_iff.mp hsl).1
    subst hs'
    intro e he
    rcases mem_mapSet _ _ _ _ he with he | he
    · subst he
      refine ⟨{ sl with usedOnce := true, rateLimitAcks := [a], rateLimitNacks := [n] }, ?_, rfl⟩
      simp [List.getElem?_set, hlt]
    · obtain ⟨sl₀, hsl₀, hu₀⟩ := h e he
      by_cases hpe : p = e.2
      · refine ⟨{ sl with usedOnce := true, rateLimitAcks := [a], rateLimitNacks := [n] }, ?_, rfl⟩
        have hlt' : e.2 < s.heap.length := hpe ▸ hlt
        simp [List.getElem?_set, hpe, hlt']
      · exact ⟨sl₀, by simp [List.getElem?_set, hpe, hsl₀], hu₀⟩

/-- C10: in every reachable scheduler state each slot referenced by an entry
of the unacked registry has been used (`usedOnce = true`, hence it is not
active); and from any state with that property, `ack`, `nack`, `replenish`
and every returning `tryAssignSingleton` call lead to a state with it. -/
theorem unacked_slots_are_used :
    (∀ s : Scheduler, Reachable s →
      ∀ e ∈ s.unackedSlots, ∃ sl, s.heap[e.2]? = some sl ∧ sl.usedOnce = true ∧
        ∀ now, sl.active now = false) ∧
    (∀ s : Scheduler, unackedUsed s →
      (∀ ids, unackedUsed (s.ack ids)) ∧ (∀ ids, unackedUsed (s.nack ids)) ∧
      (∀ repo shuffle now ttl mustReplenish,
        unackedUsed (s.replenish repo shuffle now ttl mustReplenish).2) ∧
      (∀ s' now qi candidateSlots ringOffset labels a n res,
        s.tryAssignSingleton now qi candidateSlots ringOffset labels a n = some (res, s') →
        unackedUsed s')) := by
  have key : ∀ s : Scheduler, Reachable s → unackedUsed s := by
    intro s hs
    induction hs with
    | init => intro e he; cases he
    | setWorkers s workers _ ih => exact ih
    | ack s ids _ ih => exact unackedUsed_ack s ids ih
    | nack s ids _ ih => exact unackedUsed_nack s ids ih
    | replenish s repo shuffle now ttl must _ _ ih =>
      exact unackedUsed_replenish s repo shuffle now ttl must ih
    | tryAssign s s' rl picks now qis l r out _ h ih =>
      exact tryAssign_induction unackedUsed (fun _ _ ht => ht)
        (fun t t' _ _ _ _ _ _ _ _ _ ht _ hsing =>
          unackedUsed_tryAssignSingleton t t' _ _ _ _ _ _ _ _ ht hsing)
        s s' rl picks now qis l r out ih h
  refine ⟨?_, ?_⟩
  · intro s hs e he
    obtain ⟨sl, hsl, hu⟩ := key s hs e he
    exact ⟨sl, hsl, hu, fun now => by simp [slot.active, hu]⟩
  · intro s hs
    exact ⟨fun ids => unackedUsed_ack s ids hs, fun ids => unackedUsed_nack s ids hs,
      fun repo shuffle now ttl must => unackedUsed_replenish s repo shuffle now ttl must hs,
      fun s' now qi cand off labels a n res hcall =>
        unackedUsed_tryAssignSingleton s s' now qi cand off labels a n res hs hcall⟩

/-- Witness for C10: after one assignment on the basic scenario the registry
holds ack id 1 for slot 0, which is used. -/
theorem unacked_slots_are_used_witness :
    Reachable schedBasicAssigned ∧ schedBasicAssigned.unackedSlots = [(1, 0)] ∧
      ∀ e ∈ schedBasicAssigned.unackedSlots,
        ∃ sl, schedBasicAssigned.heap[e.2]? = some sl ∧ sl.usedOnce = true ∧
          ∀ now, sl.active now = false :=
  have hr : Reachable schedBasic :=
    Reachable.replenish _ repoBasic (fun _ l => l) 100 15 true (fun _ l => List.Perm.refl l)
      (Reachable.setWorkers _ _ Reachable.init)
  have hrun : schedBasic.tryAssign rlAdmitAll (fun _ _ => []) 101 [plainItem 1 "a"] [] []
      = some (basicOut, schedBasicAssigned) := by decide
  have hr' : Reachable schedBasicAssigned :=
    Reachable.tryAssign schedBasic schedBasicAssigned rlAdmitAll (fun _ _ => []) 101
      [plainItem 1 "a"] [] [] basicOut hr hrun
  ⟨hr', by decide, unacked_slots_are_used.1 schedBasicAssigned hr'⟩

/-! ## Slots created per worker row -/

theorem mapGetList_mapSet_self {κ α : Type} [DecidableEq κ] (m : List (κ × List α)) (k : κ)
    (v : List α) : mapGetList (mapSet m k v) k = v := by
  simp [mapGetList, mapGet_mapSet_self]

theorem mapGetList_mapSet_of_ne {κ α : Type} [DecidableEq κ] (m : List (κ × List α)) (k k' : κ)
    (v : List α) (h : k ≠ k') : mapGetList (mapSet m k v) k' = mapGetList m k' := by
  simp [mapGetList, mapGet_mapSet_of_ne _ _ _ _ h]

theorem workersToUnackedSlots_get (heap : List slot) (w : String) (reg : List (Int × Nat)) :
    ∀ m : List (String × List Nat),
      mapGetList (workersToUnackedSlots heap m reg) w =
        mapGetList m w ++
          (reg.filter (fun e => decide (getWorkerId heap e.2 = some w))).map (fun e => e.2) := by
  induction reg with
  | nil => intro m; simp [workersToUnackedSlots]
  | cons e reg ih =>
    intro m
    obtain ⟨id, p⟩ := e
    unfold workersToUnackedSlots
    cases hw : getWorkerId heap p with
    | none => simp [ih, hw]
    | some w' =>
      simp only [ih]
      by_cases hww : w' = w
      · subst hww
        simp [mapGetList_mapSet_self, hw]
      · simp [mapGetList_mapSet_of_ne _ _ _ _ hww, hw, hww]

theorem workersToUnackedSlots_eq_unackedOf (s : Scheduler) (w : String) :
    mapGetList (workersToUnackedSlots s.heap [] s.unackedSlots) w = unackedOf s w := by
  rw [workersToUnackedSlots_get]
  simp [mapGetList, mapGet, unackedOf]

theorem extendAll_length (ttl : Int) (ps : List Nat) :
    ∀ heap : List slot, (extendAll ttl heap ps).length = heap.length := by
  induction ps with
  | nil => intro heap; rfl
  | cons p ps ih =>
    intro heap
    unfold extendAll
    cases heap[p]? with
    | none => exact ih heap
    | some sl => rw [ih]; simp

theorem foldActions_newSlots (slots : List Nat) (x : String) (actions : List String) :
    ∀ st : replenishState,
      mapGetList (actions.foldl
        (fun st actionId =>
          { st with
            actionsToNewSlots :=
              mapSet st.actionsToNewSlots actionId
                (mapGetList st.actionsToNewSlots actionId ++ slots),
            actionsToTotalSlots :=
              mapSet st.actionsToTotalSlots actionId
                ((mapGet st.actionsToTotalSlots actionId).getD 0 + (slots.length : Int)) })
        st).actionsToNewSlots x =
      mapGetList st.actionsToNewSlots x ++ (List.replicate (actions.count x) slots).flatten := by
  induction actions with
  | nil => intro st; simp
  | cons a actions ih =>
    intro st
    simp only [List.foldl_cons]
    rw [ih]
    by_cases hax : a = x
    · subst hax
      simp [mapGetList_mapSet_self, List.count_cons, List.replicate_succ]
    · have hbeq : (a == x) = false := by simpa using hax
      simp [mapGetList_mapSet_of_ne _ _ _ _ hax, List.count_cons, hbeq]

theorem replenishWorker_newSlots (now ttl : Int) (workers : List (String × worker))
    (w2a : List (String × List String)) (unacked : List (String × List Nat))
    (st : replenishState) (row : ListAvailableSlotsForWorkersRow) (x : String) :
    mapGetList (replenishWorker now ttl workers w2a unacked st row).actionsToNewSlots x =
      mapGetList st.actionsToNewSlots x ++
        (List.replicate ((mapGetList w2a row.ID).count x)
          (workerSlots now ttl workers w2a unacked st.heap row).2).flatten := by
  unfold replenishWorker
  simp only
  rw [foldActions_newSlots]

theorem getD_cons_eraseIdx_perm {α : Type} (d : α) :
    ∀ (l : List α) (k : Nat), k < l.length → (l.getD k d :: l.eraseIdx k).Perm l := by
  intro l
  induction l with
  | nil => intro k hk; simp at hk
  | cons x xs ih =>
    intro k hk
    cases k with
    | zero => simp
    | succ k =>
      have hk' : k < xs.length := by simpa using hk
      have := ih k hk'
      simp only [List.getD_cons_succ, List.eraseIdx_cons_succ]
      exact (List.Perm.swap _ _ _).trans (List.Perm.cons x this)

theorem interleave_perm {α : Type} :
    ∀ (n : Nat) (picks : List Nat) (tasks : List α), n = tasks.length →
      (interleave n picks tasks).Perm tasks := by
  intro n
  induction n with
  | zero =>
    intro picks tasks h
    have : tasks = [] := List.length_eq_zero.mp h.symm
    subst this
    simp [interleave]
  | succ n ih =>
    intro picks tasks h
    cases tasks with
    | nil => simp at h
    | cons t ts =>
      simp only [interleave]
      have hk : picks.headD 0 % (t :: ts).length < (t :: ts).length :=
        Nat.mod_lt _ (by simp)
      refine List.Perm.trans (List.Perm.cons _ (ih _ _ ?_)) (getD_cons_eraseIdx_perm t _ _ hk)
      rw [List.length_eraseIdx, if_pos hk]
      simp only [List.length_cons] at h ⊢
      omega

theorem checkRateLimits_plain (rl : rateLimiter) (m : List (String × List (String × Int)))
    (trace : List event) (qis : List QueueItem)
    (h : ∀ qi ∈ qis, mapGetList m qi.StepRunId = []) :
    checkRateLimits rl m trace qis =
      (qis.map (fun qi => (assignSingleResult.zero (some qi), none, none)), trace) := by
  induction qis with
  | nil => rfl
  | cons qi qis ih =>
    have h1 := h qi (List.mem_cons_self _ _)
    have h2 := ih (fun q hq => h q (List.mem_cons_of_mem _ hq))
    simp [checkRateLimits, h1, h2]

theorem spawnTasks_plain (len : Nat) (qis : List QueueItem) :
    ∀ (i off : Nat),
      ((spawnTasks len i off qis
          (qis.map (fun qi => (assignSingleResult.zero (some qi), none, none)))).1.map
            (fun t => t.i) = List.range' i qis.length) ∧
      (∀ t ∈ (spawnTasks len i off qis
          (qis.map (fun qi => (assignSingleResult.zero (some qi), none, none)))).1,
        i ≤ t.i ∧ qis[t.i - i]? = some t.qi ∧ t.childRingOffset = (off + (t.i - i)) % len) ∧
      (spawnTasks len i off qis
          (qis.map (fun qi => (assignSingleResult.zero (some qi), none, none)))).2
        = off + qis.length := by
  induction qis with
  | nil => intro i off; simp [spawnTasks]
  | cons qi qis ih =>
    intro i off
    have hz : (assignSingleResult.zero (some qi)).rateLimitResult.isSome = false := rfl
    obtain ⟨h1, h2, h3⟩ := ih (i + 1) (off + 1)
    simp only [List.map_cons, spawnTasks, hz, Bool.false_eq_true, if_false, List.length_cons]
    refine ⟨?_, ?_, ?_⟩
    · rw [h1, List.range'_succ]
    · intro t ht
      rcases List.mem_cons.mp ht with h | h
      · subst h
        simp
      · obtain ⟨hle, hq, ho⟩ := h2 t h
        refine ⟨by omega, ?_, ?_⟩
        · have : t.i - i = (t.i - (i + 1)) + 1 := by omega
          rw [this, List.getElem?_cons_succ]
          exact hq
        · rw [ho]
          congr 1
          omega
    · rw [h3]; omega

theorem countP_set {α : Type} (f : α → Bool) (new old : α) :
    ∀ (l : List α) (i : Nat), l[i]? = some old →
      List.countP f (l.set i new) + (if f old then 1 else 0) =
        List.countP f l + (if f new then 1 else 0) := by
  intro l
  induction l with
  | nil => intro i h; simp at h
  | cons x xs ih =>
    intro i h
    cases i with
    | zero =>
      simp only [List.getElem?_cons_zero, Option.some.injEq] at h
      subst h
      simp only [List.set_cons_zero, List.countP_cons]
      omega
    | succ i =>
      simp only [List.getElem?_cons_succ] at h
      have := ih i h
      simp only [List.set_cons_succ, List.countP_cons]
      omega

theorem mem_ringOrder_iff (l : List Nat) (off p : Nat) : p ∈ ringOrder l off ↔ p ∈ l := by
  unfold ringOrder
  rw [List.mem_append]
  constructor
  · intro h
    rcases h with h | h
    · exact List.mem_of_mem_drop h
    · exact List.mem_of_mem_take h
  · intro h
    rw [← List.take_append_drop off l] at h
    rcases List.mem_append.mp h with h | h
    · exact Or.inr h
    · exact Or.inl h

theorem slotActive_set_claimed (now : Int) (heap : List slot) (p q : Nat) (sl : slot)
    (a n : List (Option closure)) :
    slotActive now (heap.set p { sl with usedOnce := true, rateLimitAcks := a, rateLimitNacks := n }) q
      = (if p = q then false else slotActive now heap q) := by
  unfold slotActive
  rw [List.getElem?_set]
  by_cases hpq : p = q
  · subst hpq
    by_cases hlt : p < heap.length
    · simp [hlt, slot.active]
    · have : heap[p]? = none := List.getElem?_eq_none (by omega)
      simp [hlt]
  · simp [hpq]

theorem filter_length_claimed (f g : Nat → Bool) (p : Nat) (hfp : f p = true) (hgp : g p = false)
    (hfg : ∀ q, q ≠ p → g q = f q) :
    ∀ l : List Nat, l.Nodup → p ∈ l → (l.filter g).length + 1 = (l.filter f).length := by
  intro l
  induction l with
  | nil => intro _ h; cases h
  | cons x xs ih =>
    intro hnd hmem
    have hnd' := List.nodup_cons.mp hnd
    by_cases hxp : x = p
    · subst hxp
      have hsame : xs.filter g = xs.filter f := by
        apply List.filter_congr
        intro q hq
        exact hfg q (fun h => hnd'.1 (h ▸ hq))
      simp [List.filter_cons, hfp, hgp, hsame]
    · have hmem' : p ∈ xs := by
        rcases List.mem_cons.mp hmem with h | h
        · exact absurd h.symm hxp
        · exact h
      have := ih hnd'.2 hmem'
      rw [List.filter_cons, List.filter_cons, hfg x hxp]
      by_cases hfx : f x = true
      · simp [hfx]; omega
      · simp [hfx]; omega

theorem activeSlots_claimed (now : Int) (heap : List slot) (slots : List Nat) (p : Nat) (sl : slot)
    (a n : List (Option closure)) (hmem : p ∈ slots) (hact : slotActive now heap p = true) :
    (activeSlots now
        (heap.set p { sl with usedOnce := true, rateLimitAcks := a, rateLimitNacks := n }) slots).length
      + 1 = (activeSlots now heap slots).length := by
  unfold activeSlots
  refine filter_length_claimed _ _ p hact ?_ ?_ _ (List.nodup_dedup _) (List.mem_dedup.mpr hmem)
  · simp [slotActive_set_claimed]
  · intro q hq
    simp [slotActive_set_claimed, Ne.symm hq]

theorem activeSlots_eq_nil (now : Int) (heap : List slot) (slots : List Nat)
    (h : ∀ p ∈ slots, slotActive now heap p = false) : activeSlots now heap slots = [] := by
  unfold activeSlots
  apply List.filter_eq_nil_iff.mpr
  intro p hp
  simp [h p (List.mem_dedup.mp hp)]

theorem rankedFor_plain (heap : List slot) (qi : QueueItem) (slots : List Nat)
    (hs : qi.Sticky = none) : rankedFor heap qi [] slots = slots := by
  simp [rankedFor, hs]

theorem tryAssignSingleton_plain (s : Scheduler) (now : Int) (qi : QueueItem)
    (candidateSlots : List Nat) (ringOffset : Nat) (a n : Option closure)
    (hs : qi.Sticky = none) (hoff : ringOffset ≤ candidateSlots.length) :
    (s.tryAssignSingleton now qi candidateSlots ringOffset [] a n =
        some ({ assignSingleResult.zero none with noSlots := true }, s) ∧
      ∀ p ∈ candidateSlots, slotActive now s.heap p = false) ∨
    (∃ p sl, p ∈ candidateSlots ∧ s.heap[p]? = some sl ∧ sl.active now = true ∧
      s.tryAssignSingleton now qi candidateSlots ringOffset [] a n =
        some ({ assignSingleResult.zero none with
                  ackId := s.assignedCount + 1, workerId := sl.workerId, succeeded := true },
              { s with
                heap := s.heap.set p
                  { sl with usedOnce := true, rateLimitAcks := [a], rateLimitNacks := [n] },
                assignedCount := s.assignedCount + 1,
                unackedSlots := mapSet s.unackedSlots (s.assignedCount + 1) p })) := by
  cases hcall : s.tryAssignSingleton now qi candidateSlots ringOffset [] a n with
  | none =>
    rw [tryAssignSingleton_eq, rankedFor_plain _ _ _ hs, if_neg (by omega)] at hcall
    split at hcall <;> cases hcall
  | some r =>
    obtain ⟨res, s'⟩ := r
    rcases tryAssignSingleton_cases _ _ _ _ _ _ _ _ _ _ hcall with ⟨hres, hs', hall⟩ |
      ⟨p, sl, hmem, hsl, hsla, hres, hs'⟩
    · left
      rw [rankedFor_plain _ _ _ hs] at hall
      exact ⟨by rw [hres, hs'], fun p hp => hall p ((mem_ringOrder_iff _ _ _).mpr hp)⟩
    · right
      rw [rankedFor_plain _ _ _ hs] at hmem
      exact ⟨p, sl, (mem_ringOrder_iff _ _ _).mp hmem, hsl, hsla, by rw [hres, hs']⟩

theorem runTasks_plain (now : Int) (cand : List Nat)
    (stepIdsToLabels : List (String × List GetDesiredLabelsRow)) :
    ∀ (ts : List assignTask) (s : Scheduler) (res : List assignSingleResult),
      (∀ t ∈ ts, t.qi.Sticky = none ∧ mapGetList stepIdsToLabels t.qi.StepId = [] ∧
        t.childRingOffset ≤ cand.length) →
      (ts.map (fun t => t.i)).Nodup →
      (∀ t ∈ ts, ∃ r, res[t.i]? = some r ∧ r.succeeded = false) →
      ∃ res' s', runTasks now cand stepIdsToLabels s res ts = some (res', s') ∧
        res'.length = res.length ∧
        (∀ j, j ∉ ts.map (fun t => t.i) → res'[j]? = res[j]?) ∧
        List.countP (fun r => r.succeeded) res' =
          List.countP (fun r => r.succeeded) res + min (activeSlots now s.heap cand).length ts.length ∧
        s.assignedCount ≤ s'.assignedCount ∧
        (∀ k, k ≤ s.assignedCount → mapGet s'.unackedSlots k = mapGet s.unackedSlots k) ∧
        (∀ t ∈ ts, ∃ r, res'[t.i]? = some r ∧ r.qi = some t.qi ∧ r.rateLimitResult = none ∧
          ((r.succeeded = false ∧ r.noSlots = true) ∨
           (r.succeeded = true ∧ r.noSlots = false ∧ s.assignedCount < r.ackId ∧
             r.ackId ≤ s'.assignedCount ∧
             ∃ p, mapGet s'.unackedSlots r.ackId = some p ∧ p ∈ cand ∧
               slotActive now s.heap p = true))) ∧
        (∀ t₁ ∈ ts, ∀ t₂ ∈ ts, t₁.i ≠ t₂.i → ∀ r₁ r₂, res'[t₁.i]? = some r₁ →
          res'[t₂.i]? = some r₂ → r₁.succeeded = true → r₂.succeeded = true →
          mapGet s'.unackedSlots r₁.ackId ≠ mapGet s'.unackedSlots r₂.ackId) := by
  intro ts
  induction ts with
  | nil =>
    intro s res _ _ _
    exact ⟨res, s, rfl, rfl, fun _ _ => rfl, by simp, le_refl _, fun _ _ => rfl,
      fun t ht => absurd ht (List.not_mem_nil t), fun t ht => absurd ht (List.not_mem_nil t)⟩
  | cons t ts ih =>
    intro s res hplain hnodup hpend
    obtain ⟨hts, hlabels, hoff⟩ := hplain t (List.mem_cons_self _ _)
    have hplain' : ∀ t' ∈ ts, t'.qi.Sticky = none ∧ mapGetList stepIdsToLabels t'.qi.StepId = [] ∧
        t'.childRingOffset ≤ cand.length := fun t' ht' => hplain t' (List.mem_cons_of_mem _ ht')
    simp only [List.map_cons, List.nodup_cons] at hnodup
    obtain ⟨hti, hnodup'⟩ := hnodup
    obtain ⟨r0, hr0, hr0s⟩ := hpend t (List.mem_cons_self _ _)
    have hlt : t.i < res.length := (List.getElem?_eq_some_iff.mp hr0).1
    have hne : ∀ t' ∈ ts, t.i ≠ t'.i := fun t' ht' h =>
      hti (List.mem_map.mpr ⟨t', ht', h.symm⟩)
    have hpend' : ∀ rnew : assignSingleResult, ∀ t' ∈ ts,
        ∃ r, (res.set t.i rnew)[t'.i]? = some r ∧ r.succeeded = false := by
      intro rnew t' ht'
      obtain ⟨r, hr, hrs⟩ := hpend t' (List.mem_cons_of_mem _ ht')
      exact ⟨r, by rw [List.getElem?_set_ne (hne t' ht')]; exact hr, hrs⟩
    rcases tryAssignSingleton_plain s now t.qi cand t.childRingOffset t.rlAck t.rlNack hts hoff with
      ⟨hcall, hnone⟩ | ⟨p, sl, hpmem, hsl, hsla, hcall⟩
    · -- no active slot: the item is marked noSlots
      obtain ⟨res', s', hrun, hlen, hframe, hcount, hmono, hreg, hd, he⟩ :=
        ih s (res.set t.i (noSlotsResult t.qi)) hplain' hnodup' (hpend' _)
      have hhead : res'[t.i]? = some (noSlotsResult t.qi) := by
        rw [hframe t.i hti]
        simp [List.getElem?_set, hlt]
      have hzero : activeSlots now s.heap cand = [] := activeSlots_eq_nil _ _ _ hnone
      refine ⟨res', s', ?_, ?_, ?_, ?_, hmono, hreg, ?_, ?_⟩
      · unfold runTasks
        rw [hlabels, hcall]
        exact hrun
      · rw [hlen, List.length_set]
      · intro j hj
        simp only [List.map_cons, List.mem_cons, not_or] at hj
        rw [hframe j hj.2, List.getElem?_set_ne (Ne.symm hj.1)]
      · rw [hcount, hzero]
        have := countP_set (fun r => r.succeeded)
          (noSlotsResult t.qi) r0 res t.i hr0
        simp only [hr0s, noSlotsResult, assignSingleResult.zero] at this
        simp only [List.length_nil, Nat.zero_min, Nat.add_zero] at this ⊢
        simpa using this
      · intro t' ht'
        rcases List.mem_cons.mp ht' with h | h
        · subst h
          exact ⟨_, hhead, rfl, rfl, Or.inl ⟨rfl, rfl⟩⟩
        · exact hd t' h
      · intro t₁ ht₁ t₂ ht₂ hi r₁ r₂ h₁ h₂ hs₁ hs₂
        rcases List.mem_cons.mp ht₁ with e₁ | m₁
        · subst e₁
          rw [hhead] at h₁
          cases h₁
          simp [noSlotsResult, assignSingleResult.zero] at hs₁
        · rcases List.mem_cons.mp ht₂ with e₂ | m₂
          · subst e₂
            rw [hhead] at h₂
            cases h₂
            simp [noSlotsResult, assignSingleResult.zero] at hs₂
          · exact he t₁ m₁ t₂ m₂ hi r₁ r₂ h₁ h₂ hs₁ hs₂
    · -- an active slot is claimed
      have hpact : slotActive now s.heap p = true :=
        (slotActive_eq_true_iff _ _ _).mpr ⟨sl, hsl, hsla⟩
      obtain ⟨res', s', hrun, hlen, hframe, hcount, hmono, hreg, hd, he⟩ :=
        ih { s with
             heap := s.heap.set p
               { sl with usedOnce := true, rateLimitAcks := [t.rlAck], rateLimitNacks := [t.rlNack] },
             assignedCount := s.assignedCount + 1,
             unackedSlots := mapSet s.unackedSlots (s.assignedCount + 1) p }
          (res.set t.i (assignedResult t.qi (s.assignedCount + 1) sl.workerId)) hplain' hnodup' (hpend' _)
      simp only at hcount hmono hreg hd he
      have hhead : res'[t.i]? = some (assignedResult t.qi (s.assignedCount + 1) sl.workerId) := by
        rw [hframe t.i hti]
        simp [List.getElem?_set, hlt]
      have hclaimed := activeSlots_claimed now s.heap cand p sl [t.rlAck] [t.rlNack] hpmem hpact
      have hbound : mapGet s'.unackedSlots (s.assignedCount + 1) = some p := by
        rw [hreg _ (le_refl _)]
        exact mapGet_mapSet_self _ _ _
      have hstill : ∀ q, slotActive now (s.heap.set p
          { sl with usedOnce := true, rateLimitAcks := [t.rlAck], rateLimitNacks := [t.rlNack] }) q
            = true → slotActive now s.heap q = true ∧ q ≠ p := by
        intro q hq
        rw [slotActive_set_claimed] at hq
        by_cases hpq : p = q
        · simp [hpq] at hq
        · simp only [hpq, if_false] at hq
          exact ⟨hq, fun h => hpq h.symm⟩
      refine ⟨res', s', ?_, ?_, ?_, ?_, by omega, ?_, ?_, ?_⟩
      · unfold runTasks
        rw [hlabels, hcall]
        exact hrun
      · rw [hlen, List.length_set]
      · intro j hj
        simp only [List.map_cons, List.mem_cons, not_or] at hj
        rw [hframe j hj.2, List.getElem?_set_ne (Ne.symm hj.1)]
      · rw [hcount]
        have := countP_set (fun r => r.succeeded)
          (assignedResult t.qi (s.assignedCount + 1) sl.workerId) r0 res t.i hr0
        have hnew : (assignedResult t.qi (s.assignedCount + 1) sl.workerId).succeeded = true := rfl
        simp only [hr0s, hnew, Bool.false_eq_true, if_false, if_true, Nat.add_zero] at this
        rw [this]
        simp only [List.length_cons]
        omega
      · intro k hk
        rw [hreg k (by omega), mapGet_mapSet_of_ne _ _ _ _ (by omega)]
      · intro t' ht'
        rcases List.mem_cons.mp ht' with h | h
        · subst h
          exact ⟨_, hhead, rfl, rfl, Or.inr ⟨rfl, rfl, by simp [assignedResult],
            by simpa [assignedResult] using hmono, p, hbound, hpmem, hpact⟩⟩
        · obtain ⟨r, hr, hq, hrl, hcase⟩ := hd t' h
          refine ⟨r, hr, hq, hrl, ?_⟩
          rcases hcase with hc | ⟨h1, h2, h3, h4, q, hq1, hq2, hq3⟩
          · exact Or.inl hc
          · exact Or.inr ⟨h1, h2, by omega, h4, q, hq1, hq2, (hstill q hq3).1⟩
      · intro t₁ ht₁ t₂ ht₂ hi r₁ r₂ h₁ h₂ hs₁ hs₂
        have hdiff : ∀ t' ∈ ts, ∀ r, res'[t'.i]? = some r → r.succeeded = true →
            mapGet s'.unackedSlots r.ackId ≠ some p := by
          intro t' ht' r hr hrs
          obtain ⟨r', hr', _, _, hcase⟩ := hd t' ht'
          rw [hr] at hr'
          cases hr'
          rcases hcase with hc | ⟨_, _, _, _, q, hq1, _, hq3⟩
          · rw [hc.1] at hrs; cases hrs
          · rw [hq1]
            intro h
            cases h
            exact (hstill p hq3).2 rfl
        rcases List.mem_cons.mp ht₁ with e₁ | m₁
        · rcases List.mem_cons.mp ht₂ with e₂ | m₂
          · exact absurd (e₁.trans e₂.symm ▸ rfl) hi
          · subst e₁
            rw [hhead] at h₁
            cases h₁
            show mapGet s'.unackedSlots (s.assignedCount + 1) ≠ _
            rw [hbound]
            exact fun h => hdiff t₂ m₂ r₂ h₂ hs₂ h.symm
        · rcases List.mem_cons.mp ht₂ with e₂ | m₂
          · subst e₂
            rw [hhead] at h₂
            cases h₂
            show _ ≠ mapGet s'.unackedSlots (s.assignedCount + 1)
            rw [hbound]
            exact hdiff t₁ m₁ r₁ h₁ hs₁
          · exact he t₁ m₁ t₂ m₂ hi r₁ r₂ h₁ h₂ hs₁ hs₂

/-- C3: for an action of the table whose (non-empty) slot list holds `n`
active slots, and a batch of `m` queue items without sticky mode, desired
labels or rate limits, run in any order (`picks`) from any ring offset:
`tryAssignBatch` returns, marks exactly `min n m` items succeeded and the
other `m - min n m` items `noSlots = true`; every succeeded item is bound, by
its ack id in the unacked registry, to a slot of the list that was active, and
two different succeeded items are never bound to the same slot. -/
theorem tryAssignBatch_plain_counts (s : Scheduler) (rl : rateLimiter) (picks : List Nat)
    (now : Int) (actionId : String) (act : action) (qis : List QueueItem) (ringOffset : Nat)
    (stepIdsToLabels : List (String × List GetDesiredLabelsRow))
    (stepRunIdsToRateLimits : List (String × List (String × Int)))
    (hact : mapGet s.actions actionId = some act) (hne : act.slots ≠ [])
    (hplain : ∀ qi ∈ qis, qi.Sticky = none ∧ mapGetList stepIdsToLabels qi.StepId = [] ∧
      mapGetList stepRunIdsToRateLimits qi.StepRunId = []) :
    ∃ res off' s',
      s.tryAssignBatch rl picks now actionId qis ringOffset stepIdsToLabels
        stepRunIdsToRateLimits = some (res, off', s') ∧
      res.length = qis.length ∧
      (res.filter (fun r => r.succeeded)).length =
        min (activeSlots now s.heap act.slots).length qis.length ∧
      (res.filter (fun r => !r.succeeded && r.noSlots)).length =
        qis.length - min (activeSlots now s.heap act.slots).length qis.length ∧
      (∀ (i : Nat) (r : assignSingleResult), res[i]? = some r →
        r.qi = qis[i]? ∧ r.rateLimitResult = none ∧
        ((r.succeeded = false ∧ r.noSlots = true) ∨
         (r.succeeded = true ∧ r.noSlots = false ∧
           ∃ p, mapGet s'.unackedSlots r.ackId = some p ∧ p ∈ act.slots ∧
             slotActive now s.heap p = true))) ∧
      (∀ (i j : Nat) (ri rj : assignSingleResult), i ≠ j → res[i]? = some ri →
        res[j]? = some rj → ri.succeeded = true → rj.succeeded = true →
        mapGet s'.unackedSlots ri.ackId ≠ mapGet s'.unackedSlots rj.ackId) := by
  have hlenpos : 0 < act.slots.length := List.length_pos.mpr hne
  have hcheck := checkRateLimits_plain rl stepRunIdsToRateLimits s.trace qis
    (fun qi hqi => (hplain qi hqi).2.2)
  obtain ⟨hidx, htask, hoff⟩ := spawnTasks_plain act.slots.length qis 0 ringOffset
  generalize htasks : (spawnTasks act.slots.length 0 ringOffset qis
    (qis.map (fun qi => (assignSingleResult.zero (some qi), none, none)))) = spawned at hidx htask hoff
  have hperm := interleave_perm spawned.1.length picks spawned.1 rfl
  have hres0 : ∀ i, (qis.map (fun qi => assignSingleResult.zero (some qi)))[i]? =
      (qis[i]?).map (fun qi => assignSingleResult.zero (some qi)) :=
    fun i => List.getElem?_map _ _ _
  have htlen : spawned.1.length = qis.length := by
    have := congrArg List.length hidx
    simpa using this
  -- every index below the batch length belongs to exactly one task
  have hcover : ∀ i, i < qis.length → ∃ t ∈ interleave spawned.1.length picks spawned.1, t.i = i := by
    intro i hi
    have : i ∈ spawned.1.map (fun t => t.i) := by
      rw [hidx]; exact List.mem_range'_1.mpr ⟨Nat.zero_le _, by omega⟩
    obtain ⟨t, ht, hti⟩ := List.mem_map.mp this
    exact ⟨t, hperm.mem_iff.mpr ht, hti⟩
  obtain ⟨res', s', hrun, hlen, hframe, hcount, hmono, hreg, hd, he⟩ :=
    runTasks_plain now act.slots stepIdsToLabels (interleave spawned.1.length picks spawned.1)
      { s with trace := s.trace } (qis.map (fun qi => assignSingleResult.zero (some qi)))
      (by
        intro t ht
        obtain ⟨_, hq, ho⟩ := htask t (hperm.mem_iff.mp ht)
        have hqmem : t.qi ∈ qis := List.mem_iff_getElem?.mpr ⟨_, hq⟩
        refine ⟨(hplain _ hqmem).1, (hplain _ hqmem).2.1, ?_⟩
        rw [ho]
        exact le_of_lt (Nat.mod_lt _ hlenpos))
      (by
        rw [(hperm.map _).nodup_iff, hidx]
        exact List.nodup_range' _ _)
      (by
        intro t ht
        obtain ⟨_, hq, _⟩ := htask t (hperm.mem_iff.mp ht)
        refine ⟨assignSingleResult.zero (some t.qi), ?_, rfl⟩
        rw [hres0]
        simp only [Nat.sub_zero] at hq
        rw [hq]
        rfl)
  have hres'len : res'.length = qis.length := by rw [hlen]; simp
  -- the per-index description of the results
  have hind : ∀ (i : Nat) (r : assignSingleResult), res'[i]? = some r →
      r.qi = qis[i]? ∧ r.rateLimitResult = none ∧
      ((r.succeeded = false ∧ r.noSlots = true) ∨
       (r.succeeded = true ∧ r.noSlots = false ∧
         ∃ p, mapGet s'.unackedSlots r.ackId = some p ∧ p ∈ act.slots ∧
           slotActive now s.heap p = true)) := by
    intro i r hir
    have hi : i < qis.length := by
      rw [← hres'len]; exact (List.getElem?_eq_some_iff.mp hir).1
    obtain ⟨t, ht, hti⟩ := hcover i hi
    obtain ⟨r', hr', hq, hrl, hcase⟩ := hd t ht
    rw [hti, hir] at hr'
    cases hr'
    obtain ⟨_, hqi, _⟩ := htask t (hperm.mem_iff.mp ht)
    simp only [Nat.sub_zero, hti] at hqi
    refine ⟨by rw [hq, hqi], hrl, ?_⟩
    rcases hcase with hc | ⟨h1, h2, _, _, p, hp1, hp2, hp3⟩
    · exact Or.inl hc
    · exact Or.inr ⟨h1, h2, p, hp1, hp2, hp3⟩
  have hsucc : List.countP (fun r => r.succeeded) res' =
      min (activeSlots now s.heap act.slots).length qis.length := by
    rw [hcount, hperm.length_eq, htlen]
    have : List.countP (fun r => r.succeeded)
        (qis.map (fun qi => assignSingleResult.zero (some qi))) = 0 := by
      rw [List.countP_eq_zero]
      intro a ha
      obtain ⟨q, _, hq⟩ := List.mem_map.mp ha
      rw [← hq]
      simp [assignSingleResult.zero]
    rw [this, Nat.zero_add]
  refine ⟨res', spawned.2, s', ?_, hres'len, ?_, ?_, hind, ?_⟩
  · unfold Scheduler.tryAssignBatch
    simp only [hcheck, hact, List.map_map]
    have hmap : (fun r : assignSingleResult × Option closure × Option closure => r.1) ∘
        (fun qi : QueueItem => (assignSingleResult.zero (some qi), (none : Option closure),
          (none : Option closure))) = fun qi => assignSingleResult.zero (some qi) := rfl
    rw [hmap, htasks]
    have hcond : ¬(act.slots.length = 0 ∧ spawned.1 ≠ []) := fun h => by omega
    rw [if_neg hcond, hrun]
  · rw [← List.countP_eq_length_filter]
    exact hsucc
  · rw [← List.countP_eq_length_filter]
    have hsame : List.countP (fun r : assignSingleResult => !r.succeeded && r.noSlots) res' =
        List.countP (fun r : assignSingleResult => decide ¬(r.succeeded = true)) res' := by
      apply List.countP_congr
      intro r hr
      obtain ⟨i, hi⟩ := List.mem_iff_getElem?.mp hr
      rcases (hind i r hi).2.2 with ⟨h1, h2⟩ | ⟨h1, h2, _⟩
      · simp [h1, h2]
      · simp [h1, h2]
    have := List.length_eq_countP_add_countP (fun r : assignSingleResult => r.succeeded) res'
    rw [hsame]
    omega
  · intro i j ri rj hij hi hj hsi hsj
    have hi' : i < qis.length := by
      rw [← hres'len]; exact (List.getElem?_eq_some_iff.mp hi).1
    have hj' : j < qis.length := by
      rw [← hres'len]; exact (List.getElem?_eq_some_iff.mp hj).1
    obtain ⟨ti, hti, htii⟩ := hcover i hi'
    obtain ⟨tj, htj, htjj⟩ := hcover j hj'
    exact he ti hti tj htj (by rw [htii, htjj]; exact hij) ri rj (by rw [htii]; exact hi)
      (by rw [htjj]; exact hj) hsi hsj

/-- Witness for C3: the basic scenario (three active slots) with four plain
items run in a permuted order: three items succeed. -/
theorem tryAssignBatch_plain_counts_witness :
    (mapGet schedBasic.actions "A" = some actionBasic ∧ actionBasic.slots ≠ [] ∧
      (activeSlots 101 schedBasic.heap actionBasic.slots).length = 3) ∧
    ∃ res off' s',
      schedBasic.tryAssignBatch rlAdmitAll [1, 2, 0] 101 "A" fourItems 0 [] []
        = some (res, off', s') ∧
      (res.filter (fun r => r.succeeded)).length = 3 :=
  ⟨by decide,
   match tryAssignBatch_plain_counts schedBasic rlAdmitAll [1, 2, 0] 101 "A" actionBasic fourItems 0
      [] [] (by decide) (by decide) (by decide) with
   | ⟨res, off', s', h, _, hc, _⟩ => ⟨res, off', s', h, hc.trans (by decide)⟩⟩

/-! ## Keys of the maps built by replenish -/

theorem mapSet_keys {κ α : Type} [DecidableEq κ] (m : List (κ × α)) (k : κ) (v : α) :
    (mapSet m k v).map Prod.fst =
      if k ∈ m.map Prod.fst then m.map Prod.fst else m.map Prod.fst ++ [k] := by
  induction m with
  | nil => simp [mapSet]
  | cons e m ih =>
    obtain ⟨k', v'⟩ := e
    by_cases h : k' = k
    · subst h
      simp [mapSet]
    · have hne : ¬ k = k' := fun h' => h h'.symm
      simp only [mapSet, h, if_false, List.map_cons, ih, List.mem_cons, hne, false_or]
      split <;> simp

theorem mapSet_keys_nodup {κ α : Type} [DecidableEq κ] (m : List (κ × α)) (k : κ) (v : α)
    (h : (m.map Prod.fst).Nodup) : ((mapSet m k v).map Prod.fst).Nodup := by
  rw [mapSet_keys]
  split
  · exact h
  · rename_i hk
    exact List.nodup_append.mpr ⟨h, List.nodup_singleton _, by
      intro a ha hb
      simp only [List.mem_singleton] at hb
      exact hk (hb ▸ ha)⟩

theorem mapGet_eq_none_iff {κ α : Type} [DecidableEq κ] (m : List (κ × α)) (k : κ) :
    mapGet m k = none ↔ k ∉ m.map Prod.fst := by
  induction m with
  | nil => simp [mapGet]
  | cons e m ih =>
    obtain ⟨k', v'⟩ := e
    by_cases h : k' = k
    · simp [mapGet, h]
    · have hne : ¬ k = k' := fun h' => h h'.symm
      simp [mapGet, h, ih, hne]

theorem mem_of_mapGet {κ α : Type} [DecidableEq κ] (m : List (κ × α)) (k : κ) (v : α)
    (h : mapGet m k = some v) : (k, v) ∈ m := by
  induction m with
  | nil => simp [mapGet] at h
  | cons e m ih =>
    obtain ⟨k', v'⟩ := e
    by_cases hk : k' = k
    · simp only [mapGet, hk, if_true, Option.some.injEq] at h
      subst hk h
      exact List.mem_cons_self _ _
    · simp only [mapGet, hk, if_false] at h
      exact List.mem_cons_of_mem _ (ih h)

theorem mapGet_of_mem {κ α : Type} [DecidableEq κ] (m : List (κ × α)) (k : κ) (v : α)
    (hnd : (m.map Prod.fst).Nodup) (h : (k, v) ∈ m) : mapGet m k = some v := by
  induction m with
  | nil => cases h
  | cons e m ih =>
    obtain ⟨k', v'⟩ := e
    simp only [List.map_cons, List.nodup_cons] at hnd
    rcases List.mem_cons.mp h with h | h
    · cases h
      simp [mapGet]
    · have hk : k' ≠ k := by
        intro hk
        subst hk
        exact hnd.1 (List.mem_map.mpr ⟨(k', v), h, rfl⟩)
      simp only [mapGet, hk, if_false]
      exact ih hnd.2 h

theorem workerSlots_eq (now ttl : Int) (workers : List (String × worker))
    (w2a : List (String × List String)) (unacked : List (String × List Nat))
    (heap : List slot) (row : ListAvailableSlotsForWorkersRow) :
    workerSlots now ttl workers w2a unacked heap row =
      (heap ++ List.replicate
          (row.AvailableSlots - ((mapGetList unacked row.ID).length : Int)).toNat
          (newSlot now ttl row.ID (((mapGet workers row.ID).map (fun w => w.Labels)).getD [])
            (mapGetList w2a row.ID)),
       List.range' heap.length
          (row.AvailableSlots - ((mapGetList unacked row.ID).length : Int)).toNat
         ++ mapGetList unacked row.ID) := by
  unfold workerSlots
  simp only [createSlots_eq, List.nil_append]

theorem mem_unackedOf (s : Scheduler) (w : String) (p : Nat) (h : p ∈ unackedOf s w) :
    (∃ e ∈ s.unackedSlots, e.2 = p) ∧ getWorkerId s.heap p = some w := by
  unfold unackedOf at h
  obtain ⟨e, he, hp⟩ := List.mem_map.mp h
  have := List.mem_filter.mp he
  subst hp
  exact ⟨⟨e, this.1, rfl⟩, by simpa using this.2⟩

theorem countP_flatten_replicate {α : Type} (f : α → Bool) (l : List α) (k : Nat) :
    List.countP f (List.replicate k l).flatten = k * List.countP f l := by
  induction k with
  | zero => simp
  | succ k ih =>
    rw [List.replicate_succ, List.flatten_cons, List.countP_append, ih]
    ring

theorem mem_flatten_replicate {α : Type} (l : List α) (k : Nat) (a : α)
    (h : a ∈ (List.replicate k l).flatten) : a ∈ l := by
  obtain ⟨l', hl', ha⟩ := List.mem_flatten.mp h
  rw [(List.mem_replicate.mp hl').2] at ha
  exact ha

theorem replenishRows_newSlots_bound (s : Scheduler) (hused : unackedUsed s) (now ttl : Int)
    (workers : List (String × worker)) (w2a : List (String × List String)) (x : String) :
    ∀ (rows : List ListAvailableSlotsForWorkersRow) (st : replenishState) (c : Nat),
      s.heap.length ≤ st.heap.length →
      List.countP (fun p => decide (s.heap.length ≤ p)) (mapGetList st.actionsToNewSlots x) ≤ c →
      (∀ p ∈ mapGetList st.actionsToNewSlots x, p < s.heap.length →
        ∃ e ∈ s.unackedSlots, e.2 = p) →
      List.countP (fun p => decide (s.heap.length ≤ p))
          (mapGetList (rows.foldl (replenishWorker now ttl workers w2a
            (workersToUnackedSlots s.heap [] s.unackedSlots)) st).actionsToNewSlots x)
        ≤ c + (rows.map (fun r => listings w2a x r * freshFor s r)).sum ∧
      (∀ p ∈ mapGetList (rows.foldl (replenishWorker now ttl workers w2a
            (workersToUnackedSlots s.heap [] s.unackedSlots)) st).actionsToNewSlots x,
        p < s.heap.length → ∃ e ∈ s.unackedSlots, e.2 = p) := by
  intro rows
  induction rows with
  | nil => intro st c _ hc hreg; exact ⟨by simpa using hc, hreg⟩
  | cons row rows ih =>
    intro st c hlen hc hreg
    simp only [List.foldl_cons, List.map_cons, List.sum_cons]
    have hnew := replenishWorker_newSlots now ttl workers w2a
      (workersToUnackedSlots s.heap [] s.unackedSlots) st row x
    have hgroup := workerSlots_eq now ttl workers w2a
      (workersToUnackedSlots s.heap [] s.unackedSlots) st.heap row
    rw [workersToUnackedSlots_eq_unackedOf] at hgroup
    have hheap : st.heap.length ≤ (replenishWorker now ttl workers w2a
        (workersToUnackedSlots s.heap [] s.unackedSlots) st row).heap.length := by
      rw [replenishWorker_heap, extendAll_length, hgroup]
      simp
    have hlow : ∀ p ∈ unackedOf s row.ID, p < s.heap.length := by
      intro p hp
      obtain ⟨⟨e, he, hep⟩, _⟩ := mem_unackedOf s row.ID p hp
      obtain ⟨sl, hsl, _⟩ := hused e he
      rw [hep] at hsl
      exact (List.getElem?_eq_some_iff.mp hsl).1
    have hcountGroup : List.countP (fun p => decide (s.heap.length ≤ p))
        (workerSlots now ttl workers w2a (workersToUnackedSlots s.heap [] s.unackedSlots)
          st.heap row).2 ≤ freshFor s row := by
      rw [hgroup]
      simp only [List.countP_append]
      have h1 : List.countP (fun p => decide (s.heap.length ≤ p))
          (List.range' st.heap.length (row.AvailableSlots - ((unackedOf s row.ID).length : Int)).toNat)
          ≤ freshFor s row := by
        refine le_trans (List.countP_le_length _) ?_
        rw [List.length_range']
        exact le_refl _
      have h2 : List.countP (fun p => decide (s.heap.length ≤ p)) (unackedOf s row.ID) = 0 := by
        rw [List.countP_eq_zero]
        intro p hp
        have := hlow p hp
        simp only [decide_eq_true_eq]
        omega
      omega
    have hassoc : c + (listings w2a x row * freshFor s row +
        (rows.map (fun r => listings w2a x r * freshFor s r)).sum) =
        (c + listings w2a x row * freshFor s row) +
          (rows.map (fun r => listings w2a x r * freshFor s r)).sum := by ring
    rw [hassoc]
    refine ih _ _ (le_trans hlen hheap) ?_ ?_
    · rw [hnew, List.countP_append, countP_flatten_replicate]
      have : (mapGetList w2a row.ID).count x * List.countP (fun p => decide (s.heap.length ≤ p))
          (workerSlots now ttl workers w2a (workersToUnackedSlots s.heap [] s.unackedSlots)
            st.heap row).2 ≤ listings w2a x row * freshFor s row :=
        Nat.mul_le_mul_left _ hcountGroup
      omega
    · intro p hp hplt
      rw [hnew] at hp
      rcases List.mem_append.mp hp with hp | hp
      · exact hreg p hp hplt
      · have hpg := mem_flatten_replicate _ _ _ hp
        rw [hgroup] at hpg
        rcases List.mem_append.mp hpg with hpg | hpg
        · have := (List.mem_range'_1.mp hpg).1
          omega
        · exact (mem_unackedOf s row.ID p hpg).1

theorem foldActions_keys_nodup (slots : List Nat) (actions : List String) :
    ∀ st : replenishState, (st.actionsToNewSlots.map Prod.fst).Nodup →
      ((actions.foldl
        (fun st actionId =>
          { st with
            actionsToNewSlots :=
              mapSet st.actionsToNewSlots actionId
                (mapGetList st.actionsToNewSlots actionId ++ slots),
            actionsToTotalSlots :=
              mapSet st.actionsToTotalSlots actionId
                ((mapGet st.actionsToTotalSlots actionId).getD 0 + (slots.length : Int)) })
        st).actionsToNewSlots.map Prod.fst).Nodup := by
  induction actions with
  | nil => intro st h; exact h
  | cons a actions ih =>
    intro st h
    simp only [List.foldl_cons]
    exact ih _ (mapSet_keys_nodup _ _ _ h)

theorem replenishRows_keys_nodup (now ttl : Int) (workers : List (String × worker))
    (w2a : List (String × List String)) (unacked : List (String × List Nat))
    (rows : List ListAvailableSlotsForWorkersRow) :
    ∀ st : replenishState, (st.actionsToNewSlots.map Prod.fst).Nodup →
      ((rows.foldl (replenishWorker now ttl workers w2a unacked) st).actionsToNewSlots.map
        Prod.fst).Nodup := by
  induction rows with
  | nil => intro st h; exact h
  | cons row rows ih =>
    intro st h
    simp only [List.foldl_cons]
    apply ih
    unfold replenishWorker
    exact foldActions_keys_nodup _ _ _ h

theorem replenishRows_key_present (now ttl : Int) (workers : List (String × worker))
    (w2a : List (String × List String)) (unacked : List (String × List Nat)) (x : String)
    (rows : List ListAvailableSlotsForWorkersRow) :
    ∀ st : replenishState,
      (mapGet st.actionsToNewSlots x ≠ none ∨ ∃ r ∈ rows, x ∈ mapGetList w2a r.ID) →
      mapGet (rows.foldl (replenishWorker now ttl workers w2a unacked) st).actionsToNewSlots x
        ≠ none := by
  induction rows with
  | nil =>
    intro st h
    rcases h with h | ⟨r, hr, _⟩
    · exact h
    · cases hr
  | cons row rows ih =>
    intro st h
    simp only [List.foldl_cons]
    apply ih
    by_cases hx : x ∈ mapGetList w2a row.ID
    · left
      have hnew := replenishWorker_newSlots now ttl workers w2a unacked st row x
      intro hnone
      -- the key is written by the inner loop
      have hkey : ∀ (actions : List String) (st₀ : replenishState) (slots : List Nat),
          (mapGet st₀.actionsToNewSlots x ≠ none ∨ x ∈ actions) →
          mapGet (actions.foldl
            (fun st actionId =>
              { st with
                actionsToNewSlots :=
                  mapSet st.actionsToNewSlots actionId
                    (mapGetList st.actionsToNewSlots actionId ++ slots),
                actionsToTotalSlots :=
                  mapSet st.actionsToTotalSlots actionId
                    ((mapGet st.actionsToTotalSlots actionId).getD 0 + (slots.length : Int)) })
            st₀).actionsToNewSlots x ≠ none := by
        intro actions
        induction actions with
        | nil =>
          intro st₀ slots h
          rcases h with h | h
          · exact h
          · cases h
        | cons a actions iha =>
          intro st₀ slots h
          simp only [List.foldl_cons]
          apply iha
          by_cases hax : a = x
          · left
            subst hax
            simp [mapGet_mapSet_self]
          · rcases h with h | h
            · left
              simpa [mapGet_mapSet_of_ne _ _ _ _ hax] using h
            · right
              rcases List.mem_cons.mp h with h | h
              · exact absurd h.symm hax
              · exact h
      exact hkey _ _ _ (Or.inr hx) hnone
    · rcases h with h | ⟨r, hr, hrx⟩
      · left
        have hnew := replenishWorker_newSlots now ttl workers w2a unacked st row x
        intro hnone
        have hcount : (mapGetList w2a row.ID).count x = 0 := List.count_eq_zero.mpr hx
        rw [hcount] at hnew
        simp only [List.replicate_zero, List.flatten_nil, List.append_nil] at hnew
        -- the inner loop never removes a key
        have hkeep : ∀ (actions : List String) (st₀ : replenishState) (slots : List Nat),
            mapGet st₀.actionsToNewSlots x ≠ none →
            mapGet (actions.foldl
              (fun st actionId =>
                { st with
                  actionsToNewSlots :=
                    mapSet st.actionsToNewSlots actionId
                      (mapGetList st.actionsToNewSlots actionId ++ slots),
                  actionsToTotalSlots :=
                    mapSet st.actionsToTotalSlots actionId
                      ((mapGet st.actionsToTotalSlots actionId).getD 0 + (slots.length : Int)) })
              st₀).actionsToNewSlots x ≠ none := by
          intro actions
          induction actions with
          | nil => intro st₀ slots h; exact h
          | cons a actions iha =>
            intro st₀ slots h
            simp only [List.foldl_cons]
            apply iha
            by_cases hax : a = x
            · subst hax
              simp [mapGet_mapSet_self]
            · simpa [mapGet_mapSet_of_ne _ _ _ _ hax] using h
        exact (fun hh => hkeep _ _ _ hh hnone) h
      · right
        rcases List.mem_cons.mp hr with hr | hr
        · subst hr
          exact absurd hrx hx
        · exact ⟨r, hr, hrx⟩

/-! ## The action table written by replenish -/

theorem writeActions_get_of_none (shuffle : String → List Nat → List Nat)
    (a2w : List (String × List String)) (totals : List (String × Int)) (x : String) :
    ∀ (m : List (String × List Nat)) (acts : List (String × action)), mapGet m x = none →
      mapGet (writeActions shuffle a2w totals acts m) x = mapGet acts x := by
  intro m
  induction m with
  | nil => intro acts _; rfl
  | cons e m ih =>
    intro acts h
    obtain ⟨y, l⟩ := e
    have hyx : y ≠ x := by
      intro hyx
      simp [mapGet, hyx] at h
    have hm : mapGet m x = none := by simpa [mapGet, hyx] using h
    unfold writeActions
    split
    · rw [ih _ hm, mapGet_mapSet_of_ne _ _ _ _ hyx]
    · rw [ih _ hm, mapGet_mapSet_of_ne _ _ _ _ hyx]

theorem writeActions_get (shuffle : String → List Nat → List Nat)
    (a2w : List (String × List String)) (totals : List (String × Int)) (x : String) :
    ∀ (m : List (String × List Nat)) (acts : List (String × action)) (l : List Nat),
      (m.map Prod.fst).Nodup → mapGet m x = some l →
      ∃ a, mapGet (writeActions shuffle a2w totals acts m) x = some a ∧ a.slots = shuffle x l := by
  intro m
  induction m with
  | nil => intro acts l _ h; simp [mapGet] at h
  | cons e m ih =>
    intro acts l hnd h
    obtain ⟨y, l'⟩ := e
    simp only [List.map_cons, List.nodup_cons] at hnd
    by_cases hyx : y = x
    · subst hyx
      have hl : l' = l := by simpa [mapGet] using h
      subst hl
      have hrest : mapGet m y = none := (mapGet_eq_none_iff _ _).mpr hnd.1
      unfold writeActions
      split
      · exact ⟨_, by rw [writeActions_get_of_none _ _ _ _ _ _ hrest, mapGet_mapSet_self], rfl⟩
      · exact ⟨_, by rw [writeActions_get_of_none _ _ _ _ _ _ hrest, mapGet_mapSet_self], rfl⟩
    · have hm : mapGet m x = some l := by simpa [mapGet, hyx] using h
      unfold writeActions
      split
      · exact ih _ l hnd.2 hm
      · exact ih _ l hnd.2 hm

theorem writeActions_keys_nodup (shuffle : String → List Nat → List Nat)
    (a2w : List (String × List String)) (totals : List (String × Int)) :
    ∀ (m : List (String × List Nat)) (acts : List (String × action)),
      (acts.map Prod.fst).Nodup →
      ((writeActions shuffle a2w totals acts m).map Prod.fst).Nodup := by
  intro m
  induction m with
  | nil => intro acts h; exact h
  | cons e m ih =>
    intro acts h
    obtain ⟨y, l⟩ := e
    unfold writeActions
    split
    · exact ih _ (mapSet_keys_nodup _ _ _ h)
    · exact ih _ (mapSet_keys_nodup _ _ _ h)

theorem sweepExpired_keys (now : Int) (heap : List slot) (actions : List (String × action)) :
    (sweepExpired now heap actions).map Prod.fst = actions.map Prod.fst := by
  unfold sweepExpired
  rw [List.map_map]
  rfl

theorem removeEmpty_keys_nodup (actions : List (String × action))
    (h : (actions.map Prod.fst).Nodup) : ((removeEmpty actions).map Prod.fst).Nodup := by
  unfold removeEmpty
  exact List.Nodup.sublist ((List.filter_sublist _).map _) h

theorem swept_get (now : Int) (heap : List slot) (actions : List (String × action))
    (hnd : (actions.map Prod.fst).Nodup) (x : String) (act : action)
    (h : mapGet (removeEmpty (sweepExpired now heap actions)) x = some act) :
    ∃ a, mapGet actions x = some a ∧
      act.slots = a.slots.filter (fun p => !slotExpired now heap p) := by
  have hmem := mem_of_mapGet _ _ _ h
  unfold removeEmpty at hmem
  have hmem' := (List.mem_filter.mp hmem).1
  unfold sweepExpired at hmem'
  obtain ⟨e, he, heq⟩ := List.mem_map.mp hmem'
  obtain ⟨k, a⟩ := e
  simp only [Prod.mk.injEq] at heq
  obtain ⟨hk, ha⟩ := heq
  subst hk
  exact ⟨a, mapGet_of_mem _ _ _ hnd he, by rw [← ha]⟩

theorem replenish_actions_keys_nodup (s : Scheduler) (repo : schedulerRepo)
    (shuffle : String → List Nat → List Nat) (now ttl : Int) (mustReplenish : Bool)
    (h : (s.actions.map Prod.fst).Nodup) :
    ((s.replenish repo shuffle now ttl mustReplenish).2.actions.map Prod.fst).Nodup := by
  unfold Scheduler.replenish
  simp only
  split
  · exact h
  · split
    · exact h
    · apply removeEmpty_keys_nodup
      rw [sweepExpired_keys]
      exact writeActions_keys_nodup _ _ _ _ _ h

theorem reachable_actions_keys_nodup (s : Scheduler) (hs : Reachable s) :
    (s.actions.map Prod.fst).Nodup := by
  induction hs with
  | init => exact List.nodup_nil
  | setWorkers s workers _ ih => exact ih
  | ack s ids _ ih => rw [ack_actions]; exact ih
  | nack s ids _ ih => rw [nack_actions]; exact ih
  | replenish s repo shuffle now ttl must _ _ ih =>
    exact replenish_actions_keys_nodup s repo shuffle now ttl must ih
  | tryAssign s s' rl picks now qis l r out _ h ih =>
    rw [tryAssign_actions s s' rl picks now qis l r out h]; exact ih

theorem reachable_unackedUsed (s : Scheduler) (hs : Reachable s) : unackedUsed s := by
  induction hs with
  | init => intro e he; cases he
  | setWorkers s workers _ ih => exact ih
  | ack s ids _ ih => exact unackedUsed_ack s ids ih
  | nack s ids _ ih => exact unackedUsed_nack s ids ih
  | replenish s repo shuffle now ttl must _ _ ih =>
    exact unackedUsed_replenish s repo shuffle now ttl must ih
  | tryAssign s s' rl picks now qis l r out _ h ih =>
    exact tryAssign_induction unackedUsed (fun _ _ ht => ht)
      (fun t t' _ _ _ _ _ _ _ _ _ ht _ hsing =>
        unackedUsed_tryAssignSingleton t t' _ _ _ _ _ _ _ _ ht hsing)
      s s' rl picks now qis l r out ih h

theorem replenish_ok_eq (s : Scheduler) (repo : schedulerRepo)
    (shuffle : String → List Nat → List Nat) (now ttl : Int) (mustReplenish : Bool)
    (rowsA : List ListActionsForWorkersRow) (rows : List ListAvailableSlotsForWorkersRow)
    (h1 : repo.ListActionsForWorkers (s.workers.map (fun e => e.1)) = Except.ok rowsA)
    (h2 : repo.ListAvailableSlotsForWorkers
      (uniqueWorkerIds (buildActionMaps [] [] rowsA).1
        (actionsToReplenish now s mustReplenish (buildActionMaps [] [] rowsA).1)) = Except.ok rows) :
    s.replenish repo shuffle now ttl mustReplenish =
      (none,
       { s with
         heap := (rows.foldl (replenishWorker now ttl s.workers (buildActionMaps [] [] rowsA).2
             (workersToUnackedSlots s.heap [] s.unackedSlots))
             { heap := s.heap, actionsToNewSlots := [], actionsToTotalSlots := [] }).heap,
         actions := removeEmpty (sweepExpired now
           (rows.foldl (replenishWorker now ttl s.workers (buildActionMaps [] [] rowsA).2
             (workersToUnackedSlots s.heap [] s.unackedSlots))
             { heap := s.heap, actionsToNewSlots := [], actionsToTotalSlots := [] }).heap
           (writeActions shuffle (buildActionMaps [] [] rowsA).1
             (rows.foldl (replenishWorker now ttl s.workers (buildActionMaps [] [] rowsA).2
               (workersToUnackedSlots s.heap [] s.unackedSlots))
               { heap := s.heap, actionsToNewSlots := [], actionsToTotalSlots := [] }).actionsToTotalSlots
             s.actions
             (rows.foldl (replenishWorker now ttl s.workers (buildActionMaps [] [] rowsA).2
               (workersToUnackedSlots s.heap [] s.unackedSlots))
               { heap := s.heap, actionsToNewSlots := [], actionsToTotalSlots := [] }).actionsToNewSlots)) }) := by
  unfold Scheduler.replenish
  simp only [h1, h2]

theorem sum_fresh_add_unacked (s : Scheduler) (w2a : List (String × List String)) (x : String) :
    ∀ rows : List ListAvailableSlotsForWorkersRow,
      (∀ r ∈ rows, ((unackedOf s r.ID).length : Int) ≤ r.AvailableSlots) →
      (((rows.map (fun r => listings w2a x r * freshFor s r)).sum : Nat) : Int) +
          (rows.map (fun r => (listings w2a x r : Int) * ((unackedOf s r.ID).length : Int))).sum
        = (rows.map (fun r => (listings w2a x r : Int) * r.AvailableSlots)).sum := by
  intro rows
  induction rows with
  | nil => intro _; simp
  | cons r rows ih =>
    intro h
    have hr := h r (List.mem_cons_self _ _)
    have ih' := ih (fun r' hr' => h r' (List.mem_cons_of_mem _ hr'))
    have hf : (freshFor s r : Int) = r.AvailableSlots - ((unackedOf s r.ID).length : Int) := by
      unfold freshFor
      exact Int.toNat_of_nonneg (by omega)
    simp only [List.map_cons, List.sum_cons]
    rw [Nat.cast_add, Nat.cast_mul, hf]
    linear_combination ih'

/-- C8 (amended): after a successful replenish of a reachable scheduler, for
each action of the action table that this replenish wrote (an action listed
for the worker of some returned available-slots row), the number of active
slots in the slot list of the action does not exceed the sum, over the
returned rows, of `max(0, availableSlots - unacked)` (a row counted once for
each listing of the action for its worker); hence, when no returned row has
fewer available slots than its worker has unacked slots, the active slots plus
the unacked slots of the workers of those rows do not exceed the sum of the
`availableSlots` values of those rows. -/
theorem replenish_active_within_fresh (s : Scheduler) (hs : Reachable s) (repo : schedulerRepo)
    (shuffle : String → List Nat → List Nat) (hperm : ∀ a l, (shuffle a l).Perm l)
    (now ttl : Int) (mustReplenish : Bool)
    (rowsA : List ListActionsForWorkersRow) (rows : List ListAvailableSlotsForWorkersRow)
    (h1 : repo.ListActionsForWorkers (s.workers.map (fun e => e.1)) = Except.ok rowsA)
    (h2 : repo.ListAvailableSlotsForWorkers
      (uniqueWorkerIds (buildActionMaps [] [] rowsA).1
        (actionsToReplenish now s mustReplenish (buildActionMaps [] [] rowsA).1)) = Except.ok rows) :
    (s.replenish repo shuffle now ttl mustReplenish).1 = none ∧
    (∀ r : ListAvailableSlotsForWorkersRow,
      (freshFor s r : Int) = max 0 (r.AvailableSlots - ((unackedOf s r.ID).length : Int))) ∧
    ∀ (actionId : String) (act : action),
      mapGet (s.replenish repo shuffle now ttl mustReplenish).2.actions actionId = some act →
      (∃ r ∈ rows, actionId ∈ mapGetList (buildActionMaps [] [] rowsA).2 r.ID) →
      act.activeCount now (s.replenish repo shuffle now ttl mustReplenish).2.heap ≤
        (((rows.map (fun r =>
          listings (buildActionMaps [] [] rowsA).2 actionId r * freshFor s r)).sum : Nat) : Int) ∧
      ((∀ r ∈ rows, ((unackedOf s r.ID).length : Int) ≤ r.AvailableSlots) →
        act.activeCount now (s.replenish repo shuffle now ttl mustReplenish).2.heap +
            (rows.map (fun r => (listings (buildActionMaps [] [] rowsA).2 actionId r : Int) *
              ((unackedOf s r.ID).length : Int))).sum
          ≤ (rows.map (fun r => (listings (buildActionMaps [] [] rowsA).2 actionId r : Int) *
              r.AvailableSlots)).sum) := by
  rw [replenish_ok_eq s repo shuffle now ttl mustReplenish rowsA rows h1 h2]
  refine ⟨rfl, ?_, ?_⟩
  · intro r
    unfold freshFor
    omega
  intro actionId act hget hrow
  simp only at hget ⊢
  generalize hst : (rows.foldl (replenishWorker now ttl s.workers (buildActionMaps [] [] rowsA).2
      (workersToUnackedSlots s.heap [] s.unackedSlots))
      { heap := s.heap, actionsToNewSlots := [], actionsToTotalSlots := [] }) = st at hget ⊢
  have hused := reachable_unackedUsed s hs
  have hkeys := reachable_actions_keys_nodup s hs
  -- the entry read from the swept table comes from the entry written for the action
  obtain ⟨a, ha, hslots⟩ := swept_get now st.heap _
    (writeActions_keys_nodup shuffle (buildActionMaps [] [] rowsA).1 st.actionsToTotalSlots
      st.actionsToNewSlots s.actions hkeys) actionId act hget
  have hpresent : mapGet st.actionsToNewSlots actionId ≠ none := by
    rw [← hst]
    exact replenishRows_key_present now ttl s.workers _ _ actionId rows _ (Or.inr hrow)
  obtain ⟨L, hL⟩ := Option.ne_none_iff_exists'.mp hpresent
  have hnd : (st.actionsToNewSlots.map Prod.fst).Nodup := by
    rw [← hst]
    exact replenishRows_keys_nodup now ttl s.workers _ _ rows _ List.nodup_nil
  obtain ⟨a', ha', hslots'⟩ := writeActions_get shuffle (buildActionMaps [] [] rowsA).1
    st.actionsToTotalSlots actionId st.actionsToNewSlots s.actions L hnd hL
  rw [ha] at ha'
  cases ha'
  have hLlist : mapGetList st.actionsToNewSlots actionId = L := by simp [mapGetList, hL]
  obtain ⟨hbound, hreg⟩ := replenishRows_newSlots_bound s hused now ttl s.workers
    (buildActionMaps [] [] rowsA).2 actionId rows
    { heap := s.heap, actionsToNewSlots := [], actionsToTotalSlots := [] } 0 (le_refl _)
    (by simp [mapGetList, mapGet]) (by simp [mapGetList, mapGet])
  rw [hst, hLlist] at hbound hreg
  have hext : heapExt s.heap st.heap := by
    rw [← hst]
    exact replenishRows_heapExt now ttl s.workers _ _ rows
      { heap := s.heap, actionsToNewSlots := [], actionsToTotalSlots := [] }
  -- only fresh slots can be active
  have hfresh : ∀ p ∈ L, slotActive now st.heap p = true →
      decide (s.heap.length ≤ p) = true := by
    intro p hp hact
    by_contra hlt
    simp only [decide_eq_true_eq, not_le] at hlt
    obtain ⟨e, he, hep⟩ := hreg p hp hlt
    obtain ⟨sl, hsl, hu⟩ := hused e he
    rw [hep] at hsl
    obtain ⟨sl', hsl', hu', _⟩ := hext p sl hsl
    simp [slotActive, hsl', slot.active, hu', hu] at hact
  have hcount : List.countP (fun p => slotActive now st.heap p) act.slots ≤
      (rows.map (fun r =>
        listings (buildActionMaps [] [] rowsA).2 actionId r * freshFor s r)).sum := by
    rw [hslots, hslots']
    calc List.countP (fun p => slotActive now st.heap p)
          ((shuffle actionId L).filter (fun p => !slotExpired now st.heap p))
        ≤ List.countP (fun p => slotActive now st.heap p) (shuffle actionId L) :=
          List.Sublist.countP_le _ (List.filter_sublist _)
      _ = List.countP (fun p => slotActive now st.heap p) L := (hperm actionId L).countP_eq _
      _ ≤ List.countP (fun p => decide (s.heap.length ≤ p)) L :=
          List.countP_mono_left hfresh
      _ ≤ _ := by simpa using hbound
  have hactive : act.activeCount now st.heap ≤
      (((rows.map (fun r =>
        listings (buildActionMaps [] [] rowsA).2 actionId r * freshFor s r)).sum : Nat) : Int) := by
    unfold action.activeCount
    rw [← List.countP_eq_length_filter]
    exact_mod_cast hcount
  refine ⟨hactive, ?_⟩
  intro hle
  have := sum_fresh_add_unacked s (buildActionMaps [] [] rowsA).2 actionId rows hle
  linarith

theorem schedBasicAssigned_reachable : Reachable schedBasicAssigned :=
  have hr : Reachable schedBasic :=
    Reachable.replenish _ repoBasic (fun _ l => l) 100 15 true (fun _ l => List.Perm.refl l)
      (Reachable.setWorkers _ _ Reachable.init)
  have hrun : schedBasic.tryAssign rlAdmitAll (fun _ _ => []) 101 [plainItem 1 "a"] [] []
      = some (basicOut, schedBasicAssigned) := by decide
  Reachable.tryAssign schedBasic schedBasicAssigned rlAdmitAll (fun _ _ => []) 101
    [plainItem 1 "a"] [] [] basicOut hr hrun

/-- C8 as stated fails: in the basic scenario with one unacked slot of W1, a
replenish for which the repository reports 0 available slots for W1 and W2
returns nil and leaves action A with the unacked slot of W1 in its list, so
active (0) plus unacked (1) exceeds the sum of the available slots (0). -/
theorem replenish_exceeds_capacity_when_drained :
    Reachable schedBasicAssigned ∧
    (schedBasicAssigned.replenish repoDrained (fun _ l => l) 102 15 true).1 = none ∧
    (schedBasicAssigned.replenish repoDrained (fun _ l => l) 102 15 true).2.actions.map
        (fun e => (e.1, e.2.slots)) = [("A", [0])] ∧
    ¬ withinCapacity 102 (schedBasicAssigned.replenish repoDrained (fun _ l => l) 102 15 true).2
        (buildActionMaps [] [] basicActionRows).1 drainedRows :=
  ⟨schedBasicAssigned_reachable, by decide, by decide, by unfold withinCapacity; decide⟩

/-- Witness for C8 (amended): the second replenish of the basic scenario, with
one unacked slot of W1, leaves action A with 2 active slots, the sum of
`max(0, availableSlots - unacked)` over the two rows. -/
theorem replenish_active_within_fresh_witness :
    (Reachable schedBasicAssigned ∧
      mapGet schedBasicReplenished.actions "A" = some actionAfter ∧
      actionAfter.activeCount 102 schedBasicReplenished.heap = 2) ∧
    actionAfter.activeCount 102 schedBasicReplenished.heap ≤
      (((basicRows.map (fun r =>
        listings (buildActionMaps [] [] basicActionRows).2 "A" r
          * freshFor schedBasicAssigned r)).sum : Nat) : Int) :=
  ⟨⟨schedBasicAssigned_reachable, by decide, by decide⟩,
   ((replenish_active_within_fresh schedBasicAssigned schedBasicAssigned_reachable repoBasic
      (fun _ l => l) (fun _ l => List.Perm.refl l) 102 15 true basicActionRows basicRows rfl
      (congrArg Except.ok
        (by decide : (uniqueWorkerIds (buildActionMaps [] [] basicActionRows).1
          (actionsToReplenish 102 schedBasicAssigned true
            (buildActionMaps [] [] basicActionRows).1)).map
            (fun w => ({ ID := w, AvailableSlots := if w = "W1" then 2 else 1 } :
              ListAvailableSlotsForWorkersRow)) = basicRows))).2.2
      "A" actionAfter (by decide) (by decide)).1⟩

/-! ## Every queue item is reported once when `tryAssign` returns -/

theorem collectResults_items :
    ∀ (qis : List QueueItem) (results : List assignSingleResult),
      List.Forall₂ resultFor qis results →
      ∀ (ba : List AssignedQueueItem) (un : List (Option QueueItem))
        (rl : List scheduleRateLimitResult),
        ((collectResults ba un rl results).1.map (fun a => a.QueueItem) ++
            (collectResults ba un rl results).2.2.map (fun r => some r.qi) ++
            (collectResults ba un rl results).2.1).Perm
          (ba.map (fun a => a.QueueItem) ++ rl.map (fun r => some r.qi) ++ un ++ qis.map some) := by
  intro qis results h
  induction h with
  | nil =>
    intro ba un rl
    simp [collectResults]
  | @cons qi r qis results hr _ ih =>
    intro ba un rl
    rcases hr with ⟨x, hx, hxq, hs⟩ | ⟨hnone, hq, hcase⟩
    · have hstep : collectResults ba un rl (r :: results) =
          collectResults ba un (rl ++ [x]) results := by
        simp [collectResults, hs, hx]
      rw [hstep]
      refine (ih ba un (rl ++ [x])).trans ?_
      rw [← Multiset.coe_eq_coe]
      simp only [List.map_append, List.map_cons, List.map_nil, hxq, ← Multiset.coe_add,
        ← List.singleton_append (l := qis.map some)]
      abel
    · cases hs : r.succeeded with
      | true =>
        have hstep : collectResults ba un rl (r :: results) =
            collectResults (ba ++ [{ WorkerId := r.workerId, QueueItem := r.qi, AckId := r.ackId }])
              un rl results := by
          simp [collectResults, hs]
        rw [hstep]
        refine (ih _ un rl).trans ?_
        rw [← Multiset.coe_eq_coe]
        simp only [List.map_append, List.map_cons, List.map_nil, hq, ← Multiset.coe_add,
          ← List.singleton_append (l := qis.map some)]
        abel
      | false =>
        have hn : r.noSlots = true := by
          rcases hcase with h | h
          · rw [hs] at h; cases h
          · exact h
        have hstep : collectResults ba un rl (r :: results) =
            collectResults ba (un ++ [r.qi]) rl results := by
          simp [collectResults, hs, hnone, hn]
        rw [hstep]
        refine (ih ba _ rl).trans ?_
        rw [← Multiset.coe_eq_coe]
        simp only [List.map_append, List.map_cons, List.map_nil, hq, ← Multiset.coe_add,
          ← List.singleton_append (l := qis.map some)]
        abel

theorem BatchLinear_flatten {α : Type} (batchSize : Nat) (hpos : 0 < batchSize) :
    ∀ (fuel : Nat) (xs : List α), xs.length ≤ fuel →
      (BatchLinear batchSize fuel xs).flatten = xs := by
  intro fuel
  induction fuel with
  | zero =>
    intro xs h
    have : xs = [] := List.length_eq_zero.mp (Nat.le_zero.mp h)
    subst this
    rfl
  | succ fuel ih =>
    intro xs h
    cases xs with
    | nil => rfl
    | cons x xs =>
      simp only [BatchLinear, List.flatten_cons]
      rw [ih _ (by
        rw [List.length_drop]
        simp only [List.length_cons] at h ⊢
        omega)]
      exact List.take_append_drop _ _

theorem mapSet_append_flatMap (x : QueueItem) (k : String) :
    ∀ m : List (String × List QueueItem),
      ((mapSet m k (mapGetList m k ++ [x])).flatMap (fun e => e.2)).Perm
        (m.flatMap (fun e => e.2) ++ [x]) := by
  intro m
  induction m with
  | nil => simp [mapSet, mapGetList, mapGet]
  | cons e m ih =>
    obtain ⟨k', v⟩ := e
    by_cases h : k' = k
    · subst h
      simp only [mapSet, mapGetList, mapGet, if_true, Option.getD_some, List.flatMap_cons]
      rw [← Multiset.coe_eq_coe]
      simp only [← Multiset.coe_add]
      abel
    · have hg : mapGetList ((k', v) :: m) k = mapGetList m k := by
        simp [mapGetList, mapGet, h]
      rw [hg]
      simp only [mapSet, h, if_false, List.flatMap_cons, List.append_assoc]
      exact List.Perm.append_left _ ih

theorem groupByAction_flatMap :
    ∀ (qis : List QueueItem) (m : List (String × List QueueItem)),
      ((groupByAction m qis).flatMap (fun e => e.2)).Perm (m.flatMap (fun e => e.2) ++ qis) := by
  intro qis
  induction qis with
  | nil => intro m; simp [groupByAction]
  | cons qi qis ih =>
    intro m
    unfold groupByAction
    refine (ih _).trans ?_
    refine ((mapSet_append_flatMap qi qi.ActionId m).append_right qis).trans ?_
    simp

theorem forall₂_of_getElem? {α β : Type} (R : α → β → Prop) :
    ∀ (l₁ : List α) (l₂ : List β), l₁.length = l₂.length →
      (∀ (i : Nat) (a : α) (b : β), l₁[i]? = some a → l₂[i]? = some b → R a b) →
      List.Forall₂ R l₁ l₂ := by
  intro l₁
  induction l₁ with
  | nil =>
    intro l₂ hlen _
    have : l₂ = [] := List.length_eq_zero.mp hlen.symm
    subst this
    exact List.Forall₂.nil
  | cons a l₁ ih =>
    intro l₂ hlen h
    cases l₂ with
    | nil => simp at hlen
    | cons b l₂ =>
      refine List.Forall₂.cons (h 0 a b (by simp) (by simp)) (ih l₂ (by simpa using hlen) ?_)
      intro i a' b' ha hb
      exact h (i + 1) a' b' (by simpa using ha) (by simpa using hb)

theorem forall₂_getElem? {α β : Type} (R : α → β → Prop) :
    ∀ (l₁ : List α) (l₂ : List β), List.Forall₂ R l₁ l₂ →
      ∀ (i : Nat) (a : α) (b : β), l₁[i]? = some a → l₂[i]? = some b → R a b := by
  intro l₁ l₂ h
  induction h with
  | nil => intro i a b ha _; simp at ha
  | @cons x y xs ys hxy _ ih =>
    intro i a b ha hb
    cases i with
    | zero =>
      simp only [List.getElem?_cons_zero, Option.some.injEq] at ha hb
      subst ha hb
      exact hxy
    | succ i => exact ih i a b (by simpa using ha) (by simpa using hb)

theorem checkRateLimits_init (rl : rateLimiter) (m : List (String × List (String × Int))) :
    ∀ (qis : List QueueItem) (trace : List event),
      List.Forall₂ (fun qi c => initFor qi c.1) qis (checkRateLimits rl m trace qis).1 := by
  intro qis
  induction qis with
  | nil => intro trace; exact List.Forall₂.nil
  | cons qi qis ih =>
    intro trace
    unfold checkRateLimits
    simp only
    split
    · split
      · exact List.Forall₂.cons ⟨rfl, rfl, rfl, Or.inr ⟨_, rfl, rfl⟩⟩ (ih _)
      · exact List.Forall₂.cons ⟨rfl, rfl, rfl, Or.inl rfl⟩ (ih _)
    · exact List.Forall₂.cons ⟨rfl, rfl, rfl, Or.inl rfl⟩ (ih _)

theorem spawnTasks_spec (len : Nat) :
    ∀ (qis : List QueueItem) (cs : List (assignSingleResult × Option closure × Option closure)),
      qis.length = cs.length →
      ∀ (i0 off : Nat),
        (∀ t ∈ (spawnTasks len i0 off qis cs).1,
          i0 ≤ t.i ∧ qis[t.i - i0]? = some t.qi ∧
            ∃ c, cs[t.i - i0]? = some c ∧ c.1.rateLimitResult = none) ∧
        ((spawnTasks len i0 off qis cs).1.map (fun t => t.i)).Nodup ∧
        (∀ (k : Nat) (c : assignSingleResult × Option closure × Option closure),
          cs[k]? = some c → c.1.rateLimitResult = none →
          (i0 + k) ∈ (spawnTasks len i0 off qis cs).1.map (fun t => t.i)) := by
  intro qis
  induction qis with
  | nil =>
    intro cs hlen i0 off
    have : cs = [] := List.length_eq_zero.mp hlen.symm
    subst this
    simp [spawnTasks]
  | cons qi qis ih =>
    intro cs hlen i0 off
    cases cs with
    | nil => simp at hlen
    | cons c cs =>
      have hlen' : qis.length = cs.length := by simpa using hlen
      have hshift : ∀ j, i0 + 1 ≤ j → j - i0 = (j - (i0 + 1)) + 1 := fun j hj => by omega
      cases hc : c.1.rateLimitResult with
      | some x =>
        have hstep : spawnTasks len i0 off (qi :: qis) (c :: cs) =
            spawnTasks len (i0 + 1) off qis cs := by
          simp [spawnTasks, hc]
        rw [hstep]
        obtain ⟨h1, h2, h3⟩ := ih cs hlen' (i0 + 1) off
        refine ⟨?_, h2, ?_⟩
        · intro t ht
          obtain ⟨hle, hq, c', hc', hn⟩ := h1 t ht
          refine ⟨by omega, ?_, c', ?_, hn⟩
          · rw [hshift _ hle, List.getElem?_cons_succ]; exact hq
          · rw [hshift _ hle, List.getElem?_cons_succ]; exact hc'
        · intro k c' hk hn
          cases k with
          | zero =>
            simp only [List.getElem?_cons_zero, Option.some.injEq] at hk
            subst hk
            rw [hc] at hn
            cases hn
          | succ k =>
            have := h3 k c' (by simpa using hk) hn
            have heq : i0 + (k + 1) = i0 + 1 + k := by omega
            rw [heq]
            exact this
      | none =>
        have hstep : spawnTasks len i0 off (qi :: qis) (c :: cs) =
            ({ i := i0, qi := qi, childRingOffset := off % len, rlAck := c.2.1, rlNack := c.2.2 }
                :: (spawnTasks len (i0 + 1) (off + 1) qis cs).1,
              (spawnTasks len (i0 + 1) (off + 1) qis cs).2) := by
          simp [spawnTasks, hc]
        rw [hstep]
        obtain ⟨h1, h2, h3⟩ := ih cs hlen' (i0 + 1) (off + 1)
        refine ⟨?_, ?_, ?_⟩
        · intro t ht
          rcases List.mem_cons.mp ht with h | h
          · subst h
            exact ⟨le_refl _, by simp, c, by simp, hc⟩
          · obtain ⟨hle, hq, c', hc', hn⟩ := h1 t h
            refine ⟨by omega, ?_, c', ?_, hn⟩
            · rw [hshift _ hle, List.getElem?_cons_succ]; exact hq
            · rw [hshift _ hle, List.getElem?_cons_succ]; exact hc'
        · simp only [List.map_cons, List.nodup_cons]
          refine ⟨?_, h2⟩
          intro hmem
          obtain ⟨t, ht, hti⟩ := List.mem_map.mp hmem
          have := (h1 t ht).1
          omega
        · intro k c' hk hn
          cases k with
          | zero => simp
          | succ k =>
            have := h3 k c' (by simpa using hk) hn
            have heq : i0 + (k + 1) = i0 + 1 + k := by omega
            rw [heq]
            exact List.mem_cons_of_mem _ this

theorem runTasks_results (now : Int) (cand : List Nat)
    (stepIdsToLabels : List (String × List GetDesiredLabelsRow)) :
    ∀ (ts : List assignTask) (s s' : Scheduler) (res res' : List assignSingleResult),
      (ts.map (fun t => t.i)).Nodup → (∀ t ∈ ts, t.i < res.length) →
      runTasks now cand stepIdsToLabels s res ts = some (res', s') →
      res'.length = res.length ∧
      (∀ j, j ∉ ts.map (fun t => t.i) → res'[j]? = res[j]?) ∧
      (∀ t ∈ ts, ∃ r, res'[t.i]? = some r ∧ r.rateLimitResult = none ∧ r.qi = some t.qi ∧
        (r.succeeded = true ∨ r.noSlots = true)) := by
  intro ts
  induction ts with
  | nil =>
    intro s s' res res' _ _ h
    simp only [runTasks, Option.some.injEq, Prod.mk.injEq] at h
    rw [← h.1]
    exact ⟨rfl, fun _ _ => rfl, fun t ht => absurd ht (List.not_mem_nil t)⟩
  | cons t ts ih =>
    intro s s' res res' hnodup hlt h
    simp only [List.map_cons, List.nodup_cons] at hnodup
    obtain ⟨hti, hnodup'⟩ := hnodup
    have hlt0 := hlt t (List.mem_cons_self _ _)
    unfold runTasks at h
    split at h
    · cases h
    · rename_i singleRes s1 hsing
      obtain ⟨hlen, hframe, hd⟩ := ih s1 s' _ res' hnodup'
        (fun t' ht' => by
          rw [List.length_set]
          exact hlt t' (List.mem_cons_of_mem _ ht')) h
      have hhead : res'[t.i]? = some { singleRes with qi := some t.qi } := by
        rw [hframe t.i hti]
        simp [List.getElem?_set, hlt0]
      refine ⟨by rw [hlen, List.length_set], ?_, ?_⟩
      · intro j hj
        simp only [List.map_cons, List.mem_cons, not_or] at hj
        rw [hframe j hj.2, List.getElem?_set_ne (Ne.symm hj.1)]
      · intro t' ht'
        rcases List.mem_cons.mp ht' with e | m
        · subst e
          refine ⟨_, hhead, ?_, rfl, ?_⟩
          · rcases tryAssignSingleton_cases _ _ _ _ _ _ _ _ _ _ hsing with ⟨hr, _, _⟩ |
              ⟨_, _, _, _, _, hr, _⟩ <;> rw [hr] <;> rfl
          · rcases tryAssignSingleton_cases _ _ _ _ _ _ _ _ _ _ hsing with ⟨hr, _, _⟩ |
              ⟨_, _, _, _, _, hr, _⟩
            · right; rw [hr]
            · left; rw [hr]
        · exact hd t' m

theorem tryAssignBatch_results (s s' : Scheduler) (rl : rateLimiter) (picks : List Nat) (now : Int)
    (actionId : String) (qis : List QueueItem) (ringOffset : Nat)
    (stepIdsToLabels : List (String × List GetDesiredLabelsRow))
    (stepRunIdsToRateLimits : List (String × List (String × Int)))
    (res : List assignSingleResult) (off' : Nat)
    (h : s.tryAssignBatch rl picks now actionId qis ringOffset stepIdsToLabels
      stepRunIdsToRateLimits = some (res, off', s')) :
    List.Forall₂ resultFor qis res := by
  have hinit := checkRateLimits_init rl stepRunIdsToRateLimits qis s.trace
  unfold Scheduler.tryAssignBatch at h
  simp only at h
  generalize checkRateLimits rl stepRunIdsToRateLimits s.trace qis = checked at h hinit
  split at h
  · simp only [Option.some.injEq, Prod.mk.injEq] at h
    rw [← h.1, List.map_map, List.forall₂_map_right_iff]
    refine hinit.imp ?_
    intro qi c hc
    obtain ⟨hq, hs, _, hrl⟩ := hc
    rcases hrl with hrl | ⟨x, hx, hxq⟩
    · exact Or.inr ⟨hrl, hq, Or.inr rfl⟩
    · exact Or.inl ⟨x, hx, hxq, hs⟩
  · rename_i act hact
    split at h
    · cases h
    · split at h
      · cases h
      · rename_i res1 s2 hrun
        simp only [Option.some.injEq, Prod.mk.injEq] at h
        rw [← h.1]
        have hlen : qis.length = checked.1.length := hinit.length_eq
        obtain ⟨ht1, ht2, ht3⟩ := spawnTasks_spec act.slots.length qis checked.1 hlen 0 ringOffset
        generalize spawnTasks act.slots.length 0 ringOffset qis checked.1 = spawned
          at hrun ht1 ht2 ht3
        have hperm := interleave_perm spawned.1.length picks spawned.1 rfl
        have hltTask : ∀ t ∈ spawned.1, t.i < checked.1.length := by
          intro t ht
          obtain ⟨_, _, c, hc, _⟩ := ht1 t ht
          simpa using (List.getElem?_eq_some_iff.mp hc).1
        obtain ⟨hl, hframe, hd⟩ := runTasks_results now act.slots stepIdsToLabels _ _ _ _ _
          ((hperm.map _).nodup_iff.mpr ht2)
          (fun t ht => by
            rw [List.length_map]
            exact hltTask t (hperm.mem_iff.mp ht)) hrun
        apply forall₂_of_getElem?
        · rw [hl, List.length_map, hlen]
        · intro i qi r hqi hr
          have hi : i < checked.1.length := by
            rw [← hlen]; exact (List.getElem?_eq_some_iff.mp hqi).1
          have hc : checked.1[i]? = some checked.1[i] := List.getElem?_eq_getElem hi
          have hci := forall₂_getElem? _ _ _ hinit i qi _ hqi hc
          cases hrlc : (checked.1[i]).1.rateLimitResult with
          | none =>
            have hmem := ht3 i _ hc hrlc
            rw [Nat.zero_add] at hmem
            obtain ⟨t, ht, hti⟩ := List.mem_map.mp hmem
            obtain ⟨r', hr', hrl', hq', hcase⟩ := hd t (hperm.mem_iff.mpr ht)
            rw [hti, hr] at hr'
            cases hr'
            obtain ⟨_, hq, _⟩ := ht1 t ht
            rw [hti, Nat.sub_zero, hqi] at hq
            cases hq
            exact Or.inr ⟨hrl', hq', hcase⟩
          | some x =>
            have hnot : i ∉ (interleave spawned.1.length picks spawned.1).map (fun t => t.i) := by
              intro hmem
              rw [(hperm.map _).mem_iff] at hmem
              obtain ⟨t, ht, hti⟩ := List.mem_map.mp hmem
              obtain ⟨_, _, c', hc', hn⟩ := ht1 t ht
              rw [hti, Nat.sub_zero, hc] at hc'
              cases hc'
              rw [hrlc] at hn
              cases hn
            rw [hframe i hnot, List.getElem?_map, hc] at hr
            simp only [Option.map_some', Option.some.injEq] at hr
            subst hr
            obtain ⟨_, hs, _, hrl⟩ := hci
            rcases hrl with hrl | ⟨y, hy, hyq⟩
            · rw [hrlc] at hrl; cases hrl
            · exact Or.inl ⟨y, hy, hyq, hs⟩

theorem reportedItems_append (a b : List assignResults) :
    reportedItems (a ++ b) = reportedItems a ++ reportedItems b := by
  unfold reportedItems
  exact List.flatMap_append _ _ _

theorem runBatches_items (rl : rateLimiter) (picks : String → Nat → List Nat) (now : Int)
    (actionId : String) (stepIdsToLabels : List (String × List GetDesiredLabelsRow))
    (stepRunIdsToRateLimits : List (String × List (String × Int))) :
    ∀ (batches : List (List QueueItem)) (b : Nat) (st st' : partitionState),
      runBatches rl picks now actionId stepIdsToLabels stepRunIdsToRateLimits b st batches
        = some st' →
      (reportedItems st'.sent ++ st'.rateLimited.map (fun r => some r.qi) ++ st'.unassigned).Perm
        (reportedItems st.sent ++ st.rateLimited.map (fun r => some r.qi) ++ st.unassigned
          ++ batches.flatten.map some) := by
  intro batches
  induction batches with
  | nil =>
    intro b st st' h
    simp only [runBatches, Option.some.injEq] at h
    subst h
    simp
  | cons q rest ih =>
    intro b st st' h
    unfold runBatches at h
    split at h
    · cases h
    · rename_i results newRingOffset s1 hb
      have hres := tryAssignBatch_results _ _ _ _ _ _ _ _ _ _ _ _ hb
      have e1 := collectResults_items q results hres [] st.unassigned st.rateLimited
      have e2 := ih _ _ _ h
      rw [← Multiset.coe_eq_coe] at e1 e2 ⊢
      simp only [reportedItems, List.flatMap_append, List.flatMap_cons, List.flatMap_nil,
        messageItems, List.map_nil, List.append_nil, List.nil_append, List.flatten_cons,
        List.map_append, ← Multiset.coe_add] at e1 e2 ⊢
      rw [e2]
      have e1' := congrArg (fun m => (↑(st.sent.flatMap messageItems) : Multiset _) + m +
        (↑(List.map some rest.flatten) : Multiset _)) e1
      simp only at e1'
      exact Eq.trans (by abel) (Eq.trans e1' (by abel))

theorem runPartition_items (rl : rateLimiter) (picks : String → Nat → List Nat) (now : Int)
    (stepIdsToLabels : List (String × List GetDesiredLabelsRow))
    (stepRunIdsToRateLimits : List (String × List (String × Int)))
    (s s' : Scheduler) (actionId : String) (qis : List QueueItem) (msgs : List assignResults)
    (h : runPartition rl picks now stepIdsToLabels stepRunIdsToRateLimits s actionId qis
      = some (msgs, s')) :
    (reportedItems msgs).Perm (qis.map some) := by
  unfold runPartition at h
  simp only at h
  split at h
  · cases h
  · rename_i st hst
    simp only [Option.some.injEq, Prod.mk.injEq] at h
    rw [← h.1]
    have e := runBatches_items rl picks now actionId stepIdsToLabels stepRunIdsToRateLimits
      _ _ _ _ hst
    rw [BatchLinear_flatten 50 (by decide) _ _ (le_refl _)] at e
    have hsplit := ((List.filter_append_perm (fun qi => isTimedOut now qi) qis).map some)
    rw [← Multiset.coe_eq_coe] at e hsplit ⊢
    simp only [reportedItems, List.flatMap_append, List.flatMap_cons, List.flatMap_nil,
      messageItems, List.map_nil, List.append_nil, List.nil_append, List.map_append,
      ← Multiset.coe_add] at e hsplit ⊢
    rw [← hsplit]
    have e' := congrArg (fun m => m + (↑(List.map some
      (List.filter (fun qi => isTimedOut now qi) qis)) : Multiset _)) e
    simp only at e'
    exact Eq.trans (by abel) (Eq.trans e' (by abel))

theorem runPartitions_items (rl : rateLimiter) (picks : String → Nat → List Nat) (now : Int)
    (stepIdsToLabels : List (String × List GetDesiredLabelsRow))
    (stepRunIdsToRateLimits : List (String × List (String × Int))) :
    ∀ (parts : List (String × List QueueItem)) (s s' : Scheduler) (out : List assignResults),
      runPartitions rl picks now stepIdsToLabels stepRunIdsToRateLimits s parts = some (out, s') →
      (reportedItems out).Perm ((parts.flatMap (fun e => e.2)).map some) := by
  intro parts
  induction parts with
  | nil =>
    intro s s' out h
    simp only [runPartitions, Option.some.injEq, Prod.mk.injEq] at h
    rw [← h.1]
    simp [reportedItems]
  | cons part rest ih =>
    intro s s' out h
    obtain ⟨actionId, pqis⟩ := part
    unfold runPartitions at h
    split at h
    · cases h
    · rename_i msgs s1 hpart
      split at h
      · cases h
      · rename_i msgs' s2 hrest
        simp only [Option.some.injEq, Prod.mk.injEq] at h
        rw [← h.1, reportedItems_append, List.flatMap_cons, List.map_append]
        exact (runPartition_items _ _ _ _ _ _ _ _ _ _ hpart).append (ih _ _ _ hrest)

theorem reportedItems_length (out : List assignResults) :
    (reportedItems out).length =
      (out.map (fun m => m.assigned.length + m.rateLimited.length + m.schedulingTimedOut.length
        + m.unassigned.length)).sum := by
  induction out with
  | nil => rfl
  | cons m out ih =>
    have : reportedItems (m :: out) = messageItems m ++ reportedItems out := rfl
    rw [this, List.length_append, ih]
    simp only [messageItems, List.length_append, List.length_map, List.map_cons, List.sum_cons]

/-- Conservation on every `tryAssign` call that returns: the items reported in
the four buckets of all messages are the input items, each once, so the bucket
sizes add up to the input count. -/
theorem tryAssign_reports_every_item (s s' : Scheduler) (rl : rateLimiter)
    (picks : String → Nat → List Nat) (now : Int) (qis : List QueueItem)
    (stepIdsToLabels : List (String × List GetDesiredLabelsRow))
    (stepRunIdsToRateLimits : List (String × List (String × Int))) (out : List assignResults)
    (h : s.tryAssign rl picks now qis stepIdsToLabels stepRunIdsToRateLimits = some (out, s')) :
    (reportedItems out).Perm (qis.map some) ∧
    (out.map (fun m => m.assigned.length + m.rateLimited.length + m.schedulingTimedOut.length
      + m.unassigned.length)).sum = qis.length := by
  unfold Scheduler.tryAssign at h
  have hgroup : ((groupByAction [] qis).flatMap (fun e => e.2)).Perm qis := by
    simpa using groupByAction_flatMap qis []
  have hperm := (runPartitions_items rl picks now stepIdsToLabels stepRunIdsToRateLimits _ _ _ _
    h).trans (hgroup.map some)
  refine ⟨hperm, ?_⟩
  rw [← reportedItems_length, hperm.length_eq, List.length_map]

/-! ## isTimedOut, setWorkers, failing replenish -/

/-- C13: `isTimedOut` returns true exactly when the deadline of the item is not
the zero time and lies strictly before `now`; an item without deadline is
never timed out and an item whose deadline equals `now` is not timed out. -/
theorem isTimedOut_iff (now : Int) (qi : QueueItem) :
    (isTimedOut now qi = true ↔ qi.ScheduleTimeoutAt ≠ 0 ∧ qi.ScheduleTimeoutAt < now) ∧
    isTimedOut now { qi with ScheduleTimeoutAt := 0 } = false ∧
    isTimedOut now { qi with ScheduleTimeoutAt := now } = false := by
  simp [isTimedOut]

theorem foldl_mapSet_get (id : String) :
    ∀ (ws : List worker) (m : List (String × worker)),
      mapGet (ws.foldl (fun m w => mapSet m w.ID w) m) id =
        (ws.reverse.find? (fun w => decide (w.ID = id))).or (mapGet m id) := by
  intro ws
  induction ws with
  | nil => intro m; simp
  | cons w ws ih =>
    intro m
    rw [List.foldl_cons, ih, List.reverse_cons, List.find?_append]
    by_cases hw : w.ID = id
    · subst hw
      rw [mapGet_mapSet_self]
      cases (ws.reverse.find? (fun w' => decide (w'.ID = w.ID))) <;> simp
    · rw [mapGet_mapSet_of_ne _ _ _ _ hw]
      simp [List.find?_cons, hw]

theorem foldl_mapSet_keys_nodup :
    ∀ (ws : List worker) (m : List (String × worker)), (m.map Prod.fst).Nodup →
      ((ws.foldl (fun m w => mapSet m w.ID w) m).map Prod.fst).Nodup := by
  intro ws
  induction ws with
  | nil => intro m h; exact h
  | cons w ws ih => intro m h; exact ih _ (mapSet_keys_nodup m w.ID w h)

theorem foldl_mapSet_mem :
    ∀ (ws : List worker) (m : List (String × worker)) (e : String × worker),
      e ∈ ws.foldl (fun m w => mapSet m w.ID w) m → e ∈ m ∨ (e.2 ∈ ws ∧ e.2.ID = e.1) := by
  intro ws
  induction ws with
  | nil => intro m e h; exact Or.inl h
  | cons w ws ih =>
    intro m e h
    rcases ih _ e h with h' | h'
    · rcases mem_mapSet m w.ID w e h' with h'' | h''
      · subst h''
        exact Or.inr ⟨List.mem_cons_self _ _, rfl⟩
      · exact Or.inl h''
    · exact Or.inr ⟨List.mem_cons_of_mem _ h'.1, h'.2⟩

/-- C17: after `setWorkers ws` the worker map does not depend on the previous
map; looking up an id yields the last entry of `ws` with that id, so the keys
are exactly the ids that occur in `ws`, each once, every stored entry is an
entry of `ws` filed under its own id, and the other fields of the scheduler
are untouched. -/
theorem setWorkers_snapshot (s : Scheduler) (ws : List worker) :
    (∀ id, mapGet (s.setWorkers ws).workers id =
      ws.reverse.find? (fun w => decide (w.ID = id))) ∧
    (∀ id, id ∈ (s.setWorkers ws).workers.map Prod.fst ↔ ∃ w ∈ ws, w.ID = id) ∧
    ((s.setWorkers ws).workers.map Prod.fst).Nodup ∧
    (∀ e ∈ (s.setWorkers ws).workers, e.2 ∈ ws ∧ e.2.ID = e.1) ∧
    (s.setWorkers ws).workers = (newScheduler.setWorkers ws).workers ∧
    (s.setWorkers ws).heap = s.heap ∧ (s.setWorkers ws).actions = s.actions ∧
    (s.setWorkers ws).unackedSlots = s.unackedSlots ∧
    (s.setWorkers ws).assignedCount = s.assignedCount := by
  have hget : ∀ id, mapGet (s.setWorkers ws).workers id =
      ws.reverse.find? (fun w => decide (w.ID = id)) := by
    intro id
    have := foldl_mapSet_get id ws []
    simpa [Scheduler.setWorkers, mapGet] using this
  refine ⟨hget, ?_, ?_, ?_, rfl, rfl, rfl, rfl, rfl⟩
  · intro id
    constructor
    · intro hmem
      have hne : mapGet (s.setWorkers ws).workers id ≠ none := by
        intro hnone
        exact (mapGet_eq_none_iff _ _).1 hnone hmem
      rw [hget] at hne
      cases hf : ws.reverse.find? (fun w => decide (w.ID = id)) with
      | none => exact absurd hf hne
      | some w =>
        have h1 := List.find?_some hf
        have h2 := List.mem_of_find?_eq_some hf
        exact ⟨w, by simpa using h2, by simpa using h1⟩
    · rintro ⟨w, hw, hid⟩
      by_contra hnot
      have hnone := (mapGet_eq_none_iff _ _).2 hnot
      rw [hget, List.find?_eq_none] at hnone
      exact hnone w (by simpa using hw) (by simpa using hid)
  · exact foldl_mapSet_keys_nodup ws [] List.nodup_nil
  · intro e he
    rcases foldl_mapSet_mem ws [] e he with h | h
    · cases h
    · exact h

theorem setWorkers_snapshot_witness :
    mapGet (schedBasic.setWorkers snapshotTwice).workers "W1" =
        some { ID := "W1", Labels := [("gpu", labelValue.int 1)] } ∧
      mapGet (schedBasic.setWorkers snapshotTwice).workers "W3" = none :=
  ⟨((setWorkers_snapshot schedBasic snapshotTwice).1 "W1").trans (by decide),
   ((setWorkers_snapshot schedBasic snapshotTwice).1 "W3").trans (by decide)⟩

/-- C12: when the worker-action query fails, or it succeeds and the
available-slots query fails, `replenish` returns that error and the scheduler
it leaves is the one it was called on: the action table with every slot list
and both replenish counters, the unacked registry, the arena with every expiry
and the ack counter are unchanged. -/
theorem replenish_error_leaves_state (s : Scheduler) (repo : schedulerRepo)
    (shuffle : String → List Nat → List Nat) (now ttl : Int) (mustReplenish : Bool) (err : String)
    (h : repo.ListActionsForWorkers (s.workers.map (fun e => e.1)) = Except.error err ∨
      ∃ rowsA, repo.ListActionsForWorkers (s.workers.map (fun e => e.1)) = Except.ok rowsA ∧
        repo.ListAvailableSlotsForWorkers
          (uniqueWorkerIds (buildActionMaps [] [] rowsA).1
            (actionsToReplenish now s mustReplenish (buildActionMaps [] [] rowsA).1))
          = Except.error err) :
    s.replenish repo shuffle now ttl mustReplenish = (some err, s) := by
  rcases h with h | ⟨rowsA, h1, h2⟩
  · simp only [Scheduler.replenish, h]
  · simp only [Scheduler.replenish, h1, h2]

theorem replenish_error_leaves_state_witness :
    schedBasicAssigned.replenish repoActionsFail (fun _ l => l) 102 15 true
        = (some "actions query failed", schedBasicAssigned) ∧
      schedBasicAssigned.replenish repoSlotsFail (fun _ l => l) 102 15 false
        = (some "slots query failed", schedBasicAssigned) :=
  ⟨replenish_error_leaves_state schedBasicAssigned repoActionsFail (fun _ l => l) 102 15 true _
      (Or.inl rfl),
   replenish_error_leaves_state schedBasicAssigned repoSlotsFail (fun _ l => l) 102 15 false _
      (Or.inr ⟨basicActionRows, rfl, rfl⟩)⟩

theorem isTimedOut_iff_witness :
    isTimedOut 10 { plainItem 1 "a" with ScheduleTimeoutAt := 5 } = true :=
  (isTimedOut_iff 10 { plainItem 1 "a" with ScheduleTimeoutAt := 5 }).1.2 ⟨by decide, by decide⟩

/-! ## The unacked registry is injective -/

theorem mapSet_values_nodup {κ α : Type} [DecidableEq κ] (m : List (κ × α)) (k : κ) (v : α)
    (hnd : (m.map Prod.snd).Nodup) (hv : v ∉ m.map Prod.snd) :
    ((mapSet m k v).map Prod.snd).Nodup := by
  induction m with
  | nil => simp [mapSet]
  | cons e m ih =>
    obtain ⟨k', v'⟩ := e
    simp only [List.map_cons, List.nodup_cons, List.mem_cons, not_or] at hnd hv
    by_cases h : k' = k
    · simp only [mapSet, h, if_true, List.map_cons, List.nodup_cons]
      exact ⟨hv.2, hnd.2⟩
    · simp only [mapSet, h, if_false, List.map_cons, List.nodup_cons]
      refine ⟨?_, ih hnd.2 hv.2⟩
      intro hmem
      obtain ⟨e, he, hev⟩ := List.mem_map.1 hmem
      rcases mem_mapSet m k v e he with h' | h'
      · subst h'
        exact hv.1 hev
      · exact hnd.1 (hev ▸ List.mem_map_of_mem Prod.snd h')

theorem ack_unacked_sublist (ids : List Int) :
    ∀ s : Scheduler, (s.ack ids).unackedSlots.Sublist s.unackedSlots := by
  induction ids with
  | nil => intro s; exact List.Sublist.refl _
  | cons i ids ih =>
    intro s
    unfold Scheduler.ack
    cases mapGet s.unackedSlots i with
    | none => exact ih s
    | some p => exact (ih _).trans (List.filter_sublist _)

theorem nack_unacked_sublist (ids : List Int) :
    ∀ s : Scheduler, (s.nack ids).unackedSlots.Sublist s.unackedSlots := by
  induction ids with
  | nil => intro s; exact List.Sublist.refl _
  | cons i ids ih =>
    intro s
    unfold Scheduler.nack
    cases mapGet s.unackedSlots i with
    | none => exact ih s
    | some p => exact (ih _).trans (List.filter_sublist _)

theorem reachable_registry_nodup (s : Scheduler) (hs : Reachable s) :
    (s.unackedSlots.map Prod.snd).Nodup ∧ (s.unackedSlots.map Prod.fst).Nodup := by
  have key : unackedUsed s ∧ (s.unackedSlots.map Prod.snd).Nodup ∧
      (s.unackedSlots.map Prod.fst).Nodup := by
    induction hs with
    | init => exact ⟨fun e he => (by cases he), List.nodup_nil, List.nodup_nil⟩
    | setWorkers s workers _ ih => exact ih
    | ack s ids _ ih =>
      exact ⟨unackedUsed_ack s ids ih.1, ((ack_unacked_sublist ids s).map _).nodup ih.2.1,
        ((ack_unacked_sublist ids s).map _).nodup ih.2.2⟩
    | nack s ids _ ih =>
      exact ⟨unackedUsed_nack s ids ih.1, ((nack_unacked_sublist ids s).map _).nodup ih.2.1,
        ((nack_unacked_sublist ids s).map _).nodup ih.2.2⟩
    | replenish s repo shuffle now ttl must _ _ ih =>
      refine ⟨unackedUsed_replenish s repo shuffle now ttl must ih.1, ?_, ?_⟩
      · rw [replenish_unackedSlots]; exact ih.2.1
      · rw [replenish_unackedSlots]; exact ih.2.2
    | tryAssign s s' rl picks now qis l r out _ h ih =>
      refine tryAssign_induction
        (fun t => unackedUsed t ∧ (t.unackedSlots.map Prod.snd).Nodup ∧
          (t.unackedSlots.map Prod.fst).Nodup)
        (fun t tr hP => hP) ?_ s s' rl picks now qis l r out ih h
      intro t t' now' actionId act qi off labels a n res hP _ hcall
      refine ⟨unackedUsed_tryAssignSingleton t t' now' qi act.slots off labels a n res hP.1 hcall,
        ?_⟩
      rcases tryAssignSingleton_cases t t' now' qi act.slots off labels a n res hcall with
        ⟨_, hs', _⟩ | ⟨p, sl, _, hp, hact, _, hs'⟩
      · rw [hs']; exact hP.2
      · rw [hs']
        refine ⟨mapSet_values_nodup _ _ _ hP.2.1 ?_, mapSet_keys_nodup _ _ _ hP.2.2⟩
        intro hmem
        obtain ⟨e, he, hep⟩ := List.mem_map.1 hmem
        obtain ⟨sl', hsl', hu⟩ := hP.1 e he
        rw [hep, hp] at hsl'
        cases hsl'
        simp [slot.active, hu] at hact
  exact key.2

theorem used_slot_never_registered (s : Scheduler) (p : Nat) (sl : slot)
    (hp : s.heap[p]? = some sl) (hu : sl.usedOnce = true) (t : Scheduler)
    (ht : Relation.ReflTransGen Step s t) :
    (∃ sl', t.heap[p]? = some sl' ∧ sl'.usedOnce = true) ∧
      ∀ id, (id, p) ∈ t.unackedSlots → (id, p) ∈ s.unackedSlots := by
  induction ht with
  | refl => exact ⟨⟨sl, hp, hu⟩, fun _ h => h⟩
  | @tail t t' _ hstep ih =>
    cases hstep with
    | setWorkers workers => exact ih
    | ack ids =>
      refine ⟨by rw [ack_heap]; exact ih.1, fun id h => ih.2 id (ack_unacked_subset ids t _ h)⟩
    | nack ids =>
      refine ⟨by rw [nack_heap]; exact ih.1, fun id h => ih.2 id (nack_unacked_subset ids t _ h)⟩
    | replenish repo shuffle now ttl must _ =>
      refine ⟨?_, fun id h => ih.2 id (by rw [replenish_unackedSlots] at h; exact h)⟩
      obtain ⟨sl', hsl', hu'⟩ := ih.1
      obtain ⟨sl'', hsl'', hu'', _⟩ := replenish_heapExt t repo shuffle now ttl must p sl' hsl'
      exact ⟨sl'', hsl'', hu''.trans hu'⟩
    | tryAssign _ rl picks now qis l r out h =>
      refine tryAssign_induction
        (fun u => (∃ sl', u.heap[p]? = some sl' ∧ sl'.usedOnce = true) ∧
          ∀ id, (id, p) ∈ u.unackedSlots → (id, p) ∈ s.unackedSlots)
        (fun u tr hP => hP) ?_ t t' rl picks now qis l r out ih h
      intro u u' now' actionId act qi off labels a n res hP _ hcall
      rcases tryAssignSingleton_cases u u' now' qi act.slots off labels a n res hcall with
        ⟨_, hs', _⟩ | ⟨p', sl', _, hp', hact, _, hs'⟩
      · rw [hs']; exact hP
      · obtain ⟨sl₀, hsl₀, hu₀⟩ := hP.1
        have hne : p' ≠ p := by
          intro heq
          rw [heq, hsl₀] at hp'
          cases hp'
          simp [slot.active, hu₀] at hact
        rw [hs']
        refine ⟨⟨sl₀, by simp [List.getElem?_set_ne hne, hsl₀], hu₀⟩, ?_⟩
        intro id hmem
        rcases mem_mapSet _ _ _ _ hmem with h' | h'
        · exact absurd (congrArg Prod.snd h').symm hne
        · exact hP.2 id h'

/-- C11: in every reachable state the unacked registry is injective: its slot
pointers are pairwise distinct, so no slot is registered under two ack ids;
and once an entry has been removed by `ack` or `nack`, its slot is in the
registry of no state reached by later operations (the slot stays used, and
only an unused slot is ever registered). -/
theorem registry_injective (s : Scheduler) (hs : Reachable s) :
    (s.unackedSlots.map Prod.snd).Nodup ∧
    (∀ (id₁ id₂ : Int) (p : Nat), mapGet s.unackedSlots id₁ = some p →
      mapGet s.unackedSlots id₂ = some p → id₁ = id₂) ∧
    (∀ (ids : List Int) (id : Int) (p : Nat), id ∈ ids → mapGet s.unackedSlots id = some p →
      ∀ t : Scheduler,
        (Relation.ReflTransGen Step (s.ack ids) t ∨ Relation.ReflTransGen Step (s.nack ids) t) →
        p ∉ t.unackedSlots.map Prod.snd) := by
  have hnd := (reachable_registry_nodup s hs).1
  have hinj : ∀ (id₁ id₂ : Int) (p : Nat), (id₁, p) ∈ s.unackedSlots →
      (id₂, p) ∈ s.unackedSlots → id₁ = id₂ := by
    intro id₁ id₂ p h1 h2
    exact congrArg Prod.fst (List.inj_on_of_nodup_map hnd h1 h2 rfl)
  refine ⟨hnd, fun id₁ id₂ p h1 h2 => hinj id₁ id₂ p (mem_of_mapGet _ _ _ h1)
    (mem_of_mapGet _ _ _ h2), ?_⟩
  intro ids id p hid hreg t ht hmem
  obtain ⟨e, he, hep⟩ := List.mem_map.1 hmem
  obtain ⟨sl, hsl, hu⟩ := reachable_unackedUsed s hs (id, p) (mem_of_mapGet _ _ _ hreg)
  have hin : (e.1, p) ∈ t.unackedSlots := by rw [← hep]; exact he
  rcases ht with ht | ht
  · have h0 := (used_slot_never_registered (s.ack ids) p sl (by rw [ack_heap]; exact hsl) hu t
      ht).2 e.1 hin
    have h1 := ack_unacked_subset ids s _ h0
    have h2 := hinj _ _ _ h1 (mem_of_mapGet _ _ _ hreg)
    have h3 := (mapGet_eq_none_iff _ _).1 (ack_mem_unacked_none ids id hid s)
    exact h3 (List.mem_map.2 ⟨(e.1, p), h0, h2⟩)
  · have h0 := (used_slot_never_registered (s.nack ids) p sl (by rw [nack_heap]; exact hsl) hu t
      ht).2 e.1 hin
    have h1 := nack_unacked_subset ids s _ h0
    have h2 := hinj _ _ _ h1 (mem_of_mapGet _ _ _ hreg)
    have h3 := (mapGet_eq_none_iff _ _).1 (nack_mem_unacked_none ids id hid s)
    exact h3 (List.mem_map.2 ⟨(e.1, p), h0, h2⟩)

theorem registry_injective_witness :
    Reachable schedBasicAssigned ∧ mapGet schedBasicAssigned.unackedSlots 1 = some 0 ∧
      schedAfterNack.unackedSlots = [(2, 1), (3, 2)] ∧
      0 ∉ schedAfterNack.unackedSlots.map Prod.snd :=
  ⟨schedBasicAssigned_reachable, by decide, by decide,
   (registry_injective schedBasicAssigned schedBasicAssigned_reachable).2.2 [1] 1 0 (by decide)
     (by decide) schedAfterNack
     (Or.inr (Relation.ReflTransGen.single
       (Step.tryAssign _ _ rlAdmitAll (fun _ _ => []) 103
         [plainItem 2 "b", plainItem 3 "c", plainItem 4 "d"] [] [] nackOut
         (by decide : (schedBasicAssigned.nack [1]).tryAssign rlAdmitAll (fun _ _ => []) 103
           [plainItem 2 "b", plainItem 3 "c", plainItem 4 "d"] [] [] =
             some (nackOut, schedAfterNack)))))⟩

/-! ## The sweep pass of replenish -/

theorem replenish_ok_passes (s : Scheduler) (repo : schedulerRepo)
    (shuffle : String → List Nat → List Nat) (now ttl : Int) (mustReplenish : Bool)
    (rowsA : List ListActionsForWorkersRow) (rows : List ListAvailableSlotsForWorkersRow)
    (h1 : repo.ListActionsForWorkers (s.workers.map (fun e => e.1)) = Except.ok rowsA)
    (h2 : repo.ListAvailableSlotsForWorkers
      (uniqueWorkerIds (buildActionMaps [] [] rowsA).1
        (actionsToReplenish now s mustReplenish (buildActionMaps [] [] rowsA).1)) = Except.ok rows) :
    s.replenish repo shuffle now ttl mustReplenish =
      (none,
       { s with
         heap := (replenishRows s now ttl rowsA rows).heap,
         actions := removeEmpty (sweepExpired now (replenishRows s now ttl rowsA rows).heap
           (writtenActions s shuffle now ttl rowsA rows)) }) :=
  replenish_ok_eq s repo shuffle now ttl mustReplenish rowsA rows h1 h2

theorem count_filter_not_expired (now : Int) (heap : List slot) (l : List Nat) (p : Nat) :
    (l.filter (fun q => !slotExpired now heap q)).count p =
      if slotExpired now heap p then 0 else l.count p := by
  induction l with
  | nil => simp
  | cons q l ih =>
    by_cases hq : q = p
    · subst hq
      cases h : slotExpired now heap q <;> simp [List.filter_cons, h] at ih ⊢
      exact ih
    · cases h : slotExpired now heap q <;>
        simp [List.filter_cons, h, List.count_cons, hq] at ih ⊢ <;> exact ih

theorem sweepExpired_spec (now : Int) (heap : List slot) :
    ∀ actions : List (String × action),
      List.Forall₂ (sweptEntry now heap) actions (sweepExpired now heap actions) := by
  intro actions
  induction actions with
  | nil => exact List.Forall₂.nil
  | cons e actions ih =>
    refine List.Forall₂.cons ⟨rfl, rfl, rfl, List.filter_sublist _, ?_, ?_, ?_⟩ ih
    · intro p
      exact count_filter_not_expired now heap e.2.slots p
    · intro p hp hnot
      have hexp : slotExpired now heap p = true := by
        by_contra hne
        exact hnot (List.mem_filter.2 ⟨hp, by simpa using hne⟩)
      unfold slotExpired at hexp
      cases hsl : heap[p]? with
      | none => simp [hsl] at hexp
      | some sl => exact ⟨sl, rfl, by simpa [hsl] using hexp⟩
    · intro p hp sl hsl hlt
      refine List.mem_filter.2 ⟨hp, ?_⟩
      simp only [slotExpired, hsl, slot.expired, Bool.not_eq_true', decide_eq_false_iff_not]
      omega

theorem removeEmpty_spec (actions : List (String × action)) :
    (removeEmpty actions).Sublist actions ∧
      ∀ e ∈ actions, (e ∈ removeEmpty actions ↔ e.2.slots ≠ []) := by
  refine ⟨List.filter_sublist _, ?_⟩
  intro e he
  simp [removeEmpty, List.mem_filter, he]

/-- C19: in a replenish that returns nil the action table is the result of the
sweep pass followed by the removal pass on the table written by the first
pass.  The sweep keeps the key and the counters of every action and filters
its slot list: the order is kept, a slot is dropped only if it is expired, and
every slot that is not expired stays, whether used or not.  The removal pass
keeps the order of the entries and drops exactly the entries whose slot list
is empty. -/
theorem sweep_drops_only_expired (s : Scheduler) (repo : schedulerRepo)
    (shuffle : String → List Nat → List Nat) (now ttl : Int) (mustReplenish : Bool)
    (rowsA : List ListActionsForWorkersRow) (rows : List ListAvailableSlotsForWorkersRow)
    (h1 : repo.ListActionsForWorkers (s.workers.map (fun e => e.1)) = Except.ok rowsA)
    (h2 : repo.ListAvailableSlotsForWorkers
      (uniqueWorkerIds (buildActionMaps [] [] rowsA).1
        (actionsToReplenish now s mustReplenish (buildActionMaps [] [] rowsA).1)) = Except.ok rows) :
    (s.replenish repo shuffle now ttl mustReplenish).2.actions =
      removeEmpty (sweepExpired now (s.replenish repo shuffle now ttl mustReplenish).2.heap
        (writtenActions s shuffle now ttl rowsA rows)) ∧
    List.Forall₂ (sweptEntry now (s.replenish repo shuffle now ttl mustReplenish).2.heap)
      (writtenActions s shuffle now ttl rowsA rows)
      (sweepExpired now (s.replenish repo shuffle now ttl mustReplenish).2.heap
        (writtenActions s shuffle now ttl rowsA rows)) ∧
    (s.replenish repo shuffle now ttl mustReplenish).2.actions.Sublist
      (sweepExpired now (s.replenish repo shuffle now ttl mustReplenish).2.heap
        (writtenActions s shuffle now ttl rowsA rows)) ∧
    ∀ e ∈ sweepExpired now (s.replenish repo shuffle now ttl mustReplenish).2.heap
        (writtenActions s shuffle now ttl rowsA rows),
      (e ∈ (s.replenish repo shuffle now ttl mustReplenish).2.actions ↔ e.2.slots ≠ []) := by
  have heq := replenish_ok_passes s repo shuffle now ttl mustReplenish rowsA rows h1 h2
  have hheap : (s.replenish repo shuffle now ttl mustReplenish).2.heap =
      (replenishRows s now ttl rowsA rows).heap := by rw [heq]
  have hact : (s.replenish repo shuffle now ttl mustReplenish).2.actions =
      removeEmpty (sweepExpired now (s.replenish repo shuffle now ttl mustReplenish).2.heap
        (writtenActions s shuffle now ttl rowsA rows)) := by rw [hheap, heq]
  refine ⟨hact, sweepExpired_spec _ _ _, ?_, ?_⟩
  · rw [hact]
    exact (removeEmpty_spec _).1
  · intro e he
    rw [hact]
    exact (removeEmpty_spec _).2 e he

theorem sweep_drops_only_expired_witness :
    schedBasicReplenished.actions.map (fun e => (e.1, e.2.slots)) = [("A", [3, 0, 4])] ∧
      schedBasicReplenished.heap.map (fun sl => (sl.expiry, sl.usedOnce)) =
        [(130, true), (115, false), (115, false), (117, false), (117, false)] ∧
      (schedBasicReplenished.replenish repoIdle (fun _ l => l) 120 15 false).2.actions =
        [("A", { slots := [0], lastReplenishedSlotCount := 3, lastReplenishedWorkerCount := 2 })] :=
  ⟨by decide, by decide,
   (sweep_drops_only_expired schedBasicReplenished repoIdle (fun _ l => l) 120 15 false [] []
      rfl rfl).1.trans (by decide)⟩

/-! ## Expiry extension of the unacked slots -/

theorem collectResults_buckets :
    ∀ (results : List assignSingleResult) (ba : List AssignedQueueItem)
      (un : List (Option QueueItem)) (rl : List scheduleRateLimitResult),
      (collectResults ba un rl results).1 =
          ba ++ (results.filter (fun r => r.succeeded)).map toAssigned ∧
        (collectResults ba un rl results).2.2 =
          rl ++ (results.filter (fun r => !r.succeeded)).filterMap (fun r => r.rateLimitResult) := by
  intro results
  induction results with
  | nil => intro ba un rl; simp [collectResults]
  | cons r results ih =>
    intro ba un rl
    unfold collectResults
    cases hs : r.succeeded with
    | true =>
      simp only [Bool.not_true, Bool.false_eq_true, if_false]
      have h := ih (ba ++ [{ WorkerId := r.workerId, QueueItem := r.qi, AckId := r.ackId }]) un rl
      simp [h, List.filter_cons, hs, toAssigned]
    | false =>
      simp only [Bool.not_false, if_true]
      cases hr : r.rateLimitResult with
      | some x =>
        have h := ih ba un (rl ++ [x])
        simp [h, List.filter_cons, hs, hr]
      | none =>
        simp only
        by_cases hn : r.noSlots = true
        · have h := ih ba (un ++ [r.qi]) rl
          simp [hn, h, List.filter_cons, hs, hr]
        · have h := ih ba un rl
          simp [hn, h, List.filter_cons, hs, hr]

theorem assigned_sublist :
    ∀ (qis : List QueueItem) (results : List assignSingleResult),
      List.Forall₂ resultFor qis results →
      (((results.filter (fun r => r.succeeded)).map toAssigned).map (fun a => a.QueueItem)).Sublist
        (qis.map some) := by
  intro qis results h
  induction h with
  | nil => simp
  | @cons qi r qis results hr _ ih =>
    cases hs : r.succeeded with
    | false =>
      simp only [List.filter_cons, hs, Bool.false_eq_true, if_false, List.map_cons]
      exact List.Sublist.cons _ ih
    | true =>
      have hq : r.qi = some qi := by
        rcases hr with ⟨_, _, _, hf⟩ | ⟨_, hq, _⟩
        · rw [hs] at hf; cases hf
        · exact hq
      simp only [List.filter_cons, hs, if_true, List.map_cons, toAssigned, hq]
      exact List.Sublist.cons₂ _ ih

theorem runBatches_sent (rl : rateLimiter) (picks : String → Nat → List Nat) (now : Int)
    (actionId : String) (stepIdsToLabels : List (String × List GetDesiredLabelsRow))
    (stepRunIdsToRateLimits : List (String × List (String × Int))) :
    ∀ (batches : List (List QueueItem)) (b : Nat) (st st' : partitionState),
      runBatches rl picks now actionId stepIdsToLabels stepRunIdsToRateLimits b st batches
        = some st' →
      ∃ msgs, st'.sent = st.sent ++ msgs ∧ List.Forall₂ batchMessage batches msgs := by
  intro batches
  induction batches with
  | nil =>
    intro b st st' h
    simp only [runBatches, Option.some.injEq] at h
    subst h
    exact ⟨[], by simp, List.Forall₂.nil⟩
  | cons batch rest ih =>
    intro b st st' h
    unfold runBatches at h
    cases hb : st.s.tryAssignBatch rl (picks actionId b) now actionId batch st.ringOffset
        stepIdsToLabels stepRunIdsToRateLimits with
    | none => rw [hb] at h; cases h
    | some r =>
      obtain ⟨results, off', s1⟩ := r
      rw [hb] at h
      obtain ⟨msgs, hsent, hall⟩ := ih _ _ _ h
      refine ⟨{ assigned := (collectResults [] st.unassigned st.rateLimited results).1,
                unassigned := [], schedulingTimedOut := [], rateLimited := [] } :: msgs,
        by rw [hsent]; simp, List.Forall₂.cons ⟨rfl, rfl, rfl, ?_⟩ hall⟩
      have hres := tryAssignBatch_results _ _ _ _ _ _ _ _ _ _ _ _ hb
      simp only [(collectResults_buckets results [] st.unassigned st.rateLimited).1,
        List.nil_append]
      exact assigned_sublist batch results hres

theorem runPartition_cases (rl : rateLimiter) (picks : String → Nat → List Nat) (now : Int)
    (stepIdsToLabels : List (String × List GetDesiredLabelsRow))
    (stepRunIdsToRateLimits : List (String × List (String × Int)))
    (s s' : Scheduler) (actionId : String) (qis : List QueueItem) (msgs : List assignResults)
    (h : runPartition rl picks now stepIdsToLabels stepRunIdsToRateLimits s actionId qis
      = some (msgs, s')) :
    ∃ st : partitionState,
      runBatches rl picks now actionId stepIdsToLabels stepRunIdsToRateLimits 0
        { s := s, ringOffset := 0, unassigned := [], rateLimited := [], sent := [] }
        (subBatches now qis) = some st ∧
      msgs = st.sent ++ [{ assigned := [], unassigned := st.unassigned,
                           schedulingTimedOut := qis.filter (fun qi => isTimedOut now qi),
                           rateLimited := st.rateLimited }] ∧
      s' = st.s := by
  unfold runPartition at h
  simp only at h
  cases hb : runBatches rl picks now actionId stepIdsToLabels stepRunIdsToRateLimits 0
      { s := s, ringOffset := 0, unassigned := [], rateLimited := [], sent := [] }
      (BatchLinear 50 (qis.filter (fun qi => !isTimedOut now qi)).length
        (qis.filter (fun qi => !isTimedOut now qi))) with
  | none => rw [hb] at h; cases h
  | some st =>
    rw [hb] at h
    simp only [Option.some.injEq, Prod.mk.injEq] at h
    exact ⟨st, hb, h.1.symm, h.2.symm⟩

theorem subBatches_flatten (now : Int) (qis : List QueueItem) :
    (subBatches now qis).flatten = qis.filter (fun qi => !isTimedOut now qi) :=
  BatchLinear_flatten 50 (by decide) _ _ (Nat.le_refl _)

/-- C18: the messages of a partition are the messages of its sub-batches, one
per sub-batch and in order, followed by one final message.  A sub-batch
message carries only an assigned bucket, made of items of that sub-batch; the
final message has an empty assigned bucket and carries the unassigned, the
timed-out and the rate-limited items of the whole partition; together the
messages report every item of the partition that is not timed out exactly
once. -/
theorem partition_messages (rl : rateLimiter) (picks : String → Nat → List Nat) (now : Int)
    (stepIdsToLabels : List (String × List GetDesiredLabelsRow))
    (stepRunIdsToRateLimits : List (String × List (String × Int)))
    (s s' : Scheduler) (actionId : String) (qis : List QueueItem) (msgs : List assignResults)
    (h : runPartition rl picks now stepIdsToLabels stepRunIdsToRateLimits s actionId qis
      = some (msgs, s')) :
    ∃ (sent : List assignResults) (final : assignResults),
      msgs = sent ++ [final] ∧ final.assigned = [] ∧
      final.schedulingTimedOut = qis.filter (fun qi => isTimedOut now qi) ∧
      List.Forall₂ batchMessage (subBatches now qis) sent ∧
      (reportedItems sent ++ final.rateLimited.map (fun x => some x.qi) ++ final.unassigned).Perm
        ((qis.filter (fun qi => !isTimedOut now qi)).map some) := by
  obtain ⟨st, hb, hmsgs, _⟩ := runPartition_cases rl picks now stepIdsToLabels
    stepRunIdsToRateLimits s s' actionId qis msgs h
  obtain ⟨sent, hsent, hall⟩ := runBatches_sent rl picks now actionId stepIdsToLabels
    stepRunIdsToRateLimits _ _ _ _ hb
  have hitems := runBatches_items rl picks now actionId stepIdsToLabels stepRunIdsToRateLimits
    _ _ _ _ hb
  simp only [List.nil_append] at hsent
  refine ⟨sent, _, hmsgs.trans (by rw [hsent]), rfl, rfl, hall, ?_⟩
  rw [subBatches_flatten] at hitems
  rw [← hsent]
  simpa [reportedItems] using hitems

theorem partition_messages_witness :
    mixedOut.map (fun m => (m.assigned.map (fun a => a.AckId), m.unassigned.length,
        m.schedulingTimedOut.length, m.rateLimited.length)) = [([1, 2, 3], 0, 0, 0), ([], 1, 1, 0)] ∧
      ∃ (sent : List assignResults) (final : assignResults),
        mixedOut = sent ++ [final] ∧ final.assigned = [] ∧
        final.schedulingTimedOut = mixedItems.filter (fun qi => isTimedOut 101 qi) ∧
        List.Forall₂ batchMessage (subBatches 101 mixedItems) sent ∧
        (reportedItems sent ++ final.rateLimited.map (fun x => some x.qi) ++ final.unassigned).Perm
          ((mixedItems.filter (fun qi => !isTimedOut 101 qi)).map some) :=
  ⟨by decide,
   partition_messages rlAdmitAll (fun _ _ => []) 101 [] [] schedBasic mixedSched "A" mixedItems
     mixedOut (by decide)⟩

/-! ## Timed-out items -/

theorem forall₂_mem_right {α β : Type} {R : α → β → Prop} :
    ∀ {l₁ : List α} {l₂ : List β}, List.Forall₂ R l₁ l₂ → ∀ b ∈ l₂, ∃ a ∈ l₁, R a b := by
  intro l₁ l₂ h
  induction h with
  | nil => intro b hb; cases hb
  | cons hr _ ih =>
    intro b hb
    rcases List.mem_cons.1 hb with hb | hb
    · subst hb
      exact ⟨_, List.mem_cons_self _ _, hr⟩
    · obtain ⟨a, ha, hab⟩ := ih b hb
      exact ⟨a, List.mem_cons_of_mem _ ha, hab⟩

theorem subBatches_filter (now : Int) (qis : List QueueItem) :
    subBatches now (qis.filter (fun qi => !isTimedOut now qi)) = subBatches now qis := by
  simp [subBatches, List.filter_filter]

theorem clearTimedOut_of_nil (m : assignResults) (h : m.schedulingTimedOut = []) :
    clearTimedOut m = m := by
  cases m
  simp only at h
  simp [clearTimedOut, h]

theorem runPartition_timedOut (rl : rateLimiter) (picks : String → Nat → List Nat) (now : Int)
    (stepIdsToLabels : List (String × List GetDesiredLabelsRow))
    (stepRunIdsToRateLimits : List (String × List (String × Int)))
    (s s' : Scheduler) (actionId : String) (qis : List QueueItem) (msgs : List assignResults)
    (h : runPartition rl picks now stepIdsToLabels stepRunIdsToRateLimits s actionId qis
      = some (msgs, s')) :
    msgs.flatMap (fun m => m.schedulingTimedOut) = qis.filter (fun qi => isTimedOut now qi) ∧
    (∀ m ∈ msgs, ∀ x ∈ otherItems m,
      ∃ qi, x = some qi ∧ qi ∈ qis ∧ isTimedOut now qi = false) ∧
    runPartition rl picks now stepIdsToLabels stepRunIdsToRateLimits s actionId
        (qis.filter (fun qi => !isTimedOut now qi)) = some (msgs.map clearTimedOut, s') := by
  obtain ⟨st, hb, hmsgs, hs'⟩ := runPartition_cases rl picks now stepIdsToLabels
    stepRunIdsToRateLimits s s' actionId qis msgs h
  obtain ⟨sent, hsent, hall⟩ := runBatches_sent rl picks now actionId stepIdsToLabels
    stepRunIdsToRateLimits _ _ _ _ hb
  have hitems := runBatches_items rl picks now actionId stepIdsToLabels stepRunIdsToRateLimits
    _ _ _ _ hb
  simp only [List.nil_append] at hsent
  rw [subBatches_flatten] at hitems
  have hsentT : ∀ m ∈ st.sent, m.schedulingTimedOut = [] := by
    intro m hm
    rw [hsent] at hm
    obtain ⟨_, _, hbm⟩ := forall₂_mem_right hall m hm
    exact hbm.2.1
  have hbatched : ∀ x ∈ (qis.filter (fun qi => !isTimedOut now qi)).map some,
      ∃ qi, x = some qi ∧ qi ∈ qis ∧ isTimedOut now qi = false := by
    intro x hx
    obtain ⟨qi, hqi, rfl⟩ := List.mem_map.1 hx
    have := List.mem_filter.1 hqi
    exact ⟨qi, rfl, this.1, by simpa using this.2⟩
  refine ⟨?_, ?_, ?_⟩
  · rw [hmsgs, List.flatMap_append]
    have : st.sent.flatMap (fun m => m.schedulingTimedOut) = [] := by
      rw [List.flatMap_eq_nil_iff]
      exact hsentT
    simp [this]
  · intro m hm x hx
    apply hbatched
    refine (List.Perm.mem_iff hitems).1 ?_
    rw [hmsgs] at hm
    rcases List.mem_append.1 hm with hm | hm
    · have hbm := forall₂_mem_right hall m (hsent ▸ hm)
      obtain ⟨_, _, h1, _, h3, _⟩ := hbm
      simp only [otherItems, h1, h3, List.map_nil, List.append_nil] at hx
      simp only [reportedItems, List.nil_append, List.mem_append, List.mem_flatMap]
      exact Or.inl (Or.inl ⟨m, hm, by simp [messageItems, hx]⟩)
    · simp only [List.mem_singleton] at hm
      subst hm
      simp only [otherItems, List.map_nil, List.nil_append, List.mem_append] at hx
      simp only [List.mem_append]
      rcases hx with hx | hx
      · exact Or.inl (Or.inr hx)
      · exact Or.inr hx
  · unfold runPartition
    simp only
    have hb' := hb
    rw [← subBatches_filter, subBatches] at hb'
    rw [hb']
    have hnil : (qis.filter (fun qi => !isTimedOut now qi)).filter (fun qi => isTimedOut now qi)
        = [] := by
      rw [List.filter_filter, List.filter_eq_nil_iff]
      intro a _
      cases isTimedOut now a <;> simp
    have hmap : st.sent.map clearTimedOut = st.sent :=
      (List.map_congr_left (fun m hm => clearTimedOut_of_nil m (hsentT m hm))).trans
        (List.map_id' _)
    rw [hnil, hmsgs, hs', List.map_append, hmap]
    rfl

theorem runPartition_strip (rl : rateLimiter) (picks : String → Nat → List Nat) (now : Int)
    (stepIdsToLabels : List (String × List GetDesiredLabelsRow))
    (stepRunIdsToRateLimits : List (String × List (String × Int)))
    (s : Scheduler) (actionId : String) (qis : List QueueItem) :
    runPartition rl picks now stepIdsToLabels stepRunIdsToRateLimits s actionId
        (qis.filter (fun qi => !isTimedOut now qi)) =
      (runPartition rl picks now stepIdsToLabels stepRunIdsToRateLimits s actionId qis).map
        (fun r => (r.1.map clearTimedOut, r.2)) := by
  cases h : runPartition rl picks now stepIdsToLabels stepRunIdsToRateLimits s actionId qis with
  | some r =>
    obtain ⟨msgs, s'⟩ := r
    exact (runPartition_timedOut rl picks now stepIdsToLabels stepRunIdsToRateLimits s s' actionId
      qis msgs h).2.2
  | none =>
    unfold runPartition at h ⊢
    simp only at h ⊢
    rw [List.filter_filter]
    simp only [Bool.and_self]
    cases hb : runBatches rl picks now actionId stepIdsToLabels stepRunIdsToRateLimits 0
        { s := s, ringOffset := 0, unassigned := [], rateLimited := [], sent := [] }
        (BatchLinear 50 (qis.filter (fun qi => !isTimedOut now qi)).length
          (qis.filter (fun qi => !isTimedOut now qi))) with
    | none => rfl
    | some st => rw [hb] at h; cases h

theorem runPartitions_strip (rl : rateLimiter) (picks : String → Nat → List Nat) (now : Int)
    (stepIdsToLabels : List (String × List GetDesiredLabelsRow))
    (stepRunIdsToRateLimits : List (String × List (String × Int))) :
    ∀ (parts : List (String × List QueueItem)) (s : Scheduler),
      runPartitions rl picks now stepIdsToLabels stepRunIdsToRateLimits s
          (stripTimedOut now parts) =
        (runPartitions rl picks now stepIdsToLabels stepRunIdsToRateLimits s parts).map
          (fun r => (r.1.map clearTimedOut, r.2)) := by
  intro parts
  induction parts with
  | nil => intro s; rfl
  | cons e parts ih =>
    intro s
    obtain ⟨actionId, qis⟩ := e
    simp only [stripTimedOut, List.map_cons, runPartitions]
    rw [runPartition_strip]
    cases runPartition rl picks now stepIdsToLabels stepRunIdsToRateLimits s actionId qis with
    | none => rfl
    | some r =>
      obtain ⟨msgs, s'⟩ := r
      have ih' := ih s'
      simp only [stripTimedOut] at ih'
      simp only [Option.map_some', ih']
      cases runPartitions rl picks now stepIdsToLabels stepRunIdsToRateLimits s' parts with
      | none => rfl
      | some r' => simp

theorem runPartitions_timedOut (rl : rateLimiter) (picks : String → Nat → List Nat) (now : Int)
    (stepIdsToLabels : List (String × List GetDesiredLabelsRow))
    (stepRunIdsToRateLimits : List (String × List (String × Int))) :
    ∀ (parts : List (String × List QueueItem)) (s s' : Scheduler) (out : List assignResults),
      runPartitions rl picks now stepIdsToLabels stepRunIdsToRateLimits s parts = some (out, s') →
      out.flatMap (fun m => m.schedulingTimedOut) =
          (parts.flatMap (fun e => e.2)).filter (fun qi => isTimedOut now qi) ∧
        ∀ m ∈ out, ∀ x ∈ otherItems m,
          ∃ qi, x = some qi ∧ qi ∈ parts.flatMap (fun e => e.2) ∧ isTimedOut now qi = false := by
  intro parts
  induction parts with
  | nil =>
    intro s s' out h
    simp only [runPartitions, Option.some.injEq, Prod.mk.injEq] at h
    obtain ⟨rfl, _⟩ := h
    simp
  | cons e parts ih =>
    intro s s' out h
    obtain ⟨actionId, qis⟩ := e
    unfold runPartitions at h
    cases hp : runPartition rl picks now stepIdsToLabels stepRunIdsToRateLimits s actionId qis with
    | none => rw [hp] at h; cases h
    | some r =>
      obtain ⟨msgs, s1⟩ := r
      rw [hp] at h
      simp only at h
      cases hr : runPartitions rl picks now stepIdsToLabels stepRunIdsToRateLimits s1 parts with
      | none => rw [hr] at h; cases h
      | some r' =>
        obtain ⟨msgs', s2⟩ := r'
        rw [hr] at h
        simp only [Option.some.injEq, Prod.mk.injEq] at h
        obtain ⟨rfl, _⟩ := h
        obtain ⟨h1, h2, _⟩ := runPartition_timedOut rl picks now stepIdsToLabels
          stepRunIdsToRateLimits s s1 actionId qis msgs hp
        obtain ⟨h3, h4⟩ := ih s1 s2 msgs' hr
        refine ⟨by simp [List.flatMap_append, h1, h3], ?_⟩
        intro m hm x hx
        rcases List.mem_append.1 hm with hm | hm
        · obtain ⟨qi, hq1, hq2, hq3⟩ := h2 m hm x hx
          exact ⟨qi, hq1, by simp [hq2], hq3⟩
        · obtain ⟨qi, hq1, hq2, hq3⟩ := h4 m hm x hx
          exact ⟨qi, hq1, by
            simp only [List.flatMap_cons, List.mem_append]
            exact Or.inr hq2, hq3⟩

/-- C14: a `tryAssign` call behaves on the scheduler as the same partitions
without their timed-out items: it panics or returns alike, leaves the same
scheduler (trace of rate-limiter calls, arena, unacked registry, ack counter)
and sends the same messages apart from the timed-out bucket, so no item that
is timed out reaches `tryAssignBatch`.  When the call returns, the timed-out
buckets hold exactly the timed-out items of the input and no item of an
assigned, rate-limited or unassigned bucket is timed out. -/
theorem timed_out_items_are_only_reported (s : Scheduler) (rl : rateLimiter)
    (picks : String → Nat → List Nat) (now : Int) (qis : List QueueItem)
    (stepIdsToLabels : List (String × List GetDesiredLabelsRow))
    (stepRunIdsToRateLimits : List (String × List (String × Int))) :
    runPartitions rl picks now stepIdsToLabels stepRunIdsToRateLimits s
        (stripTimedOut now (groupByAction [] qis)) =
      (s.tryAssign rl picks now qis stepIdsToLabels stepRunIdsToRateLimits).map
        (fun x => (x.1.map clearTimedOut, x.2)) ∧
    (∀ e ∈ stripTimedOut now (groupByAction [] qis), ∀ qi ∈ e.2, isTimedOut now qi = false) ∧
    ∀ (out : List assignResults) (s' : Scheduler),
      s.tryAssign rl picks now qis stepIdsToLabels stepRunIdsToRateLimits = some (out, s') →
      (out.flatMap (fun m => m.schedulingTimedOut)).Perm
          (qis.filter (fun qi => isTimedOut now qi)) ∧
        ∀ m ∈ out, ∀ x ∈ otherItems m,
          ∃ qi, x = some qi ∧ qi ∈ qis ∧ isTimedOut now qi = false := by
  have hgroup : ((groupByAction [] qis).flatMap (fun e => e.2)).Perm qis := by
    simpa using groupByAction_flatMap qis []
  refine ⟨runPartitions_strip rl picks now stepIdsToLabels stepRunIdsToRateLimits _ s, ?_, ?_⟩
  · intro e he qi hqi
    simp only [stripTimedOut, List.mem_map] at he
    obtain ⟨e', _, rfl⟩ := he
    simpa using (List.mem_filter.1 hqi).2
  · intro out s' h
    obtain ⟨h1, h2⟩ := runPartitions_timedOut rl picks now stepIdsToLabels stepRunIdsToRateLimits
      _ s s' out h
    refine ⟨h1 ▸ hgroup.filter _, ?_⟩
    intro m hm x hx
    obtain ⟨qi, hq1, hq2, hq3⟩ := h2 m hm x hx
    exact ⟨qi, hq1, (List.Perm.mem_iff hgroup).1 hq2, hq3⟩

theorem timed_out_items_are_only_reported_witness :
    mixedOut.flatMap (fun m => m.schedulingTimedOut) = [lateItem] ∧
      mixedSched.assignedCount = 3 ∧ mixedSched.trace = [] ∧
      (mixedOut.flatMap (fun m => m.schedulingTimedOut)).Perm
        (mixedItems.filter (fun qi => isTimedOut 101 qi)) ∧
      ∀ m ∈ mixedOut, ∀ x ∈ otherItems m,
        ∃ qi, x = some qi ∧ qi ∈ mixedItems ∧ isTimedOut 101 qi = false :=
  ⟨by decide, by decide, by decide,
   (timed_out_items_are_only_reported schedBasic rlAdmitAll (fun _ _ => []) 101 mixedItems [] []).2.2
     mixedOut mixedSched (by decide)⟩

/-! ## Rate-limited items -/

theorem failedUses_append (a b : List event) :
    failedUses (a ++ b) = failedUses a ++ failedUses b := by
  simp [failedUses, List.filterMap_append]

theorem checkRateLimits_trace (rl : rateLimiter) (m : List (String × List (String × Int))) :
    ∀ (qis : List QueueItem) (trace : List event),
      ∃ uses, (checkRateLimits rl m trace qis).2 = trace ++ uses ∧
        failedUses uses =
          ((checkRateLimits rl m trace qis).1.filterMap (fun c => c.1.rateLimitResult)).map
            (fun x => x.qi.StepRunId) ∧
        List.Forall₂
          (fun qi c => ∀ x, c.1.rateLimitResult = some x →
            x.qi = qi ∧ x.rateLimitResult.succeeded = false)
          qis (checkRateLimits rl m trace qis).1 := by
  intro qis
  induction qis with
  | nil => intro trace; exact ⟨[], by simp [checkRateLimits], by simp [checkRateLimits, failedUses],
      by simp [checkRateLimits]⟩
  | cons qi qis ih =>
    intro trace
    unfold checkRateLimits
    by_cases hlen : (mapGetList m qi.StepRunId).length > 0
    · simp only [hlen, if_true]
      obtain ⟨uses, h1, h2, h3⟩ :=
        ih (rl.use trace qi.StepRunId (mapGetList m qi.StepRunId)).2
      cases hok : rl.admits trace qi.StepRunId (mapGetList m qi.StepRunId) with
      | false =>
        have hs : (rl.use trace qi.StepRunId (mapGetList m qi.StepRunId)).1.succeeded = false := by
          simp [rateLimiter.use, hok]
        have ht : (rl.use trace qi.StepRunId (mapGetList m qi.StepRunId)).2 =
            trace ++ [event.rlUse qi.StepRunId (mapGetList m qi.StepRunId) false] := by
          simp [rateLimiter.use, hok]
        simp only [hs, Bool.not_false, if_true]
        refine ⟨event.rlUse qi.StepRunId (mapGetList m qi.StepRunId) false :: uses, ?_, ?_, ?_⟩
        · rw [h1, ht]; simp
        · have : failedUses (event.rlUse qi.StepRunId (mapGetList m qi.StepRunId) false :: uses)
              = qi.StepRunId :: failedUses uses := by
            simp [failedUses]
          rw [this, h2]
          simp
        · refine List.Forall₂.cons ?_ h3
          intro x hx
          simp only [Option.some.injEq] at hx
          subst hx
          exact ⟨rfl, hs⟩
      | true =>
        have hs : (rl.use trace qi.StepRunId (mapGetList m qi.StepRunId)).1.succeeded = true := by
          simp [rateLimiter.use, hok]
        have ht : (rl.use trace qi.StepRunId (mapGetList m qi.StepRunId)).2 =
            trace ++ [event.rlUse qi.StepRunId (mapGetList m qi.StepRunId) true] := by
          simp [rateLimiter.use, hok]
        simp only [hs, Bool.not_true, Bool.false_eq_true, if_false]
        refine ⟨event.rlUse qi.StepRunId (mapGetList m qi.StepRunId) true :: uses, ?_, ?_, ?_⟩
        · rw [h1, ht]; simp
        · have : failedUses (event.rlUse qi.StepRunId (mapGetList m qi.StepRunId) true :: uses)
              = failedUses uses := by
            simp [failedUses]
          rw [this, h2]
          simp [assignSingleResult.zero]
        · refine List.Forall₂.cons ?_ h3
          intro x hx
          simp [assignSingleResult.zero] at hx
    · simp only [hlen, if_false]
      obtain ⟨uses, h1, h2, h3⟩ := ih trace
      refine ⟨uses, h1, ?_, ?_⟩
      · rw [h2]
        simp [assignSingleResult.zero]
      · refine List.Forall₂.cons ?_ h3
        intro x hx
        simp [assignSingleResult.zero] at hx

theorem mem_mapSet_self {κ α : Type} [DecidableEq κ] (m : List (κ × α)) (k : κ) (v : α) :
    (k, v) ∈ mapSet m k v := by
  induction m with
  | nil => simp [mapSet]
  | cons e m ih =>
    obtain ⟨k', v'⟩ := e
    by_cases h : k' = k
    · simp [mapSet, h]
    · simp only [mapSet, h, if_false, List.mem_cons]
      exact Or.inr ih

theorem mem_mapSet_of_ne {κ α : Type} [DecidableEq κ] (m : List (κ × α)) (k : κ) (v : α)
    (e : κ × α) (he : e ∈ m) (hne : e.1 ≠ k) : e ∈ mapSet m k v := by
  induction m with
  | nil => cases he
  | cons e' m ih =>
    obtain ⟨k', v'⟩ := e'
    by_cases h : k' = k
    · simp only [mapSet, h, if_true, List.mem_cons]
      rcases List.mem_cons.1 he with he | he
      · subst he
        exact absurd h hne
      · exact Or.inr he
    · simp only [mapSet, h, if_false, List.mem_cons]
      rcases List.mem_cons.1 he with he | he
      · exact Or.inl he
      · exact Or.inr (ih he)

theorem runTasks_account (now : Int) (cand : List Nat)
    (stepIdsToLabels : List (String × List GetDesiredLabelsRow)) :
    ∀ (ts : List assignTask) (s s' : Scheduler) (res res' : List assignSingleResult),
      (ts.map (fun t => t.i)).Nodup →
      (∀ t ∈ ts, ∃ r, res[t.i]? = some r ∧ r.succeeded = false) →
      runTasks now cand stepIdsToLabels s res ts = some (res', s') →
      s'.trace = s.trace ∧
      s'.assignedCount + (List.countP (fun r => r.succeeded) res : Int) =
        s.assignedCount + (List.countP (fun r => r.succeeded) res' : Int) ∧
      s.assignedCount ≤ s'.assignedCount ∧
      (∀ e ∈ s.unackedSlots, e.1 ≤ s.assignedCount → e ∈ s'.unackedSlots) ∧
      (∀ e ∈ s'.unackedSlots, e ∈ s.unackedSlots ∨
        (s.assignedCount < e.1 ∧
          ∃ t ∈ ts, ∃ r, res'[t.i]? = some r ∧ r.succeeded = true ∧ r.ackId = e.1)) ∧
      (∀ p : Nat, s'.heap[p]? ≠ s.heap[p]? →
        ∃ e ∈ s'.unackedSlots, e.2 = p ∧
          ∃ t ∈ ts, ∃ r, res'[t.i]? = some r ∧ r.succeeded = true ∧ r.ackId = e.1) := by
  intro ts
  induction ts with
  | nil =>
    intro s s' res res' _ _ h
    simp only [runTasks, Option.some.injEq, Prod.mk.injEq] at h
    obtain ⟨rfl, rfl⟩ := h
    exact ⟨rfl, rfl, le_refl _, fun e he _ => he, fun e he => Or.inl he,
      fun p hp => absurd rfl hp⟩
  | cons t ts ih =>
    intro s s' res res' hnodup hpend h
    simp only [List.map_cons, List.nodup_cons] at hnodup
    obtain ⟨hti, hnodup'⟩ := hnodup
    obtain ⟨r0, hr0, hr0s⟩ := hpend t (List.mem_cons_self _ _)
    have hlt0 : t.i < res.length := by
      rcases Nat.lt_or_ge t.i res.length with hlt | hge
      · exact hlt
      · rw [List.getElem?_eq_none hge] at hr0; cases hr0
    unfold runTasks at h
    split at h
    · cases h
    · rename_i singleRes s1 hsing
      have hpend' : ∀ t' ∈ ts, ∃ r,
          (res.set t.i { singleRes with qi := some t.qi })[t'.i]? = some r ∧ r.succeeded = false := by
        intro t' ht'
        have hne : t.i ≠ t'.i := fun heq => hti (heq ▸ List.mem_map_of_mem (fun t => t.i) ht')
        rw [List.getElem?_set_ne hne]
        exact hpend t' (List.mem_cons_of_mem _ ht')
      obtain ⟨htr, hcount, hle, hkeep, hnew, hheap⟩ := ih s1 s' _ res' hnodup' hpend' h
      obtain ⟨_, hframe, _⟩ := runTasks_results now cand stepIdsToLabels ts s1 s' _ res' hnodup'
        (fun t' ht' => by
          obtain ⟨r, hr, _⟩ := hpend' t' ht'
          rcases Nat.lt_or_ge t'.i (res.set t.i { singleRes with qi := some t.qi }).length with
            hlt | hge
          · exact hlt
          · rw [List.getElem?_eq_none hge] at hr; cases hr) h
      have hhead : res'[t.i]? = some { singleRes with qi := some t.qi } := by
        rw [hframe t.i hti]
        simp [List.getElem?_set, hlt0]
      have hset := countP_set (fun r : assignSingleResult => r.succeeded)
        { singleRes with qi := some t.qi } r0 res t.i hr0
      have hset' : List.countP (fun r : assignSingleResult => r.succeeded)
          (res.set t.i { singleRes with qi := some t.qi }) =
            List.countP (fun r : assignSingleResult => r.succeeded) res +
              (if singleRes.succeeded = true then 1 else 0) := by
        simpa [hr0s] using hset
      rw [hset'] at hcount
      rcases tryAssignSingleton_cases _ _ _ _ _ _ _ _ _ _ hsing with ⟨hr, hs1, _⟩ |
        ⟨p, sl, _, hp, hact, hr, hs1⟩
      · subst hs1
        have hsucc : singleRes.succeeded = false := by rw [hr]; rfl
        simp only [hsucc, Bool.false_eq_true, if_false, Nat.add_zero] at hcount
        exact ⟨htr, hcount, hle, hkeep,
          fun e he => (hnew e he).imp id
            (fun ⟨h1, t', ht', hx⟩ => ⟨h1, t', List.mem_cons_of_mem _ ht', hx⟩),
          fun q hq =>
            let ⟨e, he, he2, t', ht', hx⟩ := hheap q hq
            ⟨e, he, he2, t', List.mem_cons_of_mem _ ht', hx⟩⟩
      · have hsucc : singleRes.succeeded = true := by rw [hr]
        have hack : singleRes.ackId = s.assignedCount + 1 := by rw [hr]
        simp only [hsucc, if_true] at hcount
        have hc1 : s1.assignedCount = s.assignedCount + 1 := by rw [hs1]
        have hu1 : s1.unackedSlots = mapSet s.unackedSlots (s.assignedCount + 1) p := by rw [hs1]
        have hh1 : s1.heap = s.heap.set p
            { sl with usedOnce := true, rateLimitAcks := [t.rlAck], rateLimitNacks := [t.rlNack] } := by
          rw [hs1]
        have ht1 : s1.trace = s.trace := by rw [hs1]
        have hentry : ((s.assignedCount + 1, p) : Int × Nat) ∈ s'.unackedSlots := by
          apply hkeep
          · rw [hu1]; exact mem_mapSet_self _ _ _
          · rw [hc1]
        refine ⟨htr.trans ht1, ?_, by omega, ?_, ?_, ?_⟩
        · push_cast at hcount
          omega
        · intro e he hle'
          apply hkeep
          · rw [hu1]
            exact mem_mapSet_of_ne _ _ _ e he (by omega)
          · omega
        · intro e he
          rcases hnew e he with h1 | ⟨h1, t', ht', hx⟩
          · rw [hu1] at h1
            rcases mem_mapSet _ _ _ _ h1 with h2 | h2
            · right
              subst h2
              exact ⟨by simp, t, List.mem_cons_self _ _, _, hhead, hsucc, hack⟩
            · exact Or.inl h2
          · exact Or.inr ⟨by omega, t', List.mem_cons_of_mem _ ht', hx⟩
        · intro q hq
          by_cases hq1 : s'.heap[q]? = s1.heap[q]?
          · have hqp : p = q := by
              by_contra hne
              apply hq
              rw [hq1, hh1, List.getElem?_set_ne hne]
            subst hqp
            exact ⟨_, hentry, rfl, t, List.mem_cons_self _ _, _, hhead, hsucc, hack⟩
          · obtain ⟨e, he, he2, t', ht', hx⟩ := hheap q hq1
            exact ⟨e, he, he2, t', List.mem_cons_of_mem _ ht', hx⟩

theorem tryAssignBatch_account (s s' : Scheduler) (rl : rateLimiter) (picks : List Nat) (now : Int)
    (actionId : String) (qis : List QueueItem) (ringOffset : Nat)
    (stepIdsToLabels : List (String × List GetDesiredLabelsRow))
    (stepRunIdsToRateLimits : List (String × List (String × Int)))
    (res : List assignSingleResult) (off' : Nat)
    (h : s.tryAssignBatch rl picks now actionId qis ringOffset stepIdsToLabels
      stepRunIdsToRateLimits = some (res, off', s')) :
    (∃ uses, s'.trace = s.trace ++ uses ∧
      failedUses uses = (res.filterMap (fun r => r.rateLimitResult)).map (fun x => x.qi.StepRunId)) ∧
    List.Forall₂ rateLimitedFor qis res ∧
    s'.assignedCount = s.assignedCount + (List.countP (fun r => r.succeeded) res : Int) ∧
    (∀ e ∈ s'.unackedSlots, e ∈ s.unackedSlots ∨
      ∃ r ∈ res, r.succeeded = true ∧ r.rateLimitResult = none ∧ r.ackId = e.1) ∧
    (∀ p : Nat, s'.heap[p]? ≠ s.heap[p]? →
      ∃ e ∈ s'.unackedSlots, e.2 = p ∧
        ∃ r ∈ res, r.succeeded = true ∧ r.rateLimitResult = none ∧ r.ackId = e.1) := by
  have hinit := checkRateLimits_init rl stepRunIdsToRateLimits qis s.trace
  obtain ⟨uses, hu1, hu2, hu3⟩ := checkRateLimits_trace rl stepRunIdsToRateLimits qis s.trace
  unfold Scheduler.tryAssignBatch at h
  simp only at h
  generalize checkRateLimits rl stepRunIdsToRateLimits s.trace qis = checked at h hinit hu1 hu2 hu3
  have hlen : qis.length = checked.1.length := hinit.length_eq
  have hfm : ((checked.1.map (fun c => c.1)).filterMap (fun r => r.rateLimitResult)) =
      checked.1.filterMap (fun c => c.1.rateLimitResult) := by
    simp [List.filterMap_map, Function.comp_def]
  have hzero : List.countP (fun r : assignSingleResult => r.succeeded)
      (checked.1.map (fun c => c.1)) = 0 := by
    rw [List.countP_eq_zero]
    intro r hr
    obtain ⟨c, hc, rfl⟩ := List.mem_map.1 hr
    obtain ⟨qi, _, hq⟩ := forall₂_mem_right hinit c hc
    simp [hq.2.1]
  have hpoint : ∀ (i : Nat) (qi : QueueItem) (c : assignSingleResult × Option closure × Option closure),
      qis[i]? = some qi → checked.1[i]? = some c → rateLimitedFor qi c.1 := by
    intro i qi c hqi hc x hx
    have h1 := forall₂_getElem? _ _ _ hu3 i qi c hqi hc x hx
    have h2 := forall₂_getElem? _ _ _ hinit i qi c hqi hc
    exact ⟨h1.1, h1.2, h2.2.1⟩
  split at h
  · simp only [Option.some.injEq, Prod.mk.injEq] at h
    obtain ⟨hres, _, hs'⟩ := h
    subst hs'
    refine ⟨⟨uses, hu1, ?_⟩, ?_, ?_, fun e he => Or.inl he, fun p hp => absurd rfl hp⟩
    · rw [hu2, ← hres]
      simp [List.filterMap_map, Function.comp_def]
    · rw [← hres, List.map_map]
      apply forall₂_of_getElem?
      · simp [hlen]
      · intro i qi r hqi hr x hx
        rw [List.getElem?_map] at hr
        cases hc : checked.1[i]? with
        | none => rw [hc] at hr; cases hr
        | some c =>
          rw [hc] at hr
          simp only [Option.map_some', Function.comp_apply, Option.some.injEq] at hr
          subst hr
          exact hpoint i qi c hqi hc x hx
    · rw [← hres]
      have : List.countP (fun r : assignSingleResult => r.succeeded)
          ((checked.1.map (fun c => c.1)).map (fun r => { r with noSlots := true })) = 0 := by
        rw [List.countP_eq_zero]
        intro r hr
        obtain ⟨r', hr', rfl⟩ := List.mem_map.1 hr
        have := (List.countP_eq_zero.1 hzero) r' hr'
        simpa using this
      rw [this]
      simp
  · rename_i act hact
    split at h
    · cases h
    · split at h
      · cases h
      · rename_i res1 s2 hrun
        simp only [Option.some.injEq, Prod.mk.injEq] at h
        obtain ⟨hres, _, hs'⟩ := h
        subst hres hs'
        obtain ⟨ht1, ht2, ht3⟩ := spawnTasks_spec act.slots.length qis checked.1 hlen 0 ringOffset
        generalize spawnTasks act.slots.length 0 ringOffset qis checked.1 = spawned
          at hrun ht1 ht2 ht3
        have hperm := interleave_perm spawned.1.length picks spawned.1 rfl
        have hnd : ((interleave spawned.1.length picks spawned.1).map (fun t => t.i)).Nodup :=
          (hperm.map _).nodup_iff.mpr ht2
        have htask : ∀ t ∈ interleave spawned.1.length picks spawned.1,
            ∃ c, checked.1[t.i]? = some c ∧ c.1.rateLimitResult = none ∧ c.1.succeeded = false := by
          intro t ht
          obtain ⟨_, hq, c, hc, hn⟩ := ht1 t (hperm.mem_iff.mp ht)
          rw [Nat.sub_zero] at hq hc
          exact ⟨c, hc, hn, (forall₂_getElem? _ _ _ hinit t.i t.qi c hq hc).2.1⟩
        have hpend : ∀ t ∈ interleave spawned.1.length picks spawned.1,
            ∃ r, (checked.1.map (fun c => c.1))[t.i]? = some r ∧ r.succeeded = false := by
          intro t ht
          obtain ⟨c, hc, _, hs⟩ := htask t ht
          exact ⟨c.1, by simp [List.getElem?_map, hc], hs⟩
        obtain ⟨htr, hcount, _, _, hnew, hheap⟩ := runTasks_account now act.slots stepIdsToLabels
          _ _ _ _ _ hnd hpend hrun
        obtain ⟨hl, hframe, hd⟩ := runTasks_results now act.slots stepIdsToLabels _ _ _ _ _ hnd
          (fun t ht => by
            obtain ⟨r, hr, _⟩ := hpend t ht
            exact (List.getElem?_eq_some_iff.mp hr).1) hrun
        have hattr : ∀ t ∈ interleave spawned.1.length picks spawned.1, ∀ r : assignSingleResult,
            res1[t.i]? = some r → r ∈ res1 ∧ r.rateLimitResult = none := by
          intro t ht r hr
          obtain ⟨r', hr', hn, _⟩ := hd t ht
          rw [hr] at hr'
          cases hr'
          exact ⟨List.getElem?_mem hr, hn⟩
        have hmap : res1.map (fun r => r.rateLimitResult) =
            (checked.1.map (fun c => c.1)).map (fun r => r.rateLimitResult) := by
          apply List.ext_getElem?
          intro j
          by_cases hj : j ∈ (interleave spawned.1.length picks spawned.1).map (fun t => t.i)
          · obtain ⟨t, ht, rfl⟩ := List.mem_map.1 hj
            obtain ⟨r', hr', hn, _⟩ := hd t ht
            obtain ⟨c, hc, hcn, _⟩ := htask t ht
            simp [List.getElem?_map, hr', hn, hc, hcn]
          · simp only [List.getElem?_map, hframe j hj]
        have hfm' : res1.filterMap (fun r => r.rateLimitResult) =
            checked.1.filterMap (fun c => c.1.rateLimitResult) := by
          have := congrArg (List.filterMap id) hmap
          simpa [List.filterMap_map, Function.comp_def] using this
        refine ⟨⟨uses, by rw [htr]; exact hu1, by rw [hu2, hfm']⟩, ?_, ?_, ?_, ?_⟩
        · apply forall₂_of_getElem?
          · rw [hl, List.length_map, hlen]
          · intro i qi r hqi hr x hx
            have hnot : i ∉ (interleave spawned.1.length picks spawned.1).map (fun t => t.i) := by
              intro hmem
              obtain ⟨t, ht, rfl⟩ := List.mem_map.1 hmem
              have := (hattr t ht r hr).2
              rw [hx] at this
              cases this
            rw [hframe i hnot, List.getElem?_map] at hr
            cases hc : checked.1[i]? with
            | none => rw [hc] at hr; cases hr
            | some c =>
              rw [hc] at hr
              simp only [Option.map_some', Option.some.injEq] at hr
              subst hr
              exact hpoint i qi c hqi hc x hx
        · rw [hzero] at hcount
          simp only [Nat.cast_zero, add_zero] at hcount
          exact hcount
        · intro e he
          rcases hnew e he with h1 | ⟨_, t, ht, r, hr, hrs, hra⟩
          · exact Or.inl h1
          · exact Or.inr ⟨r, (hattr t ht r hr).1, hrs, (hattr t ht r hr).2, hra⟩
        · intro p hp
          obtain ⟨e, he, he2, t, ht, r, hr, hrs, hra⟩ := hheap p hp
          exact ⟨e, he, he2, r, (hattr t ht r hr).1, hrs, (hattr t ht r hr).2, hra⟩

theorem filterMap_filter_of_imp {α β : Type} (p : α → Bool) (f : α → Option β) :
    ∀ l : List α, (∀ a ∈ l, f a ≠ none → p a = true) →
      (l.filter p).filterMap f = l.filterMap f := by
  intro l
  induction l with
  | nil => intro _; rfl
  | cons a l ih =>
    intro h
    have ih' := ih (fun b hb => h b (List.mem_cons_of_mem _ hb))
    cases hp : p a with
    | true => simp [List.filter_cons, hp, List.filterMap_cons, ih']
    | false =>
      have hf : f a = none := by
        by_contra hne
        have := h a (List.mem_cons_self _ _) hne
        rw [hp] at this
        cases this
      simp [List.filter_cons, hp, List.filterMap_cons, hf, ih']

theorem runBatches_rateLimited (rl : rateLimiter) (picks : String → Nat → List Nat) (now : Int)
    (actionId : String) (stepIdsToLabels : List (String × List GetDesiredLabelsRow))
    (stepRunIdsToRateLimits : List (String × List (String × Int))) :
    ∀ (batches : List (List QueueItem)) (b : Nat) (st st' : partitionState),
      runBatches rl picks now actionId stepIdsToLabels stepRunIdsToRateLimits b st batches
        = some st' →
      ∃ (uses : List event) (new : List scheduleRateLimitResult),
        st'.s.trace = st.s.trace ++ uses ∧ st'.rateLimited = st.rateLimited ++ new ∧
        failedUses uses = new.map (fun x => x.qi.StepRunId) ∧
        ∀ x ∈ new, x.rateLimitResult.succeeded = false ∧ x.qi ∈ batches.flatten := by
  intro batches
  induction batches with
  | nil =>
    intro b st st' h
    simp only [runBatches, Option.some.injEq] at h
    subst h
    exact ⟨[], [], by simp, by simp, by simp [failedUses], fun x hx => by cases hx⟩
  | cons batch rest ih =>
    intro b st st' h
    unfold runBatches at h
    cases hb : st.s.tryAssignBatch rl (picks actionId b) now actionId batch st.ringOffset
        stepIdsToLabels stepRunIdsToRateLimits with
    | none => rw [hb] at h; cases h
    | some r =>
      obtain ⟨results, off', s1⟩ := r
      rw [hb] at h
      obtain ⟨uses₂, new₂, ht2, hr2, hf2, hx2⟩ := ih _ _ _ h
      obtain ⟨⟨uses₁, ht1, hf1⟩, hall, _, _, _⟩ :=
        tryAssignBatch_account _ _ _ _ _ _ _ _ _ _ _ _ hb
      have hmarked : ∀ r ∈ results, ∀ x, r.rateLimitResult = some x →
          r.succeeded = false ∧ x.rateLimitResult.succeeded = false ∧ x.qi ∈ batch := by
        intro r hr x hx
        obtain ⟨qi, hqi, hq⟩ := forall₂_mem_right hall r hr
        obtain ⟨h1, h2, h3⟩ := hq x hx
        exact ⟨h3, h2, h1 ▸ hqi⟩
      have hbucket : (collectResults [] st.unassigned st.rateLimited results).2.2 =
          st.rateLimited ++ results.filterMap (fun r => r.rateLimitResult) := by
        rw [(collectResults_buckets results [] st.unassigned st.rateLimited).2,
          filterMap_filter_of_imp]
        intro r hr hne
        cases hx : r.rateLimitResult with
        | none => exact absurd hx hne
        | some x => simp [(hmarked r hr x hx).1]
      simp only at ht2 hr2
      refine ⟨uses₁ ++ uses₂, results.filterMap (fun r => r.rateLimitResult) ++ new₂, ?_, ?_, ?_, ?_⟩
      · rw [ht2, ht1, List.append_assoc]
      · rw [hr2, hbucket, List.append_assoc]
      · rw [failedUses_append, hf1, hf2, List.map_append]
      · intro x hx
        rcases List.mem_append.1 hx with hx | hx
        · obtain ⟨r, hr, hrx⟩ := List.mem_filterMap.1 hx
          obtain ⟨_, h2, h3⟩ := hmarked r hr x hrx
          exact ⟨h2, by simp [h3]⟩
        · obtain ⟨h2, h3⟩ := hx2 x hx
          exact ⟨h2, by
            simp only [List.flatten_cons, List.mem_append]
            exact Or.inr h3⟩

theorem runPartitions_rateLimited (rl : rateLimiter) (picks : String → Nat → List Nat) (now : Int)
    (stepIdsToLabels : List (String × List GetDesiredLabelsRow))
    (stepRunIdsToRateLimits : List (String × List (String × Int))) :
    ∀ (parts : List (String × List QueueItem)) (s s' : Scheduler) (out : List assignResults),
      runPartitions rl picks now stepIdsToLabels stepRunIdsToRateLimits s parts = some (out, s') →
      ∃ uses : List event, s'.trace = s.trace ++ uses ∧
        failedUses uses = (out.flatMap (fun m => m.rateLimited)).map (fun x => x.qi.StepRunId) ∧
        ∀ x ∈ out.flatMap (fun m => m.rateLimited),
          x.rateLimitResult.succeeded = false ∧ x.qi ∈ parts.flatMap (fun e => e.2) := by
  intro parts
  induction parts with
  | nil =>
    intro s s' out h
    simp only [runPartitions, Option.some.injEq, Prod.mk.injEq] at h
    obtain ⟨rfl, rfl⟩ := h
    exact ⟨[], by simp, by simp [failedUses], fun x hx => by simp at hx⟩
  | cons e parts ih =>
    intro s s' out h
    obtain ⟨actionId, qis⟩ := e
    unfold runPartitions at h
    cases hp : runPartition rl picks now stepIdsToLabels stepRunIdsToRateLimits s actionId qis with
    | none => rw [hp] at h; cases h
    | some r =>
      obtain ⟨msgs, s1⟩ := r
      rw [hp] at h
      simp only at h
      cases hr : runPartitions rl picks now stepIdsToLabels stepRunIdsToRateLimits s1 parts with
      | none => rw [hr] at h; cases h
      | some r' =>
        obtain ⟨msgs', s2⟩ := r'
        rw [hr] at h
        simp only [Option.some.injEq, Prod.mk.injEq] at h
        obtain ⟨rfl, rfl⟩ := h
        obtain ⟨uses₂, ht2, hf2, hx2⟩ := ih s1 s2 msgs' hr
        obtain ⟨st, hb, hmsgs, hs1⟩ := runPartition_cases rl picks now stepIdsToLabels
          stepRunIdsToRateLimits s s1 actionId qis msgs hp
        obtain ⟨sent, hsent, hall⟩ := runBatches_sent rl picks now actionId stepIdsToLabels
          stepRunIdsToRateLimits _ _ _ _ hb
        obtain ⟨uses₁, new, ht1, hr1, hf1, hx1⟩ := runBatches_rateLimited rl picks now actionId
          stepIdsToLabels stepRunIdsToRateLimits _ _ _ _ hb
        simp only [List.nil_append] at hsent hr1 ht1
        have hsentR : st.sent.flatMap (fun m => m.rateLimited) = [] := by
          rw [List.flatMap_eq_nil_iff]
          intro m hm
          rw [hsent] at hm
          obtain ⟨_, _, hbm⟩ := forall₂_mem_right hall m hm
          exact hbm.2.2.1
        have hmsgsR : msgs.flatMap (fun m => m.rateLimited) = new := by
          rw [hmsgs, List.flatMap_append, hsentR]
          simp [hr1]
        rw [subBatches_flatten] at hx1
        refine ⟨uses₁ ++ uses₂, ?_, ?_, ?_⟩
        · rw [ht2, hs1, ht1, List.append_assoc]
        · rw [failedUses_append, hf1, hf2, List.flatMap_append, hmsgsR, List.map_append]
        · intro x hx
          rw [List.flatMap_append, hmsgsR] at hx
          rcases List.mem_append.1 hx with hx | hx
          · obtain ⟨h1, h2⟩ := hx1 x hx
            exact ⟨h1, by simp [(List.mem_filter.1 h2).1]⟩
          · obtain ⟨h1, h2⟩ := hx2 x hx
            exact ⟨h1, by
              simp only [List.flatMap_cons, List.mem_append]
              exact Or.inr h2⟩

/-- C15: for every batch that `tryAssignBatch` returns, the results that carry
a rate-limit result are exactly the items whose reservation failed (the failed
`use` calls recorded in the trace, in order); such a result belongs to its own
item, its reservation did not succeed and it is not assigned.  The ack counter
advances by the number of assigned results, every new registry entry and every
changed slot belongs to the ack id of an assigned result that is not rate
limited.  When `tryAssign` returns, its rate-limited buckets hold exactly the
items whose reservation failed during the call. -/
theorem rate_limited_items_consume_nothing (rl : rateLimiter) (now : Int)
    (stepIdsToLabels : List (String × List GetDesiredLabelsRow))
    (stepRunIdsToRateLimits : List (String × List (String × Int))) :
    (∀ (s s' : Scheduler) (picks : List Nat) (actionId : String) (qis : List QueueItem)
      (ringOffset : Nat) (res : List assignSingleResult) (off' : Nat),
      s.tryAssignBatch rl picks now actionId qis ringOffset stepIdsToLabels
        stepRunIdsToRateLimits = some (res, off', s') →
      (∃ uses, s'.trace = s.trace ++ uses ∧
        failedUses uses =
          (res.filterMap (fun r => r.rateLimitResult)).map (fun x => x.qi.StepRunId)) ∧
      List.Forall₂ rateLimitedFor qis res ∧
      s'.assignedCount = s.assignedCount + (List.countP (fun r => r.succeeded) res : Int) ∧
      (∀ e ∈ s'.unackedSlots, e ∈ s.unackedSlots ∨
        ∃ r ∈ res, r.succeeded = true ∧ r.rateLimitResult = none ∧ r.ackId = e.1) ∧
      (∀ p : Nat, s'.heap[p]? ≠ s.heap[p]? →
        ∃ e ∈ s'.unackedSlots, e.2 = p ∧
          ∃ r ∈ res, r.succeeded = true ∧ r.rateLimitResult = none ∧ r.ackId = e.1)) ∧
    (∀ (s s' : Scheduler) (picks : String → Nat → List Nat) (qis : List QueueItem)
      (out : List assignResults),
      s.tryAssign rl picks now qis stepIdsToLabels stepRunIdsToRateLimits = some (out, s') →
      ∃ uses, s'.trace = s.trace ++ uses ∧
        failedUses uses = (out.flatMap (fun m => m.rateLimited)).map (fun x => x.qi.StepRunId) ∧
        ∀ x ∈ out.flatMap (fun m => m.rateLimited),
          x.rateLimitResult.succeeded = false ∧ x.qi ∈ qis) := by
  refine ⟨?_, ?_⟩
  · intro s s' picks actionId qis ringOffset res off' h
    exact tryAssignBatch_account s s' rl picks now actionId qis ringOffset stepIdsToLabels
      stepRunIdsToRateLimits res off' h
  · intro s s' picks qis out h
    obtain ⟨uses, h1, h2, h3⟩ := runPartitions_rateLimited rl picks now stepIdsToLabels
      stepRunIdsToRateLimits _ s s' out h
    have hgroup : ((groupByAction [] qis).flatMap (fun e => e.2)).Perm qis := by
      simpa using groupByAction_flatMap qis []
    exact ⟨uses, h1, h2, fun x hx => ⟨(h3 x hx).1, (List.Perm.mem_iff hgroup).1 (h3 x hx).2⟩⟩

theorem rate_limited_items_consume_nothing_witness :
    limitedResults.map (fun r => (r.succeeded, r.ackId, r.rateLimitResult.isSome)) =
        [(true, 1, false), (false, 0, true), (true, 2, false)] ∧
      limitedSched.unackedSlots = [(1, 0), (2, 1)] ∧
      limitedSched.assignedCount =
        schedBasic.assignedCount + (List.countP (fun r => r.succeeded) limitedResults : Int) ∧
      ∃ uses, limitedSched.trace = schedBasic.trace ++ uses ∧
        failedUses uses =
          (limitedOut.flatMap (fun m => m.rateLimited)).map (fun x => x.qi.StepRunId) ∧
        ∀ x ∈ limitedOut.flatMap (fun m => m.rateLimited),
          x.rateLimitResult.succeeded = false ∧ x.qi ∈ limitedItems :=
  ⟨by decide, by decide,
   ((rate_limited_items_consume_nothing rlDenyB 101 [] limitsAB).1 schedBasic limitedSched []
      "A" limitedItems 0 limitedResults 2 (by decide)).2.2.1,
   (rate_limited_items_consume_nothing rlDenyB 101 [] limitsAB).2 schedBasic limitedSched
      (fun _ _ => []) limitedItems limitedOut (by decide)⟩

/-! ## Two consecutive replenish calls -/

theorem wrapInt_of_small (x : Int) (h1 : -9223372036854775808 ≤ x) (h2 : x < 9223372036854775808) :
    wrapInt x = x := by
  unfold wrapInt
  omega

theorem toCancel_eq (r q m : Int) (hr : 0 ≤ r) (hq : 0 ≤ q) (hr' : r < 2305843009213693952)
    (hq' : q < 2305843009213693952) (hm : -2147483648 ≤ m) (hm' : m < 2147483648) :
    toCancel r q m = max 0 (r + q - m) := by
  unfold toCancel
  rw [wrapInt_of_small (r + q) (by omega) (by omega), wrapInt_of_small _ (by omega) (by omega)]

theorem toQueue_eq (r q m : Int) (hr : 0 ≤ r) (hq : 0 ≤ q) (hr' : r < 2305843009213693952)
    (hq' : q < 2305843009213693952) (hm : -2147483648 ≤ m) (hm' : m < 2147483648) :
    toQueue r q m = q := by
  unfold toQueue
  rw [toCancel_eq r q m hr hq hr' hq' hm hm']
  rw [wrapInt_of_small (r - max 0 (r + q - m)) (by omega) (by omega),
    wrapInt_of_small _ (by omega) (by omega)]
  omega

theorem queueLoop_all {α : Type} :
    ∀ (rows : List α) (i : Nat) (bound : Int), bound = (i : Int) + (rows.length : Int) →
      queueLoop bound i rows = some rows := by
  intro rows
  induction rows with
  | nil =>
    intro i bound h
    simp only [queueLoop, List.length_nil, Nat.cast_zero, add_zero] at h ⊢
    rw [if_neg (by omega)]
  | cons row rows ih =>
    intro i bound h
    simp only [List.length_cons, Nat.cast_add, Nat.cast_one] at h
    unfold queueLoop
    rw [if_pos (by omega), ih (i + 1) bound (by push_cast; omega)]
    rfl

theorem cancelLoop_eq {α : Type} :
    ∀ (rows : List α) (i : Nat) (bound : Int),
      cancelLoop bound i rows = rows.take (bound - (i : Int)).toNat := by
  intro rows
  induction rows with
  | nil => intro i bound; simp [cancelLoop]
  | cons row rows ih =>
    intro i bound
    unfold cancelLoop
    by_cases h : (i : Int) < bound
    · rw [if_pos h, ih]
      have : (bound - (i : Int)).toNat = (bound - ((i + 1 : Nat) : Int)).toNat + 1 := by
        push_cast; omega
      rw [this, List.take_succ_cons]
    · rw [if_neg h]
      have : (bound - (i : Int)).toNat = 0 := by omega
      rw [this, List.take_zero]

/-- C30: for listings of `runningCount` and `queuedCount` rows and every
`maxRuns` an `int32` can hold, `toQueue` equals `queuedCount`, so it is never
negative, the start loop reads `queuedWorkflowRuns.Rows[i]` only at indexes in
range, and it visits every queued row (each is started unless its run is
paused). -/
theorem toQueue_eq_queuedCount {α : Type} (runningRows queuedRows : List α) (maxRuns : Int)
    (hr : runningRows.length < 2305843009213693952)
    (hq : queuedRows.length < 2305843009213693952)
    (hm : -2147483648 ≤ maxRuns) (hm' : maxRuns < 2147483648) :
    toCancel runningRows.length queuedRows.length maxRuns =
        max 0 ((runningRows.length : Int) + (queuedRows.length : Int) - maxRuns) ∧
      toQueue runningRows.length queuedRows.length maxRuns = (queuedRows.length : Int) ∧
      0 ≤ toQueue runningRows.length queuedRows.length maxRuns ∧
      ∃ cancelled, queueByCancelInProgress runningRows queuedRows maxRuns =
        some (cancelled, queuedRows) := by
  have h1 := toCancel_eq (runningRows.length : Int) (queuedRows.length : Int) maxRuns
    (by omega) (by omega) (by omega) (by omega) hm hm'
  have h2 := toQueue_eq (runningRows.length : Int) (queuedRows.length : Int) maxRuns
    (by omega) (by omega) (by omega) (by omega) hm hm'
  refine ⟨h1, h2, by rw [h2]; omega, ?_⟩
  unfold queueByCancelInProgress
  simp only [h2]
  rw [queueLoop_all queuedRows 0 _ (by simp)]
  exact ⟨_, rfl⟩

theorem toQueue_eq_queuedCount_witness :
    toQueue 2 3 (-1) = 3 ∧
      queueByCancelInProgress ["r1", "r2"] ["q1", "q2", "q3"] (-1) =
        some (["r1", "r2"], ["q1", "q2", "q3"]) ∧
      ∃ cancelled, queueByCancelInProgress ["r1", "r2"] ["q1", "q2", "q3"] (-1) =
        some (cancelled, ["q1", "q2", "q3"]) :=
  ⟨by decide, by decide,
   (toQueue_eq_queuedCount ["r1", "r2"] ["q1", "q2", "q3"] (-1) (by decide) (by decide)
      (by decide) (by decide)).2.2.2⟩

theorem left_plus_started (r q m : Int) (hr : 0 ≤ r) (hq : 0 ≤ q) (hr' : r < 2305843009213693952)
    (hq' : q < 2305843009213693952) (hm : 0 ≤ m) (hm' : m < 2147483648) :
    (r - min (toCancel r q m) r + toQueue r q m ≤ m ↔ q ≤ m) := by
  rw [toCancel_eq r q m hr hq hr' hq' (by omega) hm', toQueue_eq r q m hr hq hr' hq' (by omega) hm']
  omega

/-- C29: with no running run, three queued runs and `maxRuns = 1`, the call
cancels nothing and starts all three queued runs, so the runs left running
plus the runs started are 3, more than `maxRuns`. -/
theorem queueByCancelInProgress_exceeds_maxRuns :
    toCancel 0 3 1 = 2 ∧ toQueue 0 3 1 = 3 ∧
      queueByCancelInProgress ([] : List String) ["q1", "q2", "q3"] 1 =
        some ([], ["q1", "q2", "q3"]) ∧
      ¬ ((0 : Int) - min (toCancel 0 3 1) 0 + toQueue 0 3 1 ≤ 1) := by
  decide

/-! ## Selection of the actions to replenish -/

theorem buildActionMaps_fst (x : String) :
    ∀ (rows : List ListActionsForWorkersRow) (m₁ m₂ : List (String × List String)),
      (m₁.map Prod.fst).Nodup →
      ((buildActionMaps m₁ m₂ rows).1.map Prod.fst).Nodup ∧
      mapGetList (buildActionMaps m₁ m₂ rows).1 x = mapGetList m₁ x ++ workersFor rows x ∧
      (mapGet (buildActionMaps m₁ m₂ rows).1 x = none ↔
        mapGet m₁ x = none ∧ ∀ row ∈ rows, row.ActionId ≠ some x) := by
  intro rows
  induction rows with
  | nil => intro m₁ m₂ h; simp [buildActionMaps, workersFor, h]
  | cons row rows ih =>
    intro m₁ m₂ h
    unfold buildActionMaps
    cases ha : row.ActionId with
    | none =>
      obtain ⟨h1, h2, h3⟩ := ih m₁ m₂ h
      refine ⟨h1, ?_, ?_⟩
      · rw [h2]; simp [workersFor, List.filter_cons, ha]
      · rw [h3]; simp [ha]
    | some y =>
      simp only
      obtain ⟨h1, h2, h3⟩ := ih (mapSet m₁ y (mapGetList m₁ y ++ [row.WorkerId]))
        (mapSet m₂ row.WorkerId (mapGetList m₂ row.WorkerId ++ [y])) (mapSet_keys_nodup _ _ _ h)
      refine ⟨h1, ?_, ?_⟩
      · rw [h2]
        by_cases hyx : y = x
        · subst hyx
          simp [workersFor, List.filter_cons, ha, mapGetList_mapSet_self]
        · have : ¬ (some y = some x) := fun e => hyx (Option.some.inj e)
          simp [workersFor, List.filter_cons, ha, this, mapGetList_mapSet_of_ne _ _ _ _ hyx]
      · rw [h3]
        by_cases hyx : y = x
        · subst hyx
          simp [mapGet_mapSet_self, ha]
        · have : ¬ (some y = some x) := fun e => hyx (Option.some.inj e)
          simp [mapGet_mapSet_of_ne _ _ _ _ hyx, ha, this]

theorem foldl_mapSet_entries {α β : Type} (f : String → α → β) (x : String) :
    ∀ (l : List (String × α)) (m : List (String × β)), (l.map Prod.fst).Nodup →
      mapGet (l.foldl (fun m e => mapSet m e.1 (f e.1 e.2)) m) x =
        match mapGet l x with
        | some v => some (f x v)
        | none => mapGet m x := by
  intro l
  induction l with
  | nil => intro m _; rfl
  | cons e l ih =>
    intro m hnd
    obtain ⟨k, v⟩ := e
    simp only [List.map_cons, List.nodup_cons] at hnd
    rw [List.foldl_cons, ih _ hnd.2]
    by_cases hk : k = x
    · subst hk
      have hnone : mapGet l k = none := (mapGet_eq_none_iff _ _).2 hnd.1
      simp [hnone, mapGet, mapGet_mapSet_self]
    · simp only [mapGet, hk, if_false]
      cases mapGet l x with
      | none => simp [mapGet_mapSet_of_ne _ _ _ _ hk]
      | some v' => rfl

theorem actionsToReplenish_get (now : Int) (s : Scheduler) (mustReplenish : Bool)
    (rowsA : List ListActionsForWorkersRow) (x : String)
    (hx : ∃ row ∈ rowsA, row.ActionId = some x) :
    mapGet (actionsToReplenish now s mustReplenish (buildActionMaps [] [] rowsA).1) x =
      some (shouldReplenish now s mustReplenish x (workersFor rowsA x)) := by
  obtain ⟨hnd, hlist, hnone⟩ := buildActionMaps_fst x rowsA [] [] List.nodup_nil
  have hsome : mapGet (buildActionMaps [] [] rowsA).1 x = some (workersFor rowsA x) := by
    cases hm : mapGet (buildActionMaps [] [] rowsA).1 x with
    | none =>
      obtain ⟨row, hrow, hr⟩ := hx
      exact absurd hr ((hnone.1 hm).2 row hrow)
    | some ws =>
      have : mapGetList (buildActionMaps [] [] rowsA).1 x = ws := by simp [mapGetList, hm]
      rw [hlist] at this
      simp only [mapGetList, mapGet, Option.getD_none, List.nil_append] at this
      rw [this]
  unfold actionsToReplenish
  rw [foldl_mapSet_entries (fun k ws => shouldReplenish now s mustReplenish k ws) x _ [] hnd, hsome]

theorem shouldReplenish_iff (now : Int) (s : Scheduler) (x : String) (workers : List String) :
    shouldReplenish now s false x workers = true ↔
      mapGet s.actions x = none ∨
        ∃ a, mapGet s.actions x = some a ∧
          (a.activeCount now s.heap = 0 ∨
            a.activeCount now s.heap ≤ Int.tdiv a.lastReplenishedSlotCount 2 ∨
            (workers.length : Int) > a.lastReplenishedWorkerCount) := by
  unfold shouldReplenish
  cases h : mapGet s.actions x with
  | none => simp
  | some a =>
    simp only [Bool.false_eq_true, if_false, false_or, Option.some.injEq, exists_eq_left']
    by_cases h0 : a.activeCount now s.heap = 0
    · simp [h0]
    · by_cases h1 : a.activeCount now s.heap ≤ Int.tdiv a.lastReplenishedSlotCount 2
      · simp [h0, h1]
      · by_cases h2 : (workers.length : Int) > a.lastReplenishedWorkerCount
        · simp [h0, h1, h2]
        · simp [h0, h1, h2]

/-- C21: for every action of a row of the worker-action answer (with a valid
action id), the entry `actionsToReplenish[actionId]` is set; with
`mustReplenish = true` it is true; with `mustReplenish = false` it is true
exactly when the action is not in the action table, or its `activeCount` is 0,
or its `activeCount` is at most `lastReplenishedSlotCount / 2` (Go integer
division), or the number of workers listed for it exceeds
`lastReplenishedWorkerCount`.  The workers listed are the workers of the rows
of the action. -/
theorem selection_rule (now : Int) (s : Scheduler) (mustReplenish : Bool)
    (rowsA : List ListActionsForWorkersRow) (x : String)
    (hx : ∃ row ∈ rowsA, row.ActionId = some x) :
    mapGetList (buildActionMaps [] [] rowsA).1 x = workersFor rowsA x ∧
    mapGet (actionsToReplenish now s mustReplenish (buildActionMaps [] [] rowsA).1) x =
      some (shouldReplenish now s mustReplenish x (workersFor rowsA x)) ∧
    shouldReplenish now s true x (workersFor rowsA x) = true ∧
    (shouldReplenish now s false x (workersFor rowsA x) = true ↔
      mapGet s.actions x = none ∨
        ∃ a, mapGet s.actions x = some a ∧
          (a.activeCount now s.heap = 0 ∨
            a.activeCount now s.heap ≤ Int.tdiv a.lastReplenishedSlotCount 2 ∨
            ((workersFor rowsA x).length : Int) > a.lastReplenishedWorkerCount)) := by
  refine ⟨?_, actionsToReplenish_get now s mustReplenish rowsA x hx, by simp [shouldReplenish],
    shouldReplenish_iff now s x _⟩
  have := (buildActionMaps_fst x rowsA [] [] List.nodup_nil).2.1
  simpa [mapGetList, mapGet] using this

theorem selection_rule_witness :
    mapGet (actionsToReplenish 102 schedBasicAssigned false
        (buildActionMaps [] [] basicActionRows).1) "A" = some false ∧
      mapGet (actionsToReplenish 102 schedBasicAssigned true
        (buildActionMaps [] [] basicActionRows).1) "A" = some true ∧
      workersFor basicActionRows "A" = ["W1", "W2"] :=
  ⟨((selection_rule 102 schedBasicAssigned false basicActionRows "A"
      ⟨_, List.mem_cons_self _ _, rfl⟩).2.1).trans (by decide),
   ((selection_rule 102 schedBasicAssigned true basicActionRows "A"
      ⟨_, List.mem_cons_self _ _, rfl⟩).2.1).trans (by decide),
   by decide⟩

theorem one_le_tdiv_two (a : Int) : 1 ≤ Int.tdiv a 2 ↔ 2 ≤ a := by
  rcases le_or_lt 0 a with h | h
  · rw [Int.tdiv_eq_ediv h (by decide)]
    omega
  · have : Int.tdiv a 2 ≤ 0 := by
      have h2 : a = -(-a) := by omega
      rw [h2, Int.neg_tdiv, Int.tdiv_eq_ediv (by omega) (by decide)]
      omega
    omega

theorem schedOneSlot_reachable : Reachable schedOneSlot :=
  Reachable.replenish _ repoOne (fun _ l => l) 100 15 true (fun _ l => List.Perm.refl l)
    (Reachable.setWorkers _ _ Reachable.init)

/-- C22: the switch of FUNCTION 1 does not do what the comment above it states
(zero or one slots for an action: replenish all slots).  In a reachable
scheduler whose tracked action A holds a single slot, still active, with
`lastReplenishedSlotCount = 1` and `lastReplenishedWorkerCount = 1` and one
worker listed, a best-effort replenish does not select A and leaves the
scheduler as it is. -/
theorem one_active_slot_not_selected :
    Reachable schedOneSlot ∧
    mapGet schedOneSlot.actions "A" =
      some { slots := [0], lastReplenishedSlotCount := 1, lastReplenishedWorkerCount := 1 } ∧
    action.activeCount 101 schedOneSlot.heap
      { slots := [0], lastReplenishedSlotCount := 1, lastReplenishedWorkerCount := 1 } = 1 ∧
    mapGet (actionsToReplenish 101 schedOneSlot false
      (buildActionMaps [] [] [{ WorkerId := "W1", ActionId := some "A" }]).1) "A" = some false ∧
    schedOneSlot.replenish repoOne (fun _ l => l) 101 15 false = (none, schedOneSlot) :=
  ⟨schedOneSlot_reachable, by decide, by decide, by decide, by decide⟩

/-- What the switch of FUNCTION 1 does with few active slots: in a best-effort
replenish, a tracked action that the worker-action answer lists is selected
when it has no active slot; when it has exactly one active slot it is selected
exactly when `lastReplenishedSlotCount` is at least 2 or more workers are
listed for it than `lastReplenishedWorkerCount`. -/
theorem selection_with_few_active_slots (now : Int) (s : Scheduler)
    (rowsA : List ListActionsForWorkersRow) (x : String) (a : action)
    (hx : ∃ row ∈ rowsA, row.ActionId = some x) (ha : mapGet s.actions x = some a) :
    (a.activeCount now s.heap = 0 →
      mapGet (actionsToReplenish now s false (buildActionMaps [] [] rowsA).1) x = some true) ∧
    (a.activeCount now s.heap = 1 →
      (mapGet (actionsToReplenish now s false (buildActionMaps [] [] rowsA).1) x = some true ↔
        2 ≤ a.lastReplenishedSlotCount ∨
          ((workersFor rowsA x).length : Int) > a.lastReplenishedWorkerCount)) := by
  rw [actionsToReplenish_get now s false rowsA x hx]
  have hiff : shouldReplenish now s false x (workersFor rowsA x) = true ↔
      (a.activeCount now s.heap = 0 ∨
        a.activeCount now s.heap ≤ Int.tdiv a.lastReplenishedSlotCount 2 ∨
        ((workersFor rowsA x).length : Int) > a.lastReplenishedWorkerCount) := by
    rw [shouldReplenish_iff, ha]
    simp
  constructor
  · intro h0
    rw [Option.some.injEq, hiff]
    exact Or.inl h0
  · intro h1
    rw [Option.some.injEq, hiff, h1, one_le_tdiv_two]
    simp

theorem selection_with_few_active_slots_witness :
    mapGet (actionsToReplenish 200 schedOneSlot false
        (buildActionMaps [] [] [{ WorkerId := "W1", ActionId := some "A" }]).1) "A" = some true ∧
      ¬ mapGet (actionsToReplenish 101 schedOneSlot false
        (buildActionMaps [] [] [{ WorkerId := "W1", ActionId := some "A" }]).1) "A" = some true :=
  ⟨(selection_with_few_active_slots 200 schedOneSlot [{ WorkerId := "W1", ActionId := some "A" }]
      "A" { slots := [0], lastReplenishedSlotCount := 1, lastReplenishedWorkerCount := 1 }
      ⟨_, List.mem_cons_self _ _, rfl⟩ (by decide)).1 (by decide),
   fun h => absurd
     (((selection_with_few_active_slots 101 schedOneSlot
        [{ WorkerId := "W1", ActionId := some "A" }] "A"
        { slots := [0], lastReplenishedSlotCount := 1, lastReplenishedWorkerCount := 1 }
        ⟨_, List.mem_cons_self _ _, rfl⟩ (by decide)).2 (by decide)).1 h)
     (by decide)⟩

theorem schedShared_reachable : Reachable schedShared :=
  Reachable.replenish _ repoShareFirst (fun _ l => l) 100 15 true (fun _ l => List.Perm.refl l)
    (Reachable.setWorkers _ _ Reachable.init)

/-- C26: action B is tracked with one active slot of W1 and one of W2; W1
takes up the new action A.  The best-effort replenish at instant 101 does not
select B (two active slots of two, two workers) and selects A, asks for the
slots of W1 only and returns nil; yet B is rewritten from the row of W1: its
two slots, neither of them expired, are replaced by the one fresh slot of W1
and its `lastReplenishedSlotCount` drops from 2 to 1. -/
theorem replenish_rewrites_unselected_action :
    Reachable schedShared ∧
    mapGet schedShared.actions "B" =
      some { slots := [0, 1], lastReplenishedSlotCount := 2, lastReplenishedWorkerCount := 2 } ∧
    actionsToReplenish 101 schedShared false (buildActionMaps [] [] sharedActionRows).1 =
      [("B", false), ("A", true)] ∧
    uniqueWorkerIds (buildActionMaps [] [] sharedActionRows).1
      (actionsToReplenish 101 schedShared false (buildActionMaps [] [] sharedActionRows).1) =
      ["W1"] ∧
    sharedReplenish.1 = none ∧
    slotExpired 101 sharedReplenish.2.heap 0 = false ∧
    slotExpired 101 sharedReplenish.2.heap 1 = false ∧
    mapGet sharedReplenish.2.actions "B" =
      some { slots := [2], lastReplenishedSlotCount := 1, lastReplenishedWorkerCount := 2 } :=
  ⟨schedShared_reachable, by decide, by decide, by decide, by decide, by decide, by decide,
   by decide⟩

/-! ## Ring probing -/

theorem drop_eq_map_range' (l : List Nat) (k : Nat) :
    l.drop k = (List.range' k (l.length - k)).map (fun i => l.getD i 0) := by
  apply List.ext_getElem?
  intro j
  simp only [List.getElem?_drop, List.getElem?_map]
  by_cases h : j < l.length - k
  · have h' : k + j < l.length := by omega
    rw [List.getElem?_range' _ _ h]
    simp [List.getD_eq_getElem?_getD, List.getElem?_eq_getElem h']
  · have h1 : (List.range' k (l.length - k))[j]? = none :=
      List.getElem?_eq_none (by rw [List.length_range']; omega)
    have h2 : l[k + j]? = none := List.getElem?_eq_none (by omega)
    rw [h1, h2]
    rfl

theorem take_eq_map_range (l : List Nat) (k : Nat) (hk : k ≤ l.length) :
    l.take k = (List.range k).map (fun i => l.getD i 0) := by
  apply List.ext_getElem?
  intro j
  simp only [List.getElem?_map]
  by_cases h : j < k
  · have h' : j < l.length := by omega
    rw [List.getElem?_take_of_lt h, List.getElem?_range h]
    simp [List.getD_eq_getElem?_getD, List.getElem?_eq_getElem h']
  · have h1 : (List.range k)[j]? = none :=
      List.getElem?_eq_none (by rw [List.length_range]; omega)
    have h2 : (l.take k)[j]? = none :=
      List.getElem?_eq_none (by rw [List.length_take]; omega)
    rw [h1, h2]
    rfl

theorem probeIndices_spec (n off : Nat) (hoff : off ≤ n) :
    (probeIndices n off).Nodup ∧ ∀ i, i ∈ probeIndices n off ↔ i < n := by
  constructor
  · refine List.Nodup.append (List.nodup_range' _ _) (List.nodup_range _) ?_
    intro i h1 h2
    have := List.mem_range'_1.1 h1
    have := List.mem_range.1 h2
    omega
  · intro i
    simp only [probeIndices, List.mem_append, List.mem_range'_1, List.mem_range]
    omega

/-- C23: for an item without sticky strategy and without desired labels, a
candidate list of `n ≥ 1` slots and a ring offset below `n`: the probes read
the candidates at the indexes `ringOffset, ..., n-1, 0, ..., ringOffset-1`,
each index of the list once.  If no candidate is active the call returns
`noSlots` and leaves the scheduler as it is; if some candidate is active the
call succeeds and claims the first active slot of that order (every slot
before it in the order is inactive), under the next ack id. -/
theorem ring_probe_claims_first_active (s : Scheduler) (now : Int) (qi : QueueItem)
    (candidateSlots : List Nat) (ringOffset : Nat) (a n : Option closure)
    (hs : qi.Sticky = none) (hoff : ringOffset < candidateSlots.length) :
    ringOrder candidateSlots ringOffset =
      (probeIndices candidateSlots.length ringOffset).map (fun i => candidateSlots.getD i 0) ∧
    (probeIndices candidateSlots.length ringOffset).Nodup ∧
    (∀ i, i ∈ probeIndices candidateSlots.length ringOffset ↔ i < candidateSlots.length) ∧
    ((∀ p ∈ candidateSlots, slotActive now s.heap p = false) →
      s.tryAssignSingleton now qi candidateSlots ringOffset [] a n =
        some ({ assignSingleResult.zero none with noSlots := true }, s)) ∧
    ((∃ p ∈ candidateSlots, slotActive now s.heap p = true) →
      ∃ (pre : List Nat) (p : Nat) (post : List Nat) (sl : slot),
        ringOrder candidateSlots ringOffset = pre ++ p :: post ∧
        (∀ q ∈ pre, slotActive now s.heap q = false) ∧
        s.heap[p]? = some sl ∧ sl.active now = true ∧
        s.tryAssignSingleton now qi candidateSlots ringOffset [] a n =
          some ({ assignSingleResult.zero none with
                    ackId := s.assignedCount + 1, workerId := sl.workerId, succeeded := true },
                { s with
                  heap := s.heap.set p
                    { sl with usedOnce := true, rateLimitAcks := [a], rateLimitNacks := [n] },
                  assignedCount := s.assignedCount + 1,
                  unackedSlots := mapSet s.unackedSlots (s.assignedCount + 1) p })) := by
  have hspec := probeIndices_spec candidateSlots.length ringOffset (Nat.le_of_lt hoff)
  have heq := tryAssignSingleton_eq s now qi candidateSlots ringOffset [] a n
  rw [rankedFor_plain s.heap qi candidateSlots hs, if_neg (by omega)] at heq
  refine ⟨?_, hspec.1, hspec.2, ?_, ?_⟩
  · simp only [ringOrder, probeIndices, List.map_append]
    rw [drop_eq_map_range', take_eq_map_range _ _ (Nat.le_of_lt hoff)]
  · intro hnone
    have hfind : (ringOrder candidateSlots ringOffset).find?
        (fun p => slotActive now s.heap p) = none := by
      rw [List.find?_eq_none]
      intro p hp
      rw [hnone p ((mem_ringOrder_iff _ _ _).1 hp)]
      simp
    rw [heq, hfind]
  · rintro ⟨p₀, hp₀, hact₀⟩
    cases hfind : (ringOrder candidateSlots ringOffset).find?
        (fun p => slotActive now s.heap p) with
    | none =>
      rw [List.find?_eq_none] at hfind
      exact absurd hact₀ (hfind p₀ ((mem_ringOrder_iff _ _ _).2 hp₀))
    | some p =>
      obtain ⟨hp, pre, post, hsplit, hpre⟩ := List.find?_eq_some.1 hfind
      obtain ⟨sl, hsl, hact⟩ := (slotActive_eq_true_iff now s.heap p).1 hp
      refine ⟨pre, p, post, sl, hsplit, fun q hq => by simpa using hpre q hq, hsl, hact, ?_⟩
      rw [heq, hfind]
      simp only [claimSlot_eq_set a n s.heap p sl now hsl hact, getWorkerId,
        List.getElem?_set, (List.getElem?_eq_some_iff.1 hsl).1, if_true, Option.map_some',
        Option.getD_some]

theorem ring_probe_claims_first_active_witness :
    probeIndices 3 1 = [1, 2, 0] ∧ ringOrder [0, 1, 2] 1 = [1, 2, 0] ∧
      ∃ (pre : List Nat) (p : Nat) (post : List Nat) (sl : slot),
        ringOrder [0, 1, 2] 1 = pre ++ p :: post ∧
        (∀ q ∈ pre, slotActive 101 limitedSched.heap q = false) ∧
        limitedSched.heap[p]? = some sl ∧ sl.active 101 = true ∧
        limitedSched.tryAssignSingleton 101 (plainItem 7 "g") [0, 1, 2] 1 [] none none =
          some ({ assignSingleResult.zero none with
                    ackId := limitedSched.assignedCount + 1, workerId := sl.workerId,
                    succeeded := true },
                { limitedSched with
                  heap := limitedSched.heap.set p
                    { sl with usedOnce := true, rateLimitAcks := [none], rateLimitNacks := [none] },
                  assignedCount := limitedSched.assignedCount + 1,
                  unackedSlots :=
                    mapSet limitedSched.unackedSlots (limitedSched.assignedCount + 1) p }) :=
  ⟨by decide, by decide,
   (ring_probe_claims_first_active limitedSched 101 (plainItem 7 "g") [0, 1, 2] 1 none none rfl
      (by decide)).2.2.2.2 ⟨2, by decide, by decide⟩⟩

/-! ## Slice bounds and the modulo of the ring offset -/

/-- C24: on the basic scenario (slots 0 and 1 of W1, slot 2 of W2, no worker
labels), with the ring offsets `tryAssignBatch` computes modulo the length 3
of the slot list.  An item whose step requires the label `gpu` is ranked to
the empty list, and the second item of a batch, at ring offset `1 % 3`, slices
that list out of range; a sticky HARD item for W2 is ranked to the one slot of
W2, and as third item of a batch, at ring offset `2 % 3`, slices that list out
of range.  Both `tryAssignSingleton` calls panic, and so do the batches. -/
theorem ranked_slice_out_of_range :
    rankedFor schedBasic.heap (plainItem 2 "b") [gpuLabel] [0, 1, 2] = [] ∧
    schedBasic.tryAssignSingleton 101 (plainItem 2 "b") [0, 1, 2] (1 % 3) [gpuLabel] none none
      = none ∧
    schedBasic.tryAssignBatch rlAdmitAll [] 101 "A" [plainItem 1 "a", plainItem 2 "b"] 0
      labelsGpu [] = none ∧
    rankedFor schedBasic.heap (hardItemW2 3 "c") [] [0, 1, 2] = [2] ∧
    schedBasic.tryAssignSingleton 101 (hardItemW2 3 "c") [0, 1, 2] (2 % 3) [] none none = none ∧
    schedBasic.tryAssignBatch rlAdmitAll [] 101 "A"
      [plainItem 1 "a", plainItem 2 "b", hardItemW2 3 "c"] 0 [] [] = none := by
  decide

theorem reachable_slots_nonempty (s : Scheduler) (hs : Reachable s) :
    ∀ e ∈ s.actions, 1 ≤ e.2.slots.length := by
  induction hs with
  | init => intro e he; cases he
  | setWorkers s workers _ ih => exact ih
  | ack s ids _ ih => rw [ack_actions]; exact ih
  | nack s ids _ ih => rw [nack_actions]; exact ih
  | replenish s repo shuffle now ttl must _ _ ih =>
    rcases replenish_cases s repo shuffle now ttl must with ⟨_, h⟩ | ⟨_, acts, h⟩
    · rw [h]; exact ih
    · rw [h]; exact fun e he => mem_removeEmpty _ e he
  | tryAssign s s' rl picks now qis l r out _ h ih =>
    rw [tryAssign_actions s s' rl picks now qis l r out h]; exact ih

theorem spawnTasks_offsets (len : Nat) :
    ∀ (qis : List QueueItem) (cs : List (assignSingleResult × Option closure × Option closure))
      (i off : Nat),
      ∀ t ∈ (spawnTasks len i off qis cs).1, ∃ k, off ≤ k ∧ t.childRingOffset = k % len := by
  intro qis
  induction qis with
  | nil => intro cs i off t ht; simp [spawnTasks] at ht
  | cons qi qis ih =>
    intro cs i off t ht
    cases cs with
    | nil => simp [spawnTasks] at ht
    | cons c cs =>
      unfold spawnTasks at ht
      by_cases hc : c.1.rateLimitResult.isSome = true
      · rw [if_pos hc] at ht
        exact ih cs (i + 1) off t ht
      · rw [if_neg hc] at ht
        rcases List.mem_cons.1 ht with h | h
        · exact ⟨off, le_refl _, by rw [h]⟩
        · obtain ⟨k, hk, hk'⟩ := ih cs (i + 1) (off + 1) t h
          exact ⟨k, by omega, hk'⟩

/-- C25: in a reachable state, when `tryAssignBatch` finds its action in the
action table the slot list has at least one slot, so the modulo
`newRingOffset % len(candidateSlots)` has a non-zero divisor, every child ring
offset lies below `len(candidateSlots)`, and the call goes on to run its
goroutines. -/
theorem ring_offset_modulo_safe (s : Scheduler) (hs : Reachable s) (rl : rateLimiter)
    (picks : List Nat) (now : Int) (actionId : String) (qis : List QueueItem) (ringOffset : Nat)
    (stepIdsToLabels : List (String × List GetDesiredLabelsRow))
    (stepRunIdsToRateLimits : List (String × List (String × Int)))
    (act : action) (hact : mapGet s.actions actionId = some act) :
    1 ≤ act.slots.length ∧
    (∀ t ∈ (spawnTasks act.slots.length 0 ringOffset qis
        (checkRateLimits rl stepRunIdsToRateLimits s.trace qis).1).1,
      t.childRingOffset < act.slots.length) ∧
    s.tryAssignBatch rl picks now actionId qis ringOffset stepIdsToLabels stepRunIdsToRateLimits =
      (runTasks now act.slots stepIdsToLabels
          { s with trace := (checkRateLimits rl stepRunIdsToRateLimits s.trace qis).2 }
          ((checkRateLimits rl stepRunIdsToRateLimits s.trace qis).1.map (fun r => r.1))
          (interleave
            (spawnTasks act.slots.length 0 ringOffset qis
              (checkRateLimits rl stepRunIdsToRateLimits s.trace qis).1).1.length picks
            (spawnTasks act.slots.length 0 ringOffset qis
              (checkRateLimits rl stepRunIdsToRateLimits s.trace qis).1).1)).map
        (fun r => (r.1,
          (spawnTasks act.slots.length 0 ringOffset qis
            (checkRateLimits rl stepRunIdsToRateLimits s.trace qis).1).2, r.2)) := by
  have hpos : 1 ≤ act.slots.length :=
    reachable_slots_nonempty s hs (actionId, act) (mem_of_mapGet _ _ _ hact)
  refine ⟨hpos, ?_, ?_⟩
  · intro t ht
    obtain ⟨k, _, hk⟩ := spawnTasks_offsets act.slots.length qis _ 0 ringOffset t ht
    rw [hk]
    exact Nat.mod_lt _ hpos
  · unfold Scheduler.tryAssignBatch
    simp only [hact]
    rw [if_neg (fun h => by omega)]
    cases runTasks now act.slots stepIdsToLabels
        { s with trace := (checkRateLimits rl stepRunIdsToRateLimits s.trace qis).2 }
        ((checkRateLimits rl stepRunIdsToRateLimits s.trace qis).1.map (fun r => r.1))
        (interleave
          (spawnTasks act.slots.length 0 ringOffset qis
            (checkRateLimits rl stepRunIdsToRateLimits s.trace qis).1).1.length picks
          (spawnTasks act.slots.length 0 ringOffset qis
            (checkRateLimits rl stepRunIdsToRateLimits s.trace qis).1).1) with
    | none => rfl
    | some r => rfl

theorem ring_offset_modulo_safe_witness :
    1 ≤ actionBasic.slots.length ∧
      ∀ t ∈ (spawnTasks actionBasic.slots.length 0 7 fourItems
          (checkRateLimits rlAdmitAll [] schedBasicAssigned.trace fourItems).1).1,
        t.childRingOffset < actionBasic.slots.length :=
  ⟨(ring_offset_modulo_safe schedBasicAssigned schedBasicAssigned_reachable rlAdmitAll [] 101 "A"
      fourItems 7 [] [] actionBasic (by decide)).1,
   (ring_offset_modulo_safe schedBasicAssigned schedBasicAssigned_reachable rlAdmitAll [] 101 "A"
      fourItems 7 [] [] actionBasic (by decide)).2.1⟩

/-! ## One slot group for every action of a worker -/

theorem mapGet_mapDelete_of_ne {κ α : Type} [DecidableEq κ] (m : List (κ × α)) (k k' : κ)
    (h : k' ≠ k) : mapGet (mapDelete m k) k' = mapGet m k' := by
  induction m with
  | nil => rfl
  | cons e m ih =>
    obtain ⟨k₀, v⟩ := e
    by_cases h0 : k₀ = k
    · have h1 : k₀ ≠ k' := fun h2 => h (h2.symm.trans h0)
      simpa [mapDelete, h0, mapGet, h1, h0 ▸ h1] using ih
    · by_cases h1 : k₀ = k'
      · subst h1
        simp [mapDelete, h0, mapGet]
      · simpa [mapDelete, h0, mapGet, h1] using ih

theorem flatMap_filter_of_nil {α β : Type} (f g : α → List β) (q : α → Bool) :
    ∀ l : List α, (∀ i ∈ l, g i = if q i = true then f i else []) →
      l.flatMap g = (l.filter q).flatMap f := by
  intro l
  induction l with
  | nil => intro _; rfl
  | cons x l ih =>
    intro h
    have hx := h x (List.mem_cons_self _ _)
    have hl := ih (fun i hi => h i (List.mem_cons_of_mem _ hi))
    cases hq : q x with
    | true =>
      rw [hq] at hx
      simp only [List.flatMap_cons, List.filter_cons, hq, if_true, hx, hl]
    | false =>
      rw [hq] at hx
      simp only [List.flatMap_cons, List.filter_cons, hq, hx, hl]
      simp

theorem firstOccurrences_mem : ∀ (ids : List Int) (i : Int), i ∈ firstOccurrences ids ↔ i ∈ ids := by
  intro ids
  induction ids with
  | nil => intro i; simp [firstOccurrences]
  | cons j ids ih =>
    intro i
    by_cases h : i = j
    · simp [firstOccurrences, h]
    · simp [firstOccurrences, List.mem_filter, ih, h]

theorem firstOccurrences_nodup : ∀ ids : List Int, (firstOccurrences ids).Nodup := by
  intro ids
  induction ids with
  | nil => exact List.nodup_nil
  | cons j ids ih =>
    unfold firstOccurrences
    refine List.nodup_cons.mpr ⟨?_, ih.filter _⟩
    intro h
    have := (List.mem_filter.mp h).2
    simp at this

theorem filter_registry_absent (m : List (Int × Nat)) (i : Int) (ids : List Int)
    (h : mapGet m i = none) :
    m.filter (fun e => decide (e.1 ∉ i :: ids)) = m.filter (fun e => decide (e.1 ∉ ids)) := by
  apply List.filter_congr
  intro e he
  have hne : e.1 ≠ i := by
    intro heq
    exact (mapGet_eq_none_iff m i).mp h (heq ▸ List.mem_map_of_mem Prod.fst he)
  simp [hne]

theorem filter_registry_deleted (m : List (Int × Nat)) (i : Int) (ids : List Int) :
    (mapDelete m i).filter (fun e => decide (e.1 ∉ ids)) =
      m.filter (fun e => decide (e.1 ∉ i :: ids)) := by
  unfold mapDelete
  rw [List.filter_filter]
  apply List.filter_congr
  intro e _
  by_cases h : e.1 = i <;> simp [h]

theorem ack_closed (ids : List Int) :
    ∀ s : Scheduler, s.ack ids =
      { s with trace := s.trace ++ (firstOccurrences ids).flatMap (ackEvents s),
               unackedSlots := s.unackedSlots.filter (fun e => decide (e.1 ∉ ids)) } := by
  induction ids with
  | nil => intro s; cases s; simp [Scheduler.ack, firstOccurrences]
  | cons i ids ih =>
    intro s
    unfold Scheduler.ack
    cases hg : mapGet s.unackedSlots i with
    | none =>
      simp only
      rw [ih s, filter_registry_absent _ _ _ hg]
      have hev : ackEvents s i = [] := by simp [ackEvents, hg]
      have hfm : (firstOccurrences ids).flatMap (ackEvents s) =
          ((firstOccurrences ids).filter (fun j => decide (j ≠ i))).flatMap (ackEvents s) := by
        apply flatMap_filter_of_nil
        intro j _
        by_cases hj : j = i
        · simp [hj, hev]
        · simp [hj]
      simp only [firstOccurrences, List.flatMap_cons, hev, List.nil_append, ← hfm]
    | some p =>
      simp only
      rw [ih, filter_registry_deleted]
      have hev : ackEvents s i = slotAckEvents s.heap p := by simp [ackEvents, hg]
      have hfm : (firstOccurrences ids).flatMap
          (ackEvents { s with trace := s.trace ++ slotAckEvents s.heap p,
                              unackedSlots := mapDelete s.unackedSlots i }) =
          ((firstOccurrences ids).filter (fun j => decide (j ≠ i))).flatMap (ackEvents s) := by
        apply flatMap_filter_of_nil
        intro j _
        by_cases hj : j = i
        · simp [hj, ackEvents, mapGet_mapDelete_self]
        · simp [hj, ackEvents, mapGet_mapDelete_of_ne _ _ _ hj]
      simp only [firstOccurrences, List.flatMap_cons, hev, hfm, List.append_assoc]

theorem nack_closed (ids : List Int) :
    ∀ s : Scheduler, s.nack ids =
      { s with trace := s.trace ++ (firstOccurrences ids).flatMap (nackEvents s),
               unackedSlots := s.unackedSlots.filter (fun e => decide (e.1 ∉ ids)) } := by
  induction ids with
  | nil => intro s; cases s; simp [Scheduler.nack, firstOccurrences]
  | cons i ids ih =>
    intro s
    unfold Scheduler.nack
    cases hg : mapGet s.unackedSlots i with
    | none =>
      simp only
      rw [ih s, filter_registry_absent _ _ _ hg]
      have hev : nackEvents s i = [] := by simp [nackEvents, hg]
      have hfm : (firstOccurrences ids).flatMap (nackEvents s) =
          ((firstOccurrences ids).filter (fun j => decide (j ≠ i))).flatMap (nackEvents s) := by
        apply flatMap_filter_of_nil
        intro j _
        by_cases hj : j = i
        · simp [hj, hev]
        · simp [hj]
      simp only [firstOccurrences, List.flatMap_cons, hev, List.nil_append, ← hfm]
    | some p =>
      simp only
      rw [ih, filter_registry_deleted]
      have hev : nackEvents s i = slotNackEvents s.heap p := by simp [nackEvents, hg]
      have hfm : (firstOccurrences ids).flatMap
          (nackEvents { s with trace := s.trace ++ slotNackEvents s.heap p,
                               unackedSlots := mapDelete s.unackedSlots i }) =
          ((firstOccurrences ids).filter (fun j => decide (j ≠ i))).flatMap (nackEvents s) := by
        apply flatMap_filter_of_nil
        intro j _
        by_cases hj : j = i
        · simp [hj, nackEvents, mapGet_mapDelete_self]
        · simp [hj, nackEvents, mapGet_mapDelete_of_ne _ _ _ hj]
      simp only [firstOccurrences, List.flatMap_cons, hev, hfm, List.append_assoc]

/-! ## Ack ids grow along the assignment path -/

theorem runTasks_ackIds (now : Int) (cand : List Nat)
    (stepIdsToLabels : List (String × List GetDesiredLabelsRow)) (c : Int) :
    ∀ (ts : List assignTask) (s s' : Scheduler) (res res' : List assignSingleResult),
      c ≤ s.assignedCount →
      (∀ r ∈ res, r.succeeded = true → c < r.ackId) →
      runTasks now cand stepIdsToLabels s res ts = some (res', s') →
      c ≤ s'.assignedCount ∧ (∀ r ∈ res', r.succeeded = true → c < r.ackId) ∧
        (∀ e ∈ s'.unackedSlots, e ∈ s.unackedSlots ∨ c < e.1) := by
  intro ts
  induction ts with
  | nil =>
    intro s s' res res' hc hres h
    simp only [runTasks, Option.some.injEq, Prod.mk.injEq] at h
    obtain ⟨rfl, rfl⟩ := h
    exact ⟨hc, hres, fun e he => Or.inl he⟩
  | cons t ts ih =>
    intro s s' res res' hc hres h
    unfold runTasks at h
    split at h
    · cases h
    · rename_i singleRes s1 hsing
      have key : c ≤ s1.assignedCount ∧ (singleRes.succeeded = true → c < singleRes.ackId) ∧
          (∀ e ∈ s1.unackedSlots, e ∈ s.unackedSlots ∨ c < e.1) := by
        rcases tryAssignSingleton_cases _ _ _ _ _ _ _ _ _ _ hsing with
          ⟨hr, hs1, _⟩ | ⟨p, sl, _, _, _, hr, hs1⟩
        · rw [hs1]
          refine ⟨hc, fun h => ?_, fun e he => Or.inl he⟩
          rw [hr] at h
          simp [assignSingleResult.zero] at h
        · rw [hs1, hr]
          refine ⟨by simp only; omega, fun _ => by simp only; omega, ?_⟩
          intro e he
          rcases mem_mapSet _ _ _ e he with h | h
          · right
            rw [h]
            simp only
            omega
          · exact Or.inl h
      obtain ⟨h1, h2, h3⟩ := ih s1 s' _ res' key.1 (by
        intro r hr hs
        rcases List.mem_or_eq_of_mem_set hr with h | h
        · exact hres r h hs
        · rw [h] at hs ⊢
          exact key.2.1 hs) h
      refine ⟨h1, h2, fun e he => ?_⟩
      rcases h3 e he with h | h
      · exact key.2.2 e h
      · exact Or.inr h

theorem tryAssignBatch_ackIds (s s' : Scheduler) (rl : rateLimiter) (picks : List Nat) (now : Int)
    (actionId : String) (qis : List QueueItem) (ringOffset : Nat)
    (stepIdsToLabels : List (String × List GetDesiredLabelsRow))
    (stepRunIdsToRateLimits : List (String × List (String × Int)))
    (res : List assignSingleResult) (off' : Nat) (c : Int) (hc : c ≤ s.assignedCount)
    (h : s.tryAssignBatch rl picks now actionId qis ringOffset stepIdsToLabels
      stepRunIdsToRateLimits = some (res, off', s')) :
    c ≤ s'.assignedCount ∧ (∀ r ∈ res, r.succeeded = true → c < r.ackId) ∧
      (∀ e ∈ s'.unackedSlots, e ∈ s.unackedSlots ∨ c < e.1) := by
  have hinit := checkRateLimits_init rl stepRunIdsToRateLimits qis s.trace
  unfold Scheduler.tryAssignBatch at h
  simp only at h
  generalize checkRateLimits rl stepRunIdsToRateLimits s.trace qis = checked at h hinit
  have hzero : ∀ r ∈ checked.1.map (fun c => c.1), r.succeeded = false := by
    intro r hr
    obtain ⟨c, hc, rfl⟩ := List.mem_map.1 hr
    obtain ⟨qi, _, hq⟩ := forall₂_mem_right hinit c hc
    exact hq.2.1
  split at h
  · simp only [Option.some.injEq, Prod.mk.injEq] at h
    obtain ⟨hres, _, hs'⟩ := h
    subst hs'
    refine ⟨hc, ?_, fun e he => Or.inl he⟩
    intro r hr hs
    rw [← hres] at hr
    obtain ⟨r', hr', rfl⟩ := List.mem_map.1 hr
    have := hzero r' hr'
    simp only at hs
    rw [this] at hs
    cases hs
  · split at h
    · cases h
    · split at h
      · cases h
      · rename_i res1 s2 hrun
        simp only [Option.some.injEq, Prod.mk.injEq] at h
        obtain ⟨hres, _, hs'⟩ := h
        subst hres hs'
        have hfresh : ∀ r ∈ checked.1.map (fun c => c.1), r.succeeded = true → c < r.ackId := by
          intro r hr hs
          rw [hzero r hr] at hs
          cases hs
        have hrun' := runTasks_ackIds now _ stepIdsToLabels c _ { s with trace := checked.2 } s2 _
          res1 hc hfresh hrun
        exact hrun'

theorem runBatches_ackIds (rl : rateLimiter) (picks : String → Nat → List Nat) (now : Int)
    (actionId : String) (stepIdsToLabels : List (String × List GetDesiredLabelsRow))
    (stepRunIdsToRateLimits : List (String × List (String × Int))) (c : Int) :
    ∀ (batches : List (List QueueItem)) (b : Nat) (st st' : partitionState),
      c ≤ st.s.assignedCount →
      (∀ m ∈ st.sent, ∀ a ∈ m.assigned, c < a.AckId) →
      runBatches rl picks now actionId stepIdsToLabels stepRunIdsToRateLimits b st batches
        = some st' →
      c ≤ st'.s.assignedCount ∧ (∀ m ∈ st'.sent, ∀ a ∈ m.assigned, c < a.AckId) ∧
        (∀ e ∈ st'.s.unackedSlots, e ∈ st.s.unackedSlots ∨ c < e.1) := by
  intro batches
  induction batches with
  | nil =>
    intro b st st' hc hsent h
    simp only [runBatches, Option.some.injEq] at h
    subst h
    exact ⟨hc, hsent, fun e he => Or.inl he⟩
  | cons batch rest ih =>
    intro b st st' hc hsent h
    unfold runBatches at h
    cases hb : st.s.tryAssignBatch rl (picks actionId b) now actionId batch st.ringOffset
        stepIdsToLabels stepRunIdsToRateLimits with
    | none => rw [hb] at h; cases h
    | some r =>
      obtain ⟨results, off', s1⟩ := r
      rw [hb] at h
      simp only at h
      obtain ⟨h1, h2, h3⟩ := tryAssignBatch_ackIds st.s s1 rl _ now actionId batch st.ringOffset
        stepIdsToLabels stepRunIdsToRateLimits results off' c hc hb
      obtain ⟨k1, k2, k3⟩ := ih (b + 1) _ st' h1 (by
        intro m hm a ha
        rcases List.mem_append.mp hm with hm | hm
        · exact hsent m hm a ha
        · simp only [List.mem_singleton] at hm
          subst hm
          simp only at ha
          rw [(collectResults_buckets results [] st.unassigned st.rateLimited).1] at ha
          simp only [List.nil_append, List.mem_map, List.mem_filter] at ha
          obtain ⟨r, ⟨hr, hs⟩, rfl⟩ := ha
          exact h2 r hr hs) h
      refine ⟨k1, k2, fun e he => ?_⟩
      rcases k3 e he with h | h
      · exact h3 e h
      · exact Or.inr h

theorem runPartitions_ackIds (rl : rateLimiter) (picks : String → Nat → List Nat) (now : Int)
    (stepIdsToLabels : List (String × List GetDesiredLabelsRow))
    (stepRunIdsToRateLimits : List (String × List (String × Int))) (c : Int) :
    ∀ (parts : List (String × List QueueItem)) (s s' : Scheduler) (out : List assignResults),
      c ≤ s.assignedCount →
      runPartitions rl picks now stepIdsToLabels stepRunIdsToRateLimits s parts = some (out, s') →
      c ≤ s'.assignedCount ∧ (∀ m ∈ out, ∀ a ∈ m.assigned, c < a.AckId) ∧
        (∀ e ∈ s'.unackedSlots, e ∈ s.unackedSlots ∨ c < e.1) := by
  intro parts
  induction parts with
  | nil =>
    intro s s' out hc h
    simp only [runPartitions, Option.some.injEq, Prod.mk.injEq] at h
    obtain ⟨rfl, rfl⟩ := h
    exact ⟨hc, fun m hm => (by cases hm), fun e he => Or.inl he⟩
  | cons part rest ih =>
    intro s s' out hc h
    obtain ⟨actionId, qis⟩ := part
    unfold runPartitions at h
    cases hp : runPartition rl picks now stepIdsToLabels stepRunIdsToRateLimits s actionId qis with
    | none => rw [hp] at h; cases h
    | some r =>
      obtain ⟨msgs, s1⟩ := r
      rw [hp] at h
      simp only at h
      cases hr : runPartitions rl picks now stepIdsToLabels stepRunIdsToRateLimits s1 rest with
      | none => rw [hr] at h; cases h
      | some r' =>
        obtain ⟨msgs', s2⟩ := r'
        rw [hr] at h
        simp only [Option.some.injEq, Prod.mk.injEq] at h
        obtain ⟨hout, hs2⟩ := h
        subst hout hs2
        obtain ⟨st, hrun, hmsgs, hs1⟩ := runPartition_cases rl picks now stepIdsToLabels
          stepRunIdsToRateLimits s s1 actionId qis msgs hp
        obtain ⟨h1, h2, h3⟩ := runBatches_ackIds rl picks now actionId stepIdsToLabels
          stepRunIdsToRateLimits c _ 0 _ st hc (fun m hm => (by cases hm)) hrun
        rw [← hs1] at h1 h3
        obtain ⟨k1, k2, k3⟩ := ih s1 s2 msgs' h1 hr
        refine ⟨k1, ?_, fun e he => ?_⟩
        · intro m hm a ha
          rcases List.mem_append.mp hm with hm | hm
          · rw [hmsgs] at hm
            rcases List.mem_append.mp hm with hm | hm
            · exact h2 m hm a ha
            · simp only [List.mem_singleton] at hm
              subst hm
              cases ha
          · exact k2 m hm a ha
        · rcases k3 e he with h | h
          · exact h3 e h
          · exact Or.inr h

theorem tryAssign_ackIds (s s' : Scheduler) (rl : rateLimiter) (picks : String → Nat → List Nat)
    (now : Int) (qis : List QueueItem) (stepIdsToLabels : List (String × List GetDesiredLabelsRow))
    (stepRunIdsToRateLimits : List (String × List (String × Int))) (out : List assignResults)
    (c : Int) (hc : c ≤ s.assignedCount)
    (h : s.tryAssign rl picks now qis stepIdsToLabels stepRunIdsToRateLimits = some (out, s')) :
    c ≤ s'.assignedCount ∧ (∀ m ∈ out, ∀ a ∈ m.assigned, c < a.AckId) ∧
      (∀ e ∈ s'.unackedSlots, e ∈ s.unackedSlots ∨ c < e.1) :=
  runPartitions_ackIds rl picks now stepIdsToLabels stepRunIdsToRateLimits c _ s s' out hc h

theorem replenish_assignedCount (s : Scheduler) (repo : schedulerRepo)
    (shuffle : String → List Nat → List Nat) (now ttl : Int) (mustReplenish : Bool) :
    (s.replenish repo shuffle now ttl mustReplenish).2.assignedCount = s.assignedCount := by
  unfold Scheduler.replenish
  simp only
  split
  · rfl
  · split <;> rfl

theorem reachable_registry_le (s : Scheduler) (hs : Reachable s) :
    ∀ e ∈ s.unackedSlots, e.1 ≤ s.assignedCount := by
  induction hs with
  | init => intro e he; cases he
  | setWorkers s workers _ ih => exact ih
  | ack s ids _ ih =>
    rw [ack_closed]
    exact fun e he => ih e (List.mem_filter.mp he).1
  | nack s ids _ ih =>
    rw [nack_closed]
    exact fun e he => ih e (List.mem_filter.mp he).1
  | replenish s repo shuffle now ttl must _ _ ih =>
    rw [replenish_unackedSlots, replenish_assignedCount]
    exact ih
  | tryAssign s s' rl picks now qis l r out _ h ih =>
    refine tryAssign_induction (fun u => ∀ e ∈ u.unackedSlots, e.1 ≤ u.assignedCount)
      (fun u tr hP => hP) ?_ s s' rl picks now qis l r out ih h
    intro u u' now' actionId act qi off labels a n res hP _ hcall
    rcases tryAssignSingleton_cases u u' now' qi act.slots off labels a n res hcall with
      ⟨_, hs', _⟩ | ⟨p, sl, _, _, _, _, hs'⟩
    · rw [hs']; exact hP
    · rw [hs']
      intro e he
      rcases mem_mapSet _ _ _ e he with h | h
      · rw [h]
      · have := hP e h
        simp only
        omega

theorem later_registry (b t : Scheduler) (ht : Relation.ReflTransGen Step b t) :
    b.assignedCount ≤ t.assignedCount ∧
      ∀ e ∈ t.unackedSlots, e ∈ b.unackedSlots ∨ b.assignedCount < e.1 := by
  induction ht with
  | refl => exact ⟨le_refl _, fun e he => Or.inl he⟩
  | @tail t t' _ hstep ih =>
    cases hstep with
    | setWorkers workers => exact ih
    | ack ids =>
      rw [ack_closed]
      exact ⟨ih.1, fun e he => ih.2 e (List.mem_filter.mp he).1⟩
    | nack ids =>
      rw [nack_closed]
      exact ⟨ih.1, fun e he => ih.2 e (List.mem_filter.mp he).1⟩
    | replenish repo shuffle now ttl must _ =>
      rw [replenish_unackedSlots, replenish_assignedCount]
      exact ih
    | tryAssign _ rl picks now qis l r out h =>
      obtain ⟨h1, _, h3⟩ := tryAssign_ackIds t t' rl picks now qis l r out b.assignedCount ih.1 h
      refine ⟨h1, fun e he => ?_⟩
      rcases h3 e he with h | h
      · exact ih.2 e h
      · exact Or.inr h

/-- C28: `ack(ids)` and `nack(ids)` change the unacked registry and the trace
only.  The registry keeps, in order, exactly the entries whose ack id does not
occur in `ids`; the arena, the action table, the worker table and
`assignedCount` are unchanged; the trace gains, for each distinct id of `ids`
in the order of first occurrence, the events of one `slot.ack()`
(respectively `slot.nack()`) of the slot registered under the id, and nothing
for an id that is not registered, however often an id is repeated.  In a
reachable state, an id that was registered and is freed this way is at most
`assignedCount`; in every later state it is absent from the registry, and
every `tryAssign` call made there reports only ack ids above it. -/
theorem ack_nack_effect (s : Scheduler) (ids : List Int) :
    s.ack ids =
      { s with trace := s.trace ++ (firstOccurrences ids).flatMap (ackEvents s),
               unackedSlots := s.unackedSlots.filter (fun e => decide (e.1 ∉ ids)) } ∧
    s.nack ids =
      { s with trace := s.trace ++ (firstOccurrences ids).flatMap (nackEvents s),
               unackedSlots := s.unackedSlots.filter (fun e => decide (e.1 ∉ ids)) } ∧
    (firstOccurrences ids).Nodup ∧ (∀ i, i ∈ firstOccurrences ids ↔ i ∈ ids) ∧
    (Reachable s → ∀ i ∈ ids, ∀ p, mapGet s.unackedSlots i = some p →
      i ≤ s.assignedCount ∧
      ∀ b t : Scheduler, (b = s.ack ids ∨ b = s.nack ids) → Relation.ReflTransGen Step b t →
        mapGet t.unackedSlots i = none ∧
        ∀ (rl : rateLimiter) (picks : String → Nat → List Nat) (now : Int) (qis : List QueueItem)
          (stepIdsToLabels : List (String × List GetDesiredLabelsRow))
          (stepRunIdsToRateLimits : List (String × List (String × Int)))
          (out : List assignResults) (t' : Scheduler),
          t.tryAssign rl picks now qis stepIdsToLabels stepRunIdsToRateLimits = some (out, t') →
          ∀ m ∈ out, ∀ a ∈ m.assigned, i < a.AckId) := by
  refine ⟨ack_closed ids s, nack_closed ids s, firstOccurrences_nodup ids,
    firstOccurrences_mem ids, ?_⟩
  intro hs i hi p hp
  have hle : i ≤ s.assignedCount := reachable_registry_le s hs (i, p) (mem_of_mapGet _ _ _ hp)
  refine ⟨hle, ?_⟩
  intro b t hb ht
  have hbc : b.assignedCount = s.assignedCount ∧
      b.unackedSlots = s.unackedSlots.filter (fun e => decide (e.1 ∉ ids)) := by
    rcases hb with hb | hb
    · rw [hb, ack_closed]; exact ⟨rfl, rfl⟩
    · rw [hb, nack_closed]; exact ⟨rfl, rfl⟩
  obtain ⟨hcount, hreg⟩ := later_registry b t ht
  refine ⟨?_, ?_⟩
  · rw [mapGet_eq_none_iff]
    intro hmem
    obtain ⟨e, he, hei⟩ := List.mem_map.mp hmem
    rcases hreg e he with h | h
    · rw [hbc.2] at h
      have := (List.mem_filter.mp h).2
      simp only [decide_eq_true_eq] at this
      exact this (hei ▸ hi)
    · rw [hbc.1, hei] at h
      omega
  · intro rl picks now qis l r out t' hcall m hm a ha
    have := (tryAssign_ackIds t t' rl picks now qis l r out s.assignedCount
      (by rw [← hbc.1]; exact hcount) hcall).2.1 m hm a ha
    omega

/-- Witness for C28: ack id 1 of the basic scenario is nacked, with the id given
twice; after the later `tryAssign` call the id is not in the registry. -/
theorem ack_nack_effect_witness :
    Reachable schedBasicAssigned ∧ mapGet schedBasicAssigned.unackedSlots 1 = some 0 ∧
      mapGet schedAfterNack.unackedSlots 1 = none :=
  ⟨schedBasicAssigned_reachable, by decide,
   (((ack_nack_effect schedBasicAssigned [1, 1]).2.2.2.2 schedBasicAssigned_reachable 1
      (by decide) 0 (by decide)).2 (schedBasicAssigned.nack [1, 1]) schedAfterNack (Or.inr rfl)
     (Relation.ReflTransGen.single
       (Step.tryAssign _ _ rlAdmitAll (fun _ _ => []) 103
         [plainItem 2 "b", plainItem 3 "c", plainItem 4 "d"] [] [] nackOut
         (by decide : (schedBasicAssigned.nack [1, 1]).tryAssign rlAdmitAll (fun _ _ => []) 103
           [plainItem 2 "b", plainItem 3 "c", plainItem 4 "d"] [] [] =
             some (nackOut, schedAfterNack))))).1⟩

end Hatchet
